import Mathlib

set_option maxHeartbeats 1000000

namespace WireGuardManager

/-!
Shallow embedding of the configuration reconciliation engine of the
wireguard-manager backend (`backend/services/config.py`,
`backend/services/config_service.py`, `backend/services/peer_service.py`,
`backend/utils/lock.py`).

File contents are modelled as lists of lines (Python reads files line by
line and strips each line, so the newline-join of the lines is the file
text).  Python dicts are modelled as insertion-ordered association lists.
The whitespace set of `str.strip` is modelled by its ASCII fragment, which
is exhaustive for all inputs appearing in the claims.
-/

/-- ASCII fragment of Python's `str.strip` / `\s` whitespace class. -/
def isPySpace (c : Char) : Bool :=
  c = ' ' || c = '\t' || c = '\n' || c = '\r' || c = '\x0b' || c = '\x0c'

/-- `str.strip()` on a character list: drop whitespace from both ends. -/
def stripL (l : List Char) : List Char :=
  ((l.dropWhile isPySpace).reverse.dropWhile isPySpace).reverse

/-- Python `str.strip()`. -/
def pyStrip (s : String) : String :=
  String.mk (stripL s.data)

/-- A string unchanged by `strip` (no leading or trailing whitespace). -/
def StripFixed (s : String) : Prop := pyStrip s = s

/-- Python `s.endswith(suf)` (character-list level, as Python slices by
code point). -/
def pyEndsWith (s suf : String) : Bool := suf.data.isSuffixOf s.data

/-- Python `s[:-n]`. -/
def pyDropRight (s : String) (n : Nat) : String :=
  String.mk (s.data.take (s.data.length - n))

/-- Python `s.startswith(c)` for a single character. -/
def pyStartsWith (s : String) (c : Char) : Bool := s.data.head? = some c

/-! ### Insertion-ordered dictionaries (Python `dict`) -/

/-- A Python dict of strings: insertion-ordered association list with
unique keys (uniqueness is maintained by `dictSet`). -/
abbrev Dict := List (String × String)

/-- `d[k] = v` on a Python dict: replace in place if the key exists
(keeping its position), otherwise append. -/
def dictSet (d : Dict) (k v : String) : Dict :=
  if d.any (fun kv => kv.1 = k) then
    d.map (fun kv => if kv.1 = k then (k, v) else kv)
  else
    d ++ [(k, v)]

/-- `d.get(k)`: `some` value or `none`. -/
def dictGet (d : Dict) (k : String) : Option String :=
  (d.find? (fun kv => kv.1 = k)).map (fun kv => kv.2)

/-- `d.get(k, '')`. -/
def dictGetD (d : Dict) (k : String) : String :=
  (dictGet d k).getD ""

/-! ### The parsed configuration record (`WireGuardConfig` TypedDict) -/

structure WGConfig where
  interface : Dict
  peers : List Dict
deriving Repr, DecidableEq

/-! ### `parse_config` (backend/services/config.py lines 7-84)

The parser is a fold over the file's lines carrying the loop state of the
Python implementation. -/

inductive Sect where
  | iface
  | peer
deriving Repr, DecidableEq

structure PState where
  sect : Option Sect
  ifaceRec : Dict
  peers : List Dict
  cur : Dict
  pending : Option String
  lastComment : Bool
deriving Repr, DecidableEq

def initPState : PState :=
  { sect := none, ifaceRec := [], peers := [], cur := [],
    pending := none, lastComment := false }

/-- The key part of `line.split('=', 1)`. -/
def keyPart (line : String) : String :=
  pyStrip (String.mk (line.data.takeWhile (fun c => c ≠ '=')))

/-- The value part of `line.split('=', 1)`. -/
def valPart (line : String) : String :=
  pyStrip (String.mk ((line.data.dropWhile (fun c => c ≠ '=')).drop 1))

/-- One iteration of the `for line in f` loop of `parse_config`. -/
def pstep (s : PState) (rawLine : String) : PState :=
  let line := pyStrip rawLine
  if line = "" then
    -- blank line: clear a pending name only right after a comment line
    { s with pending := if s.lastComment && s.pending.isSome then none else s.pending,
             lastComment := false }
  else if pyStartsWith line '#' then
    -- comment: becomes the pending peer name unless inside [Interface]
    let commentText := pyStrip (String.mk (line.data.drop 1))
    if s.sect ≠ some Sect.iface ∧ commentText ≠ "" then
      { s with pending := some commentText, lastComment := true }
    else
      s
  else
    let s := { s with lastComment := false }
    if line = "[Interface]" then
      { s with sect := some Sect.iface, pending := none }
    else if line = "[Peer]" then
      { s with peers := if s.cur = [] then s.peers else s.peers ++ [s.cur],
               cur := match s.pending with
                      | some n => [("_name", n)]
                      | none => [],
               pending := none,
               sect := some Sect.peer }
    else if line.data.contains '=' then
      match s.sect with
      | some Sect.iface => { s with ifaceRec := dictSet s.ifaceRec (keyPart line) (valPart line) }
      | some Sect.peer => { s with cur := dictSet s.cur (keyPart line) (valPart line) }
      | none => s
    else
      s

/-- `parse_config` on the lines of an existing file. -/
def parseLines (ls : List String) : WGConfig :=
  let s := ls.foldl pstep initPState
  { interface := s.ifaceRec,
    peers := s.peers ++ (if s.cur = [] then [] else [s.cur]) }

/-! ### `write_config` (backend/services/config.py lines 87-115) -/

/-- `f'{key} = {value}'`. -/
def kvLine (k v : String) : String := k ++ " = " ++ v

/-- The lines written for one `[Peer]` block (only truthy values). -/
def peerBlock (p : Dict) : List String :=
  "[Peer]" :: (p.filter (fun kv => kv.2 ≠ "")).map (fun kv => kvLine kv.1 kv.2)

/-- The `\n# {peer_name}\n` prefix emitted before the first peer when
`peer_name` is truthy. -/
def nameComment (peerName : Option String) : List String :=
  match peerName with
  | some nm => if nm = "" then [] else ["", "# " ++ nm]
  | none => []

/-- `write_config`: the lines of the produced file.  The `[Interface]`
block is emitted only when the interface record is non-empty; a
`# {peer_name}` comment (preceded by a blank line) is emitted before the
first peer when `peer_name` is truthy. -/
def writeLines (cfg : WGConfig) (peerName : Option String) : List String :=
  (if cfg.interface = [] then [] else
    "[Interface]" :: cfg.interface.map (fun kv => kvLine kv.1 kv.2))
  ++ (match cfg.peers with
      | [] => []
      | p :: rest => nameComment peerName ++ peerBlock p ++ rest.flatMap peerBlock)

/-! ### Python `sorted` on strings

Python compares strings lexicographically by code point.  `strLeB` is that
order as a boolean; `sortB` is an insertion sort, extensionally equal to
Python's `sorted` (the sorted permutation of a list of strings is unique,
since equal strings are identical). -/

def strLeAux : List Char → List Char → Bool
  | [], _ => true
  | _ :: _, [] => false
  | x :: xs, y :: ys =>
    if x.toNat < y.toNat then true
    else if y.toNat < x.toNat then false
    else strLeAux xs ys

def strLeB (a b : String) : Bool := strLeAux a.data b.data

def insB (x : String) : List String → List String
  | [] => [x]
  | y :: ys => if strLeB x y then x :: y :: ys else y :: insB x ys

def sortB (l : List String) : List String := l.foldr insB []

/-! ### `ConfigService._normalize_allowed_ips`
(backend/services/config_service.py lines 51-62) -/

/-- A separator of `re.split(r'[\s,]+', ips)`. -/
def isSepChar (c : Char) : Bool := isPySpace c || c = ','

/-- Maximal runs of non-separator characters (`re.split` + drop empties). -/
def tokensGo (acc : List Char) : List Char → List (List Char)
  | [] => if acc = [] then [] else [acc.reverse]
  | c :: cs =>
    if isSepChar c then
      (if acc = [] then [] else [acc.reverse]) ++ tokensGo [] cs
    else
      tokensGo (c :: acc) cs

def pyTokens (s : String) : List String := (tokensGo [] s.data).map String.mk

/-- Append `/32` (IPv4) or `/128` (IPv6) when no prefix is present. -/
def ensureSlash (s : String) : String :=
  if s.data.contains '/' then s
  else if s.data.contains ':' then s ++ "/128"
  else s ++ "/32"

/-- `','.join(l)`. -/
def joinComma (l : List String) : String :=
  match l with
  | [] => ""
  | x :: xs => xs.foldl (fun acc y => acc ++ "," ++ y) x

/-- `'.'.join(l)`. -/
def joinDot (l : List String) : String :=
  match l with
  | [] => ""
  | x :: xs => xs.foldl (fun acc y => acc ++ "." ++ y) x

/-- `ConfigService._normalize_allowed_ips`. -/
def normalizeAllowedIPs (ips : String) : String :=
  if ips = "" then ""
  else joinComma (sortB ((pyTokens ips).map ensureSlash))

/-! ### Filesystem model

One interface's folder is a list of `(filename, lines)` pairs in
enumeration order (`os.listdir` yields this order); the canonical flat
file is carried separately as an `Option` of its lines. -/

abbrev FS := List (String × List String)

def fsRead (fs : FS) (n : String) : Option (List String) :=
  (fs.find? (fun f => f.1 = n)).map (fun f => f.2)

/-- Writing a file: overwrite in place, or create (append to the listing). -/
def fsWrite (fs : FS) (n : String) (c : List String) : FS :=
  if fs.any (fun f => f.1 = n) then
    fs.map (fun f => if f.1 = n then (n, c) else f)
  else
    fs ++ [(n, c)]

def fsRemove (fs : FS) (n : String) : FS := fs.filter (fun f => f.1 ≠ n)

/-- A folder entry considered a peer fragment by the services:
`file.endswith('.conf') and file != f"{interface}.conf"`. -/
def keepFile (iface f : String) : Bool :=
  pyEndsWith f ".conf" && f ≠ iface ++ ".conf"

/-- `{k: v for k, v in peer.items() if k != '_name'}`. -/
def stripName (p : Dict) : Dict := p.filter (fun kv => kv.1 ≠ "_name")

/-! ### `ConfigService.sync_config`
(backend/services/config_service.py lines 20-49)

The folder is iterated in `os.listdir` enumeration order (the list order
of the model); note the code does not sort. -/

def syncStep (iface : String) (acc : List Dict) (nc : String × List String) :
    List Dict :=
  if keepFile iface nc.1 then
    let pc := parseLines nc.2
    if pc.peers ≠ [] then acc ++ pc.peers.map stripName else acc
  else acc

def syncAssemble (iface : String) (dir : FS) (base : WGConfig) : WGConfig :=
  { base with peers := dir.foldl (syncStep iface) base.peers }

/-- `sync_config`: requires the interface fragment to exist, assembles the
base record plus every fragment's peers (stripping `_name`), and returns
the written canonical file (its lines).  `parse_config` always returns a
truthy dict for an existing file, so the `if not config` guard never
fires and is not modelled as a separate error. -/
def syncConfig (iface : String) (dir : FS) : Except String (List String) :=
  match fsRead dir (iface ++ ".conf") with
  | none => Except.error "Interface not found"
  | some frag =>
    Except.ok (writeLines (syncAssemble iface dir (parseLines frag)) none)

/-! ### `ConfigService.reset_config`
(backend/services/config_service.py lines 64-144) -/

/-- The pre-reset correlation index: `PublicKey -> name` and
`normalized AllowedIPs -> name` maps built from the folder's first peer
of each fragment (later files overwrite earlier entries, as Python dict
assignment does). -/
def resetIndex (iface : String) (dir : FS) : Dict × Dict :=
  dir.foldl (fun m nc =>
    if keepFile iface nc.1 then
      match (parseLines nc.2).peers with
      | [] => m
      | p :: _ =>
        let nm := pyDropRight nc.1 5
        let pk := dictGetD p "PublicKey"
        let ips := dictGetD p "AllowedIPs"
        let m1 := if pk ≠ "" then dictSet m.1 pk nm else m.1
        let m2 := if ips ≠ "" then
                    (let nrm := normalizeAllowedIPs ips
                     if nrm ≠ "" then dictSet m.2 nrm nm else m.2)
                  else m.2
        (m1, m2)
    else m) ([], [])

/-- Name resolution of `reset_config` for the peer at 0-based index
`idx`: `_name` annotation, then PublicKey index, then normalized
AllowedIPs index, then generated `peer{idx+1}` (empty string = falsy). -/
def resolvePeerName (byKey byIps : Dict) (idx : Nat) (p : Dict) : String :=
  let n0 := dictGetD p "_name"
  let pk := dictGetD p "PublicKey"
  let ips := dictGetD p "AllowedIPs"
  let n1 := if n0 = "" ∧ pk ≠ "" then
              match dictGet byKey pk with
              | some x => x
              | none => n0
            else n0
  let n2 := if n1 = "" ∧ ips ≠ "" then
              (let nrm := normalizeAllowedIPs ips
               if nrm ≠ "" then
                 match dictGet byIps nrm with
                 | some x => x
                 | none => n1
               else n1)
            else n1
  if n2 = "" then "peer" ++ toString (idx + 1) else n2

/-- `reset_config`: requires the canonical file to exist, indexes the
current folder, then rebuilds the folder from scratch: the interface
fragment (no peers) followed by one fragment per canonical peer, written
with `peer_name` so the file carries a leading name comment.  Writing is
`fsWrite`, so a repeated name overwrites the earlier fragment. -/
def resetConfig (iface : String) (canonical : Option (List String)) (dir : FS) :
    Except String FS :=
  match canonical with
  | none => Except.error "Config file not found"
  | some ctext =>
    let cfg := parseLines ctext
    let idxs := resetIndex iface dir
    let fragDir : FS :=
      fsWrite [] (iface ++ ".conf")
        (writeLines { interface := cfg.interface, peers := [] } none)
    Except.ok (cfg.peers.enum.foldl (fun d ip =>
      let nm := resolvePeerName idxs.1 idxs.2 ip.1 ip.2
      fsWrite d (nm ++ ".conf")
        (writeLines { interface := [], peers := [stripName ip.2] } (some nm))) fragDir)

/-! ### `ConfigService.get_config_diff`
(backend/services/config_service.py lines 165-227) -/

structure DiffPeer where
  name : String
  publicKey : String
  allowedIps : String
  endpoint : Option String
  keepalive : Option String
deriving Repr, DecidableEq

/-- Insertion sort of folder entries by filename (`sorted(os.listdir)`). -/
def insFS (x : String × List String) : FS → FS
  | [] => [x]
  | y :: ys => if strLeB x.1 y.1 then x :: y :: ys else y :: insFS x ys

def sortFS (fs : FS) : FS := fs.foldr insFS []

/-- The folder side of the diff: peers of every fragment, in sorted
filename order, named by `_name` comment or else by filename. -/
def folderPeersOf (iface : String) (dir : FS) : List DiffPeer :=
  (sortFS dir).flatMap (fun nc =>
    if keepFile iface nc.1 then
      let pc := parseLines nc.2
      if pc.peers ≠ [] then
        pc.peers.map (fun p =>
          { name := if dictGetD p "_name" ≠ "" then dictGetD p "_name"
                    else pyDropRight nc.1 5,
            publicKey := dictGetD p "PublicKey",
            allowedIps := dictGetD p "AllowedIPs",
            endpoint := dictGet p "Endpoint",
            keepalive := dictGet p "PersistentKeepalive" })
      else []
    else [])

/-- The match condition of the name-borrowing loop of `get_config_diff`:
PublicKey equality, or name equality with the default name, or nonempty
normalized AllowedIPs equality. -/
def diffMatch (defaultName pk ips : String) (fp : DiffPeer) : Bool :=
  fp.publicKey = pk ∨ fp.name = defaultName ∨
    (normalizeAllowedIPs ips ≠ "" ∧ normalizeAllowedIPs fp.allowedIps ≠ "" ∧
      normalizeAllowedIPs ips = normalizeAllowedIPs fp.allowedIps)

/-- The name-borrowing loop of `get_config_diff`: the first folder peer
(in the list order of `folder_peers`) satisfying `diffMatch` lends its
name; without a match the default name stays. -/
def borrowName (folderPeers : List DiffPeer) (defaultName pk ips : String) : String :=
  match folderPeers.find? (diffMatch defaultName pk ips) with
  | some fp => fp.name
  | none => defaultName

/-- One `current_config` entry of `get_config_diff`: default name from
`_name` or the generated `peer{idx+1}`, then borrowed from the folder
side. -/
def diffCurrentPeer (fps : List DiffPeer) (ip : Nat × Dict) : DiffPeer :=
  let p := ip.2
  let defaultName := if dictGetD p "_name" ≠ "" then dictGetD p "_name"
                     else "peer" ++ toString (ip.1 + 1)
  { name := borrowName fps defaultName (dictGetD p "PublicKey")
              (dictGetD p "AllowedIPs"),
    publicKey := dictGetD p "PublicKey",
    allowedIps := dictGetD p "AllowedIPs",
    endpoint := dictGet p "Endpoint",
    keepalive := dictGet p "PersistentKeepalive" }

/-- `get_config_diff`: returns `(current_config.peers, folder_config.peers)`. -/
def getConfigDiff (iface : String) (dir : FS) (canonical : Option (List String)) :
    Except String (List DiffPeer × List DiffPeer) :=
  if fsRead dir (iface ++ ".conf") = none then Except.error "Interface not found"
  else
    let fps := folderPeersOf iface dir
    let cps : List DiffPeer :=
      match canonical with
      | none => []
      | some ctext =>
        let fc := parseLines ctext
        if fc.peers ≠ [] then fc.peers.enum.map (diffCurrentPeer fps)
        else []
    Except.ok (cps, fps)

/-! ### Lock-and-check traces of `sync_config` / `reset_config` (C5)

`acquire_write_lock` (backend/utils/lock.py) releases in a `finally`
block, so an exception raised inside the `with` body is preceded by the
release on its way out.  Both operations take the exclusive lock keyed by
the canonical flat path first and only then test for existence. -/

inductive LockEv where
  | acq (path : String)
  | rel (path : String)
  | notFound
deriving Repr, DecidableEq

def canonPath (base iface : String) : String := base ++ "/" ++ iface ++ ".conf"

/-- The lock/error event trace of `sync_config`. -/
def syncEvents (base iface : String) (dir : FS) : List LockEv :=
  let p := canonPath base iface
  if fsRead dir (iface ++ ".conf") = none then
    [LockEv.acq p, LockEv.notFound, LockEv.rel p]
  else
    [LockEv.acq p, LockEv.rel p]

/-- The lock/error event trace of `reset_config`. -/
def resetEvents (base iface : String) (canonical : Option (List String)) : List LockEv :=
  let p := canonPath base iface
  match canonical with
  | none => [LockEv.acq p, LockEv.notFound, LockEv.rel p]
  | some _ => [LockEv.acq p, LockEv.rel p]

/-- Whether the exclusive lock on `p` is held after the first `i` events. -/
def lockHeldAfter (tr : List LockEv) (i : Nat) (p : String) : Bool :=
  (tr.take i).countP (fun e => e = LockEv.acq p) >
    (tr.take i).countP (fun e => e = LockEv.rel p)

/-! ### IPv4 model (the fragment of Python `ipaddress` used by
`PeerService.add_peer`)

Addresses are naturals below `2^32`.  IPv6 literals are not modelled: the
model's parsers fail on them, and every theorem below stays within the
IPv4 fragment. -/

/-- Split on a character, keeping empty chunks (Python `str.split(c)`). -/
def splitCharGo (c : Char) (acc : List Char) : List Char → List (List Char)
  | [] => [acc.reverse]
  | x :: xs =>
    if x = c then acc.reverse :: splitCharGo c [] xs
    else splitCharGo c (x :: acc) xs

/-- Python `s.split(c)`. -/
def splitChar (c : Char) (s : String) : List String :=
  (splitCharGo c [] s.data).map String.mk

def isDigitChar (c : Char) : Bool := 48 ≤ c.toNat && c.toNat ≤ 57

def digitsToNat (l : List Char) : Nat :=
  l.foldl (fun a c => a * 10 + (c.toNat - 48)) 0

/-- Python `ipaddress._parse_octet`: ASCII digits, at most 3 of them, no
leading zero (except `"0"` itself), value at most 255. -/
def parseOctet (s : String) : Option Nat :=
  if s.data ≠ [] ∧ s.data.all isDigitChar ∧ s.data.length ≤ 3 ∧
     (s = "0" ∨ s.data.head? ≠ some '0') ∧ digitsToNat s.data ≤ 255 then
    some (digitsToNat s.data)
  else none

/-- Parse every octet or fail. -/
def parseOctets : List String → Option (List Nat)
  | [] => some []
  | s :: ss =>
    match parseOctet s, parseOctets ss with
    | some v, some vs => some (v :: vs)
    | _, _ => none

/-- Python IPv4 address parsing: exactly four octets. -/
def parseIPv4Addr (s : String) : Option Nat :=
  match parseOctets (splitChar '.' s) with
  | some [a, b, c, d] => some (((a * 256 + b) * 256 + c) * 256 + d)
  | _ => none

/-- Prefix length: ASCII digits, value at most 32 (Python accepts leading
zeros in a prefix). -/
def parsePrefixLen (s : String) : Option Nat :=
  if s.data ≠ [] ∧ s.data.all isDigitChar ∧ digitsToNat s.data ≤ 32 then
    some (digitsToNat s.data)
  else none

/-- `ip_interface(s)` for IPv4: returns `(host address, prefix length)`.
A bare address gets prefix 32.  (Dotted netmask suffixes are not
modelled.) -/
def parseIPv4Interface (s : String) : Option (Nat × Nat) :=
  match splitChar '/' s with
  | [a] => (parseIPv4Addr a).map (fun ip => (ip, 32))
  | [a, p] =>
    match parseIPv4Addr a, parsePrefixLen p with
    | some ip, some pl => some (ip, pl)
    | _, _ => none
  | _ => none

/-- An IPv4 network: masked network address and prefix length. -/
structure V4Net where
  netaddr : Nat
  plen : Nat
deriving Repr, DecidableEq

/-- `.network` of an interface / `ip_network(..., strict=False)`: mask the
host bits away. -/
def v4Network (ip plen : Nat) : V4Net :=
  { netaddr := ip / 2 ^ (32 - plen) * 2 ^ (32 - plen), plen := plen }

def v4Broadcast (n : V4Net) : Nat := n.netaddr + 2 ^ (32 - n.plen) - 1

/-- Python `a.subnet_of(b)`. -/
def subnetOfB (a b : V4Net) : Bool :=
  b.netaddr ≤ a.netaddr && v4Broadcast a ≤ v4Broadcast b

/-- Python `a.overlaps(b)`: the address ranges intersect. -/
def overlapsB (a b : V4Net) : Bool :=
  a.netaddr ≤ v4Broadcast b && b.netaddr ≤ v4Broadcast a

/-- First host address yielded by `network.hosts()`. -/
def hostsStart (n : V4Net) : Nat :=
  if n.plen ≤ 30 then n.netaddr + 1 else n.netaddr

/-- Number of host addresses yielded by `network.hosts()`. -/
def hostsCount (n : V4Net) : Nat :=
  if n.plen ≤ 30 then 2 ^ (32 - n.plen) - 2
  else if n.plen = 31 then 2
  else 1

/-- `for host in hosts(): if host not in used: return host` — scan
`fuel` consecutive addresses from `start` for one outside `used`. -/
def scanFree (start fuel : Nat) (used : List Nat) : Option Nat :=
  match fuel with
  | 0 => none
  | f + 1 => if start ∈ used then scanFree (start + 1) f used else some start

/-- Dotted-decimal rendering of an IPv4 address (`f"{host}"`). -/
def showV4 (a : Nat) : String :=
  toString (a / 16777216 % 256) ++ "." ++ toString (a / 65536 % 256) ++ "." ++
    toString (a / 256 % 256) ++ "." ++ toString (a % 256)

/-! ### Validators (backend/utils/validators.py) -/

/-- `validate_ip_address(address, allow_multiple=True)`: every
comma-separated entry that is nonempty after strip must parse as an
address or address/prefix. -/
def validateIpAddressMulti (address : String) : Except String Unit :=
  if address = "" then Except.ok ()
  else if (splitChar ',' address).all (fun a =>
      pyStrip a = "" ∨ (parseIPv4Interface (pyStrip a)).isSome) then
    Except.ok ()
  else Except.error "Invalid IP address format"

/-- Python `int(s)` for the port field, restricted to plain digit strings
(signs and surrounding whitespace are not modelled). -/
def parsePortNat (s : String) : Option Nat :=
  if s.data ≠ [] ∧ s.data.all isDigitChar then some (digitsToNat s.data) else none

def validatePort (port : String) : Except String Unit :=
  match parsePortNat port with
  | some p => if 1 ≤ p ∧ p ≤ 65535 then Except.ok () else Except.error "Invalid port"
  | none => Except.error "Invalid port"

def isHostnameChar (c : Char) : Bool :=
  ('a' ≤ c && c ≤ 'z') || ('A' ≤ c && c ≤ 'Z') || isDigitChar c || c = '.' || c = '-'

/-- `validate_endpoint`: empty is fine; otherwise `address:port`.  The
bracketed-IPv6 branch is not modelled (treated as invalid, in line with
the IPv4-only scope of this embedding). -/
def validateEndpoint (endpoint : String) : Except String Unit :=
  if endpoint = "" then Except.ok ()
  else if ¬ endpoint.data.contains ':' then Except.error "Port is required"
  else if pyStartsWith endpoint '[' then Except.error "IPv6 endpoint not modelled"
  else
    let r := endpoint.data.reverse
    let portPart := String.mk (r.takeWhile (fun c => c ≠ ':')).reverse
    let addressPart := String.mk ((r.dropWhile (fun c => c ≠ ':')).drop 1).reverse
    if addressPart = "" then Except.error "Address part is missing"
    else if addressPart.data.contains ':' then Except.error "IPv6 must use brackets"
    else if (parseIPv4Addr addressPart).isSome ∨ addressPart.data.all isHostnameChar then
      validatePort portPart
    else Except.error "Invalid address in endpoint"

/-! ### `PeerService` (backend/services/peer_service.py)

`_sync_interface` wraps `ConfigService.sync_config` in
`try: ... except Exception: pass`.  The outcome of that call (which may
fail for reasons beyond this model, e.g. I/O errors) is supplied as an
explicit `syncOutcome` argument; a successful outcome replaces the
canonical file, a failure leaves the world unchanged. -/

structure World where
  dir : FS
  canonical : Option (List String)
deriving Repr, DecidableEq

/-- Best-effort sync: any failure is swallowed. -/
def applySync (w : World) (outcome : Except String (List String)) : World :=
  match outcome with
  | Except.ok t => { w with canonical := some t }
  | Except.error _ => w

/-- `list_peers`, restricted to the `allowed_ips` field used by
`add_peer` (first peer of each fragment, `''` default). -/
def listPeersAllowed (iface : String) (dir : FS) : List String :=
  dir.flatMap (fun nc =>
    if keepFile iface nc.1 then
      match (parseLines nc.2).peers with
      | p :: _ => [dictGetD p "AllowedIPs"]
      | [] => []
    else [])

/-- `",".join([a.strip() for a in s.split(',') if a.strip()])`. -/
def normalizeCsv (s : String) : String :=
  joinComma (((splitChar ',' s).map pyStrip).filter (fun a => a ≠ ""))

/-- The used-address set of auto-allocation: the interface's own host
address plus every parsed peer address (parse failures skipped). -/
def usedIps (ifIp : Nat) (iface : String) (dir : FS) : List Nat :=
  ifIp :: (listPeersAllowed iface dir).flatMap (fun s =>
    (splitChar ',' s).filterMap (fun e => (parseIPv4Interface (pyStrip e)).map (fun x => x.1)))

/-- The allocation decision of `add_peer`: `none` means the literal
path; `some target` means auto-allocation inside `target`. -/
def allocTarget (ifNet : V4Net) (allowedIpsArg : Option String) : Option V4Net :=
  match allowedIpsArg with
  | none => some ifNet
  | some a =>
    if a = "" then some ifNet
    else if a.data.contains ',' then none
    else if ¬ a.data.contains '/' ∧ ¬ a.data.contains ':' then
      let parts := ((splitChar '.' a).map pyStrip).filter (fun p => p ≠ "")
      if parts.length < 4 ∨ (parts.length = 4 ∧ parts.getLast? = some "0") then
        let plen := if parts.length < 4 then 8 * parts.length else 24
        let fullIp := joinDot (parts ++ List.replicate (4 - parts.length) "0")
        match parseIPv4Addr fullIp with
        | some ip => some (v4Network ip plen)
        | none => some { netaddr := 0, plen := 33 }
      else none
    else
      match parseIPv4Interface a with
      | some (ip, pl) =>
        let temp := v4Network ip pl
        if pl < 32 ∧ subnetOfB temp ifNet then some temp else none
      | none => none

structure PeerAddResult where
  name : String
  publicKey : String
  privateKey : Option String
  allowedIps : String
  endpoint : String
  keepalive : Option String
  warnings : Option String
deriving Repr, DecidableEq

/-- `add_peer`.  `gen` models `generate_keys()` (an external command);
`dirExists` models `os.path.isdir(interface_dir)`; `syncOutcome` models
the best-effort `_sync_interface` call.  An invalid partial-subnet
expression is reported before the containment check, matching the
`IPv4Network` constructor raising inside that branch (encoded by
`allocTarget` returning the impossible `plen = 33` marker). -/
def addPeerCore (iface : String) (dir : FS) (dirExists : Bool)
    (gen : String × String × Option String)
    (name : String) (allowedIpsArg : Option String) (endpoint : String)
    (publicKeyArg : Option String) (keepalive : Option String) :
    Except String (PeerAddResult × FS) :=
  if ¬ dirExists then Except.error "Interface not found"
  else if (fsRead dir (name ++ ".conf")).isSome then Except.error "Peer already exists"
  else
    match fsRead dir (iface ++ ".conf") with
    | none => Except.error "Could not read interface config"
    | some frag =>
      let ifAddress := dictGetD (parseLines frag).interface "Address"
      if ifAddress = "" then Except.error "Interface has no Address defined"
      else
        match parseIPv4Interface ifAddress with
        | none => Except.error "Invalid interface address"
        | some ifIntf =>
          let ifNet := v4Network ifIntf.1 ifIntf.2
          let allocated : Except String String :=
            match allocTarget ifNet allowedIpsArg with
            | some target =>
              if target.plen = 33 then Except.error "Invalid subnet format"
              else if ¬ subnetOfB target ifNet then
                Except.error "Subnet is not a subset of interface network"
              else
                match scanFree (hostsStart target) (hostsCount target)
                        (usedIps ifIntf.1 iface dir) with
                | some h => Except.ok (showV4 h ++ "/32")
                | none => Except.error "No available IPs in subnet"
            | none =>
              let lit := normalizeCsv (match allowedIpsArg with
                                       | some a => a
                                       | none => "")
              if (splitChar ',' lit).any (fun a =>
                  match parseIPv4Interface a with
                  | some (ip, pl) => overlapsB (v4Network ip pl) ifNet
                  | none => false) then
                Except.ok lit
              else
                Except.error "At least one IP address must be within the interface network"
          match allocated with
          | Except.error e => Except.error e
          | Except.ok allowedIps0 =>
            let allowedIps := if allowedIps0 ≠ "" then normalizeCsv allowedIps0 else allowedIps0
            match validateIpAddressMulti allowedIps with
            | Except.error e => Except.error e
            | Except.ok _ =>
              match validateEndpoint endpoint with
              | Except.error e => Except.error e
              | Except.ok _ =>
                let keys : Option String × String × Option String :=
                  match publicKeyArg with
                  | some pk => if pk = "" then (some gen.1, gen.2.1, gen.2.2)
                               else (none, pk, none)
                  | none => (some gen.1, gen.2.1, gen.2.2)
                let peerRec : Dict :=
                  [("PublicKey", keys.2.1), ("AllowedIPs", allowedIps),
                   ("Endpoint", endpoint),
                   ("PersistentKeepalive", (keepalive).getD "")]
                Except.ok
                  ({ name := name, publicKey := keys.2.1, privateKey := keys.1,
                     allowedIps := allowedIps, endpoint := endpoint,
                     keepalive := keepalive, warnings := keys.2.2 },
                   fsWrite dir (name ++ ".conf")
                     (writeLines { interface := [], peers := [peerRec] } none))

/-- `add_peer`: the fragment-file change (`addPeerCore`) followed by the
best-effort `_sync_interface`. -/
def addPeer (iface : String) (w : World) (dirExists : Bool)
    (gen : String × String × Option String)
    (syncOutcome : Except String (List String))
    (name : String) (allowedIpsArg : Option String) (endpoint : String)
    (publicKeyArg : Option String) (keepalive : Option String) :
    Except String (PeerAddResult × World) :=
  (addPeerCore iface w.dir dirExists gen name allowedIpsArg endpoint publicKeyArg
      keepalive).map
    (fun rc => (rc.1, applySync { dir := rc.2, canonical := w.canonical } syncOutcome))

/-- `delete_peer`: the file removal. -/
def deletePeerCore (peerName : String) (dir : FS) : Except String FS :=
  if (fsRead dir (peerName ++ ".conf")).isNone then Except.error "Peer not found"
  else Except.ok (fsRemove dir (peerName ++ ".conf"))

/-- `delete_peer`: removal followed by the best-effort `_sync_interface`. -/
def deletePeer (peerName : String) (w : World)
    (syncOutcome : Except String (List String)) : Except String World :=
  (deletePeerCore peerName w.dir).map
    (fun d => applySync { dir := d, canonical := w.canonical } syncOutcome)

/-- `update_peer`.  The overlap check of the `allowed_ips` branch raises
its own `ValueError` inside the `try` whose handler ignores
`(ValueError, KeyError)`, so it can never fail; it does dereference the
parsed interface fragment outside the `try`, so a missing fragment is a
`TypeError`.  The rename branch does
`from utils.validators import validate_peer_name`, a name that does not
exist in that module, so every rename attempt raises `ImportError`
before writing. -/
def updatePeerCore (iface peerName : String) (dir : FS)
    (allowedIpsArg endpointArg newName publicKeyArg keepaliveArg : Option String) :
    Except String FS :=
  match fsRead dir (peerName ++ ".conf") with
  | none => Except.error "Peer not found"
  | some content =>
    let pc := parseLines content
    match pc.peers with
    | [] => Except.error "Invalid peer config"
    | p0 :: rest =>
      let step1 : Except String Dict :=
        match allowedIpsArg with
        | none => Except.ok p0
        | some a =>
          let a' := if a ≠ "" then normalizeCsv a else a
          match validateIpAddressMulti a' with
          | Except.error e => Except.error e
          | Except.ok _ =>
            if a' ≠ "" ∧ fsRead dir (iface ++ ".conf") = none then
              Except.error "TypeError"
            else Except.ok (dictSet p0 "AllowedIPs" a')
      match step1 with
      | Except.error e => Except.error e
      | Except.ok p1 =>
        let step2 : Except String Dict :=
          match endpointArg with
          | none => Except.ok p1
          | some e =>
            match validateEndpoint e with
            | Except.error err => Except.error err
            | Except.ok _ => Except.ok (dictSet p1 "Endpoint" e)
        match step2 with
        | Except.error e => Except.error e
        | Except.ok p2 =>
          let p3 := match keepaliveArg with
                    | none => p2
                    | some k => dictSet p2 "PersistentKeepalive" k
          let p4 := match publicKeyArg with
                    | none => p3
                    | some pk => if pk ≠ "" then dictSet p3 "PublicKey" pk
                                 else p3.filter (fun kv => kv.1 ≠ "PublicKey")
          match newName with
          | some n =>
            if n ≠ "" ∧ n ≠ peerName then Except.error "ImportError"
            else Except.ok (fsWrite dir (peerName ++ ".conf")
              (writeLines { interface := pc.interface, peers := p4 :: rest } none))
          | none => Except.ok (fsWrite dir (peerName ++ ".conf")
              (writeLines { interface := pc.interface, peers := p4 :: rest } none))

/-- `update_peer`: the fragment-file change followed by the best-effort
`_sync_interface`. -/
def updatePeer (iface peerName : String) (w : World)
    (syncOutcome : Except String (List String))
    (allowedIpsArg endpointArg newName publicKeyArg keepaliveArg : Option String) :
    Except String World :=
  (updatePeerCore iface peerName w.dir allowedIpsArg endpointArg newName
      publicKeyArg keepaliveArg).map
    (fun d => applySync { dir := d, canonical := w.canonical } syncOutcome)

/-! ## Helper lemmas -/

/-- Dropping falsy pairs first does not change a written peer block. -/
theorem peerBlock_filter (p : Dict) :
    peerBlock (p.filter (fun kv => kv.2 ≠ "")) = peerBlock p := by
  simp only [peerBlock, List.filter_filter, Bool.and_self]

theorem writeLines_consPeers (I : Dict) (p : Dict) (rest : List Dict)
    (pn : Option String) :
    writeLines { interface := I, peers := p :: rest } pn =
      (if I = [] then [] else "[Interface]" :: I.map (fun kv => kvLine kv.1 kv.2)) ++
        (nameComment pn ++ peerBlock p ++ rest.flatMap peerBlock) := rfl

theorem writeLines_nilPeers (I : Dict) (pn : Option String) :
    writeLines { interface := I, peers := [] } pn =
      (if I = [] then [] else "[Interface]" :: I.map (fun kv => kvLine kv.1 kv.2)) :=
  List.append_nil _

theorem nameComment_none : nameComment none = [] := rfl

theorem nameComment_some (nm : String) :
    nameComment (some nm) = if nm = "" then [] else ["", "# " ++ nm] := rfl

theorem kvLine_data (k v : String) :
    (kvLine k v).data = k.data ++ (' ' :: '=' :: ' ' :: v.data) := by
  simp [kvLine, String.data_append]

theorem eq_mem_kvLine_data (k v : String) : '=' ∈ (kvLine k v).data := by
  rw [kvLine_data]; simp

theorem interfaceHeader_ne_kvLine (k v : String) : "[Interface]" ≠ kvLine k v := by
  intro h
  have h2 : '=' ∈ ("[Interface]" : String).data := by
    rw [h]; exact eq_mem_kvLine_data k v
  revert h2; decide

theorem interfaceHeader_ne_comment (nm : String) : "[Interface]" ≠ "# " ++ nm := by
  intro h
  have h2 : ("[Interface]" : String).data = '#' :: ' ' :: nm.data := by
    rw [h, String.data_append]
    rfl
  have h3 : ("[Interface]" : String).data.head? = some '#' := by rw [h2]; rfl
  revert h3
  decide

theorem interfaceHeader_not_mem_peerBlock (p : Dict) :
    "[Interface]" ∉ peerBlock p := by
  simp only [peerBlock, List.mem_cons, List.mem_map]
  rintro (h | ⟨kv, _, h⟩)
  · exact absurd h (by decide)
  · exact interfaceHeader_ne_kvLine kv.1 kv.2 h.symm

/-- Unfolding of the peer-assembly fold of `sync_config`: the assembled
peer list is the base list followed by, for each folder entry in
enumeration order that is a peer fragment, its parsed peers stripped of
`_name`. -/
theorem syncStep_eq (iface : String) (acc : List Dict) (nc : String × List String) :
    syncStep iface acc nc =
      acc ++ (if keepFile iface nc.1 then (parseLines nc.2).peers.map stripName else []) := by
  rw [syncStep]
  by_cases hk : keepFile iface nc.1
  · by_cases hp : (parseLines nc.2).peers = []
    · simp [hk, hp]
    · simp [hk, hp]
  · simp [hk]

theorem syncFold_eq (iface : String) (dir : FS) (acc : List Dict) :
    dir.foldl (syncStep iface) acc =
      acc ++ dir.flatMap (fun nc =>
        if keepFile iface nc.1 then (parseLines nc.2).peers.map stripName else []) := by
  induction dir generalizing acc with
  | nil => simp
  | cons nc rest ih =>
    rw [List.foldl_cons, List.flatMap_cons, syncStep_eq, ih, List.append_assoc]

theorem syncAssemble_peers (iface : String) (dir : FS) (base : WGConfig) :
    (syncAssemble iface dir base).peers =
      base.peers ++ dir.flatMap (fun nc =>
        if keepFile iface nc.1 then (parseLines nc.2).peers.map stripName else []) :=
  syncFold_eq iface dir base.peers

/-- The `_name` key never survives `stripName`. -/
theorem dictGet_stripName (p : Dict) : dictGet (stripName p) "_name" = none := by
  have h : (stripName p).find? (fun kv => kv.1 = "_name") = none := by
    rw [List.find?_eq_none]
    intro kv hkv
    rcases List.mem_filter.mp hkv with ⟨_, hne⟩
    simpa using hne
  simp [dictGet, h]

/-! ## C2 — deterministic assembly order -/

/-- Modelled from the spec's words for comparison (refinement check of
C2): assembly of the peer list in sorted-by-filename order. -/
def syncAssembleSpecSorted (iface : String) (dir : FS) (base : WGConfig) : WGConfig :=
  syncAssemble iface (sortFS dir) base

def c2Dir : FS :=
  [("wg0.conf", ["[Interface]", "Address = 10.0.0.1/24"]),
   ("b.conf", ["[Peer]", "PublicKey = KB"]),
   ("a.conf", ["[Peer]", "PublicKey = KA"])]

/-- C2, counterexample: with folder enumeration order `wg0.conf, b.conf,
a.conf`, `sync_config` appends the peer of `b.conf` before the peer of
`a.conf` — the enumeration order, not the sorted-by-filename order the
claim states; the two assemblies differ at this input. -/
theorem c2_sorted_order_counterexample :
    (syncAssemble "wg0" c2Dir (parseLines ["[Interface]", "Address = 10.0.0.1/24"])).peers =
        [[("PublicKey", "KB")], [("PublicKey", "KA")]] ∧
      (syncAssembleSpecSorted "wg0" c2Dir
          (parseLines ["[Interface]", "Address = 10.0.0.1/24"])).peers =
        [[("PublicKey", "KA")], [("PublicKey", "KB")]] ∧
      syncConfig "wg0" c2Dir ≠
        Except.ok (writeLines (syncAssembleSpecSorted "wg0" c2Dir
          (parseLines ["[Interface]", "Address = 10.0.0.1/24"])) none) := by
  refine ⟨by decide, by decide, ?_⟩
  intro h
  have h2 := Except.ok.inj h
  exact absurd h2 (by decide)

/-- C2, amended: `sync_config` appends the peer records of the peer
fragment files (all `.conf` files except the interface fragment) to the
base record's peer list in filesystem enumeration order — the order
`os.listdir` yields, not sorted by filename — and strips the internal
`_name` field from every appended record. -/
theorem c2_enumeration_order_and_name_stripping (iface : String) (dir : FS)
    (frag : List String) (hfrag : fsRead dir (iface ++ ".conf") = some frag) :
    syncConfig iface dir =
      Except.ok (writeLines
        { interface := (parseLines frag).interface,
          peers := (parseLines frag).peers ++ dir.flatMap (fun nc =>
            if keepFile iface nc.1 then (parseLines nc.2).peers.map stripName else []) }
        none) ∧
    ∀ p, p ∈ dir.flatMap (fun nc =>
        if keepFile iface nc.1 then (parseLines nc.2).peers.map stripName else []) →
      dictGet p "_name" = none := by
  constructor
  · have h1 : syncConfig iface dir =
        Except.ok (writeLines (syncAssemble iface dir (parseLines frag)) none) := by
      rw [syncConfig, hfrag]
    rw [h1]
    congr 1
    rw [syncAssemble.eq_def, syncFold_eq]
  · intro p hp
    rcases List.mem_flatMap.mp hp with ⟨nc, _, hmem⟩
    by_cases hk : keepFile iface nc.1
    · rw [if_pos hk] at hmem
      rcases List.mem_map.mp hmem with ⟨q, _, hq⟩
      exact hq ▸ dictGet_stripName q
    · rw [if_neg hk] at hmem
      exact absurd hmem (List.not_mem_nil p)

theorem c2_enumeration_order_and_name_stripping_witness :
    fsRead c2Dir ("wg0" ++ ".conf") =
        some ["[Interface]", "Address = 10.0.0.1/24"] ∧
      syncConfig "wg0" c2Dir =
        Except.ok (writeLines
          { interface := (parseLines ["[Interface]", "Address = 10.0.0.1/24"]).interface,
            peers := (parseLines ["[Interface]", "Address = 10.0.0.1/24"]).peers ++
              c2Dir.flatMap (fun nc =>
                if keepFile "wg0" nc.1 then (parseLines nc.2).peers.map stripName else []) }
          none) :=
  ⟨rfl, (c2_enumeration_order_and_name_stripping "wg0" c2Dir
    ["[Interface]", "Address = 10.0.0.1/24"] rfl).1⟩

/-! ## C5 — not-found versus the exclusive lock -/

/-- C5, counterexample: calling `sync_config` on an empty folder (the
interface fragment is missing) acquires the exclusive lock keyed by the
canonical flat path first; the NotFound condition is detected and
reported while the lock is held, not before it is acquired. -/
theorem c5_notfound_before_lock_counterexample :
    syncEvents "/etc/wireguard" "wg0" [] =
        [LockEv.acq (canonPath "/etc/wireguard" "wg0"), LockEv.notFound,
         LockEv.rel (canonPath "/etc/wireguard" "wg0")] ∧
      (syncEvents "/etc/wireguard" "wg0" [])[1]? = some LockEv.notFound ∧
      lockHeldAfter (syncEvents "/etc/wireguard" "wg0" []) 1
        (canonPath "/etc/wireguard" "wg0") = true := by
  refine ⟨rfl, rfl, ?_⟩
  decide

/-- C5, amended: in both `sync_config` (missing interface fragment) and
`reset_config` (missing canonical file) the NotFound condition is
detected after the exclusive lock keyed by the canonical flat path has
been acquired: the trace is acquire, NotFound, release, the lock is held
at the NotFound event, and it is released again afterwards (the
`finally` of `acquire_write_lock` runs before the error propagates). -/
theorem c5_notfound_inside_lock (base iface : String) (dir : FS)
    (canonical : Option (List String))
    (hsync : fsRead dir (iface ++ ".conf") = none) (hreset : canonical = none) :
    syncEvents base iface dir =
        [LockEv.acq (canonPath base iface), LockEv.notFound,
         LockEv.rel (canonPath base iface)] ∧
      lockHeldAfter (syncEvents base iface dir) 1 (canonPath base iface) = true ∧
      lockHeldAfter (syncEvents base iface dir) 3 (canonPath base iface) = false ∧
      resetEvents base iface canonical =
        [LockEv.acq (canonPath base iface), LockEv.notFound,
         LockEv.rel (canonPath base iface)] ∧
      lockHeldAfter (resetEvents base iface canonical) 1 (canonPath base iface) = true ∧
      lockHeldAfter (resetEvents base iface canonical) 3 (canonPath base iface) = false := by
  have hs : syncEvents base iface dir =
      [LockEv.acq (canonPath base iface), LockEv.notFound,
       LockEv.rel (canonPath base iface)] := by
    rw [syncEvents]; rw [hsync]; rfl
  have hr : resetEvents base iface canonical =
      [LockEv.acq (canonPath base iface), LockEv.notFound,
       LockEv.rel (canonPath base iface)] := by
    rw [hreset]; rfl
  refine ⟨hs, ?_, ?_, hr, ?_, ?_⟩ <;>
    simp [hs, hr, lockHeldAfter, List.countP_cons]

theorem c5_notfound_inside_lock_witness :
    fsRead ([] : FS) ("wg0" ++ ".conf") = none ∧
      syncEvents "/etc/wireguard" "wg0" [] =
        [LockEv.acq (canonPath "/etc/wireguard" "wg0"), LockEv.notFound,
         LockEv.rel (canonPath "/etc/wireguard" "wg0")] ∧
      lockHeldAfter (syncEvents "/etc/wireguard" "wg0" []) 1
        (canonPath "/etc/wireguard" "wg0") = true :=
  ⟨rfl, (c5_notfound_inside_lock "/etc/wireguard" "wg0" [] none rfl rfl).1,
    (c5_notfound_inside_lock "/etc/wireguard" "wg0" [] none rfl rfl).2.1⟩

/-! ## C9 — truthy-only serialization -/

/-- A config whose interface record carries the falsy pair `("DNS", "")`. -/
def c9Cfg : WGConfig :=
  { interface := [("Address", "10.0.0.1/24"), ("DNS", "")], peers := [] }

/-- C9, counterexample: a falsy value in the `[Interface]` record is
written out verbatim — `write_config` filters falsy values only inside
`[Peer]` blocks.  Here the falsy pair `("DNS", "")` produces the line
`"DNS = "` in the output. -/
theorem c9_truthy_only_counterexample :
    writeLines c9Cfg none = ["[Interface]", "Address = 10.0.0.1/24", "DNS = "] ∧
      "DNS = " ∈ writeLines c9Cfg none := by
  exact ⟨rfl, by decide⟩

/-- C9, amended: `write_config` emits only truthy key/value pairs in
`[Peer]` blocks (removing falsy peer pairs beforehand does not change
the output), and the `[Interface]` block is present exactly when the
interface record is non-empty; interface pairs themselves are written
without the truthy filter (see the counterexample). -/
theorem flatMap_peerBlock_filter (l : List Dict) :
    (l.map (fun p => p.filter (fun kv => kv.2 ≠ ""))).flatMap peerBlock =
      l.flatMap peerBlock := by
  induction l with
  | nil => rfl
  | cons p rest ih => simp only [List.map_cons, List.flatMap_cons, peerBlock_filter, ih]

theorem c9_truthy_only_peers_and_interface_header (cfg : WGConfig)
    (peerName : Option String) :
    writeLines { interface := cfg.interface,
                 peers := cfg.peers.map (fun p => p.filter (fun kv => kv.2 ≠ "")) }
        peerName = writeLines cfg peerName ∧
      ("[Interface]" ∈ writeLines cfg peerName ↔ cfg.interface ≠ []) := by
  obtain ⟨I, ps⟩ := cfg
  constructor
  · cases ps with
    | nil => rfl
    | cons p rest =>
      simp only [List.map_cons]
      rw [writeLines_consPeers, writeLines_consPeers, peerBlock_filter,
        flatMap_peerBlock_filter]
  · constructor
    · intro hmem hempty
      cases ps with
      | nil =>
        rw [writeLines_nilPeers, if_pos hempty] at hmem
        exact absurd hmem (List.not_mem_nil _)
      | cons p rest =>
        rw [writeLines_consPeers, if_pos hempty, List.nil_append] at hmem
        rcases List.mem_append.mp hmem with h | h
        · rcases List.mem_append.mp h with h | h
          · cases peerName with
            | none => rw [nameComment_none] at h; exact absurd h (List.not_mem_nil _)
            | some nm =>
              rw [nameComment_some] at h
              by_cases hnm : nm = ""
              · rw [if_pos hnm] at h
                exact absurd h (List.not_mem_nil _)
              · rw [if_neg hnm] at h
                rcases List.mem_cons.mp h with h | h
                · exact absurd h (by decide)
                · rcases List.mem_cons.mp h with h | h
                  · exact interfaceHeader_ne_comment nm h
                  · exact absurd h (List.not_mem_nil _)
          · exact interfaceHeader_not_mem_peerBlock p h
        · rcases List.mem_flatMap.mp h with ⟨q, _, hq⟩
          exact interfaceHeader_not_mem_peerBlock q hq
    · intro hne
      cases ps with
      | nil =>
        rw [writeLines_nilPeers, if_neg hne]
        exact List.mem_cons_self _ _
      | cons p rest =>
        rw [writeLines_consPeers, if_neg hne]
        exact List.mem_append.mpr (Or.inl (List.mem_cons_self _ _))

theorem c9_truthy_only_peers_and_interface_header_witness :
    writeLines { interface := [("Address", "10.0.0.1/24")],
                 peers := [[("PublicKey", "K"), ("Endpoint", "")]].map
                   (fun p => p.filter (fun kv => kv.2 ≠ "")) } none =
        writeLines { interface := [("Address", "10.0.0.1/24")],
                     peers := [[("PublicKey", "K"), ("Endpoint", "")]] } none :=
  (c9_truthy_only_peers_and_interface_header
    { interface := [("Address", "10.0.0.1/24")],
      peers := [[("PublicKey", "K"), ("Endpoint", "")]] } none).1

/-! ## C10 — peer mutations swallow re-sync failures -/

/-- C10: whenever the fragment-file change of `add_peer`, `update_peer`
or `delete_peer` succeeds, the operation returns that success even when
the implicitly triggered `sync_config` raises (modelled by an `error`
sync outcome): `_sync_interface` catches and discards the exception, and
the canonical flat file is left exactly as it was — success of the
mutation does not imply the canonical file was regenerated. -/
theorem c10_mutations_swallow_sync_failures (iface name : String) (w : World)
    (e : String) :
    (∀ res fs2 dx gen aips ep pk ka,
        addPeerCore iface w.dir dx gen name aips ep pk ka = Except.ok (res, fs2) →
        addPeer iface w dx gen (Except.error e) name aips ep pk ka =
          Except.ok (res, { dir := fs2, canonical := w.canonical })) ∧
      (∀ fs2 a b c d k,
        updatePeerCore iface name w.dir a b c d k = Except.ok fs2 →
        updatePeer iface name w (Except.error e) a b c d k =
          Except.ok { dir := fs2, canonical := w.canonical }) ∧
      (∀ fs2, deletePeerCore name w.dir = Except.ok fs2 →
        deletePeer name w (Except.error e) =
          Except.ok { dir := fs2, canonical := w.canonical }) := by
  refine ⟨?_, ?_, ?_⟩
  · intro res fs2 dx gen aips ep pk ka h
    rw [addPeer, h]
    rfl
  · intro fs2 a b c d k h
    rw [updatePeer, h]
    rfl
  · intro fs2 h
    rw [deletePeer, h]
    rfl

theorem c10_mutations_swallow_sync_failures_witness :
    deletePeerCore "alice" [("wg0.conf", ["[Interface]", "Address = 10.0.0.1/24"]),
        ("alice.conf", ["[Peer]", "PublicKey = K"])] =
      Except.ok [("wg0.conf", ["[Interface]", "Address = 10.0.0.1/24"])] ∧
    deletePeer "alice"
        { dir := [("wg0.conf", ["[Interface]", "Address = 10.0.0.1/24"]),
                  ("alice.conf", ["[Peer]", "PublicKey = K"])],
          canonical := some ["[Interface]", "stale"] } (Except.error "I/O error") =
      Except.ok { dir := [("wg0.conf", ["[Interface]", "Address = 10.0.0.1/24"])],
                  canonical := some ["[Interface]", "stale"] } :=
  ⟨rfl,
    (c10_mutations_swallow_sync_failures "wg0" "alice"
      { dir := [("wg0.conf", ["[Interface]", "Address = 10.0.0.1/24"]),
                ("alice.conf", ["[Peer]", "PublicKey = K"])],
        canonical := some ["[Interface]", "stale"] } "I/O error").2.2
      [("wg0.conf", ["[Interface]", "Address = 10.0.0.1/24"])] rfl⟩

/-! ## C8 — `normalizeAllowedIPs` is idempotent -/

theorem strLeAux_total (a b : List Char) : strLeAux a b = true ∨ strLeAux b a = true := by
  induction a generalizing b with
  | nil => left; rfl
  | cons x xs ih =>
    cases b with
    | nil => right; rfl
    | cons y ys =>
      rcases Nat.lt_trichotomy x.toNat y.toNat with h | h | h
      · left; simp [strLeAux, h]
      · have hxy : ¬ x.toNat < y.toNat := by omega
        have hyx : ¬ y.toNat < x.toNat := by omega
        rcases ih ys with h2 | h2
        · left; simp [strLeAux, hxy, hyx, h2]
        · right; simp [strLeAux, hxy, hyx, h2]
      · right; simp [strLeAux, h]

theorem strLeAux_trans (a b c : List Char) (hab : strLeAux a b = true)
    (hbc : strLeAux b c = true) : strLeAux a c = true := by
  induction a generalizing b c with
  | nil => rfl
  | cons x xs ih =>
    cases b with
    | nil => simp [strLeAux] at hab
    | cons y ys =>
      cases c with
      | nil => simp [strLeAux] at hbc
      | cons z zs =>
        rw [strLeAux] at hab hbc ⊢
        by_cases hxy : x.toNat < y.toNat
        · by_cases hyz : y.toNat < z.toNat
          · simp [show x.toNat < z.toNat by omega]
          · by_cases hzy : z.toNat < y.toNat
            · simp [hyz, hzy] at hbc
            · have : y.toNat = z.toNat := by omega
              simp [show x.toNat < z.toNat by omega]
        · by_cases hyx : y.toNat < x.toNat
          · simp [hxy, hyx] at hab
          · have hxy2 : x.toNat = y.toNat := by omega
            rw [if_neg hxy, if_neg hyx] at hab
            by_cases hyz : y.toNat < z.toNat
            · simp [show x.toNat < z.toNat by omega]
            · by_cases hzy : z.toNat < y.toNat
              · simp [hyz, hzy] at hbc
              · rw [if_neg hyz, if_neg hzy] at hbc
                rw [if_neg (show ¬ x.toNat < z.toNat by omega),
                  if_neg (show ¬ z.toNat < x.toNat by omega)]
                exact ih ys zs hab hbc

theorem strLeB_total (a b : String) : strLeB a b = true ∨ strLeB b a = true :=
  strLeAux_total a.data b.data

theorem strLeB_trans (a b c : String) (hab : strLeB a b = true)
    (hbc : strLeB b c = true) : strLeB a c = true :=
  strLeAux_trans a.data b.data c.data hab hbc

/-- Sortedness in the Python string order. -/
def SortedLe (l : List String) : Prop := l.Pairwise (fun a b => strLeB a b = true)

theorem mem_insB (a x : String) (l : List String) :
    a ∈ insB x l ↔ a = x ∨ a ∈ l := by
  induction l with
  | nil => simp [insB]
  | cons y ys ih =>
    rw [insB]
    by_cases h : strLeB x y = true
    · rw [if_pos h]
      simp only [List.mem_cons]
    · rw [if_neg h]
      simp only [List.mem_cons, ih]
      tauto

theorem pairwise_insB (x : String) (l : List String) (hl : SortedLe l) :
    SortedLe (insB x l) := by
  induction l with
  | nil => simp [insB, SortedLe]
  | cons y ys ih =>
    rw [insB]
    by_cases h : strLeB x y = true
    · rw [if_pos h]
      refine List.Pairwise.cons ?_ hl
      intro b hb
      rcases List.mem_cons.mp hb with rfl | hb
      · exact h
      · exact strLeB_trans x y b h (List.rel_of_pairwise_cons hl hb)
    · have hyx : strLeB y x = true := by
        rcases strLeB_total x y with h2 | h2
        · exact absurd h2 h
        · exact h2
      rw [if_neg h]
      refine List.Pairwise.cons ?_ (ih (List.Pairwise.sublist (List.sublist_cons_self y ys) hl))
      intro b hb
      rcases (mem_insB b x ys).mp hb with rfl | hb
      · exact hyx
      · exact List.rel_of_pairwise_cons hl hb

theorem pairwise_sortB (l : List String) : SortedLe (sortB l) := by
  induction l with
  | nil => simp [sortB, SortedLe]
  | cons x xs ih => exact pairwise_insB x (sortB xs) ih

theorem insB_of_le (x : String) (l : List String)
    (h : ∀ b ∈ l, strLeB x b = true) : insB x l = x :: l := by
  cases l with
  | nil => rfl
  | cons y ys => rw [insB, if_pos (h y (List.mem_cons_self y ys))]

theorem sortB_of_sorted (l : List String) (hl : SortedLe l) : sortB l = l := by
  induction l with
  | nil => rfl
  | cons x xs ih =>
    have hxs := ih (List.Pairwise.sublist (List.sublist_cons_self x xs) hl)
    show insB x (sortB xs) = x :: xs
    rw [hxs]
    exact insB_of_le x xs (fun b hb => List.rel_of_pairwise_cons hl hb)

theorem sortB_idem (l : List String) : sortB (sortB l) = sortB l :=
  sortB_of_sorted (sortB l) (pairwise_sortB l)

theorem mem_sortB (a : String) (l : List String) : a ∈ sortB l ↔ a ∈ l := by
  induction l with
  | nil => simp [sortB]
  | cons x xs ih =>
    show a ∈ insB x (sortB xs) ↔ _
    rw [mem_insB, ih]
    simp

theorem tokensGo_nonsep (l acc : List Char)
    (hacc : ∀ c ∈ acc, isSepChar c = false) :
    ∀ t ∈ tokensGo acc l, t ≠ [] ∧ ∀ c ∈ t, isSepChar c = false := by
  induction l generalizing acc with
  | nil =>
    intro t ht
    rw [tokensGo] at ht
    by_cases h : acc = []
    · rw [if_pos h] at ht; exact absurd ht (List.not_mem_nil t)
    · rw [if_neg h] at ht
      rcases List.mem_singleton.mp ht with rfl
      refine ⟨by simpa using h, ?_⟩
      intro c hc
      exact hacc c (List.mem_reverse.mp hc)
  | cons c cs ih =>
    intro t ht
    rw [tokensGo] at ht
    by_cases hsep : isSepChar c = true
    · rw [if_pos hsep] at ht
      rcases List.mem_append.mp ht with h | h
      · by_cases h0 : acc = []
        · rw [if_pos h0] at h; exact absurd h (List.not_mem_nil t)
        · rw [if_neg h0] at h
          rcases List.mem_singleton.mp h with rfl
          refine ⟨by simpa using h0, ?_⟩
          intro d hd
          exact hacc d (List.mem_reverse.mp hd)
      · exact ih [] (by intro d hd; exact absurd hd (List.not_mem_nil d)) t h
    · rw [if_neg hsep] at ht
      refine ih (c :: acc) ?_ t ht
      intro d hd
      rcases List.mem_cons.mp hd with rfl | hd
      · simpa using hsep
      · exact hacc d hd

theorem tokensGo_word (w : List Char) (hw : ∀ c ∈ w, isSepChar c = false) :
    ∀ acc l, tokensGo acc (w ++ l) = tokensGo (w.reverse ++ acc) l := by
  induction w with
  | nil => intro acc l; simp
  | cons c w' ih =>
    intro acc l
    have hc : isSepChar c = false := hw c (List.mem_cons_self c w')
    rw [List.cons_append, tokensGo, if_neg (by simp [hc])]
    rw [ih (fun d hd => hw d (List.mem_cons_of_mem c hd)) (c :: acc) l]
    congr 1
    rw [List.reverse_cons, List.append_assoc]
    rfl

theorem foldl_joinComma_pre (xs : List String) (a b : String) :
    xs.foldl (fun acc y => acc ++ "," ++ y) (a ++ b) =
      a ++ xs.foldl (fun acc y => acc ++ "," ++ y) b := by
  induction xs generalizing b with
  | nil => rfl
  | cons z zs ih =>
    rw [List.foldl_cons, List.foldl_cons]
    rw [show a ++ b ++ "," ++ z = a ++ (b ++ "," ++ z) by
      rw [String.append_assoc, String.append_assoc]
      rw [String.append_assoc]]
    exact ih (b ++ "," ++ z)

theorem joinComma_cons_cons (x y : String) (xs : List String) :
    joinComma (x :: y :: xs) = x ++ "," ++ joinComma (y :: xs) := by
  show xs.foldl (fun acc y => acc ++ "," ++ y) ((x ++ ",") ++ y) = _
  rw [foldl_joinComma_pre xs (x ++ ",") y]
  rfl

theorem data_joinComma (x : String) (xs : List String) :
    (joinComma (x :: xs)).data = x.data ++ xs.flatMap (fun y => ',' :: y.data) := by
  induction xs generalizing x with
  | nil => simp [joinComma]
  | cons y ys ih =>
    rw [joinComma_cons_cons, String.data_append, String.data_append, ih y]
    simp

/-- Splitting the comma-join of nonempty separator-free words recovers
exactly the words. -/
theorem tokensGo_joinComma (parts : List String)
    (h : ∀ t ∈ parts, t.data ≠ [] ∧ ∀ c ∈ t.data, isSepChar c = false) :
    tokensGo [] (joinComma parts).data = parts.map String.data := by
  induction parts with
  | nil => rfl
  | cons x xs ih =>
    have hx := h x (List.mem_cons_self x xs)
    rw [data_joinComma]
    cases xs with
    | nil =>
      simp only [List.flatMap_nil, List.append_nil, List.map_cons, List.map_nil]
      rw [show x.data = x.data ++ ([] : List Char) from (List.append_nil _).symm]
      rw [tokensGo_word x.data hx.2 [] []]
      rw [List.append_nil, tokensGo, if_neg (by simpa using hx.1),
        List.reverse_reverse]
      simp
    | cons y ys =>
      have hR : (joinComma (y :: ys)).data =
          y.data ++ ys.flatMap (fun t => ',' :: t.data) := data_joinComma y ys
      rw [show (y :: ys).flatMap (fun t => ',' :: t.data) =
          ',' :: (y.data ++ ys.flatMap (fun t => ',' :: t.data)) by simp]
      rw [tokensGo_word x.data hx.2 [] _, List.append_nil, tokensGo,
        if_pos (by decide)]
      rw [if_neg (by simpa using hx.1), List.reverse_reverse]
      rw [← hR, ih (fun t ht => h t (List.mem_cons_of_mem x ht))]
      rfl

theorem ensureSlash_mem_slash (t : String) : '/' ∈ (ensureSlash t).data := by
  rw [ensureSlash]
  by_cases h : t.data.contains '/' = true
  · rw [if_pos h]; simpa using h
  · rw [if_neg h]
    by_cases h2 : t.data.contains ':' = true
    · rw [if_pos h2, String.data_append]
      exact List.mem_append.mpr (Or.inr (by decide))
    · rw [if_neg h2, String.data_append]
      exact List.mem_append.mpr (Or.inr (by decide))

theorem ensureSlash_of_mem_slash (t : String) (h : '/' ∈ t.data) :
    ensureSlash t = t := by
  rw [ensureSlash, if_pos (by simpa using h)]

theorem ensureSlash_nonempty (t : String) (h : t.data ≠ []) :
    (ensureSlash t).data ≠ [] := by
  rw [ensureSlash]
  by_cases h1 : t.data.contains '/' = true
  · rw [if_pos h1]; exact h
  · rw [if_neg h1]
    by_cases h2 : t.data.contains ':' = true
    · rw [if_pos h2, String.data_append]; simp [h]
    · rw [if_neg h2, String.data_append]; simp [h]

theorem mem_slash128_nonsep (c : Char) (hc : c ∈ ("/128" : String).data) :
    isSepChar c = false := by
  have h : ("/128" : String).data = ['/', '1', '2', '8'] := rfl
  rw [h] at hc
  fin_cases hc <;> decide

theorem mem_slash32_nonsep (c : Char) (hc : c ∈ ("/32" : String).data) :
    isSepChar c = false := by
  have h : ("/32" : String).data = ['/', '3', '2'] := rfl
  rw [h] at hc
  fin_cases hc <;> decide

theorem ensureSlash_nonsep (t : String) (h : ∀ c ∈ t.data, isSepChar c = false) :
    ∀ c ∈ (ensureSlash t).data, isSepChar c = false := by
  rw [ensureSlash]
  by_cases h1 : t.data.contains '/' = true
  · rw [if_pos h1]; exact h
  · rw [if_neg h1]
    by_cases h2 : t.data.contains ':' = true
    · rw [if_pos h2, String.data_append]
      intro c hc
      rcases List.mem_append.mp hc with hc | hc
      · exact h c hc
      · exact mem_slash128_nonsep c hc
    · rw [if_neg h2, String.data_append]
      intro c hc
      rcases List.mem_append.mp hc with hc | hc
      · exact h c hc
      · exact mem_slash32_nonsep c hc

/-- C8: `_normalize_allowed_ips` is idempotent — normalizing an already
normalized AllowedIPs string (split on whitespace/comma runs, `/32` or
`/128` appended where missing, entries sorted, comma-rejoined) returns it
unchanged. -/
theorem c8_normalizeAllowedIPs_idempotent (x : String) :
    normalizeAllowedIPs (normalizeAllowedIPs x) = normalizeAllowedIPs x := by
  by_cases hx : x = ""
  · rw [hx]
    rfl
  · have hdef : normalizeAllowedIPs x =
        joinComma (sortB ((pyTokens x).map ensureSlash)) := by
      rw [normalizeAllowedIPs, if_neg hx]
    rw [hdef]
    have hfacts : ∀ t ∈ sortB ((pyTokens x).map ensureSlash),
        t.data ≠ [] ∧ (∀ c ∈ t.data, isSepChar c = false) ∧ '/' ∈ t.data := by
      intro t ht
      have ht2 := (mem_sortB t _).mp ht
      rcases List.mem_map.mp ht2 with ⟨t', ht', rfl⟩
      rcases List.mem_map.mp ht' with ⟨w, hw, rfl⟩
      have hww := tokensGo_nonsep x.data []
        (fun c hc => absurd hc (List.not_mem_nil c)) w hw
      exact ⟨ensureSlash_nonempty _ hww.1, ensureSlash_nonsep _ hww.2,
        ensureSlash_mem_slash _⟩
    by_cases hu : joinComma (sortB ((pyTokens x).map ensureSlash)) = ""
    · rw [hu]
      rfl
    · rw [normalizeAllowedIPs, if_neg hu]
      have htok : pyTokens (joinComma (sortB ((pyTokens x).map ensureSlash))) =
          sortB ((pyTokens x).map ensureSlash) := by
        rw [pyTokens, tokensGo_joinComma _ (fun t ht => ⟨(hfacts t ht).1, (hfacts t ht).2.1⟩)]
        rw [List.map_map]
        exact List.map_id _
      rw [htok]
      have hmap : (sortB ((pyTokens x).map ensureSlash)).map ensureSlash =
          sortB ((pyTokens x).map ensureSlash) := by
        rw [List.map_congr_left (fun t ht => ensureSlash_of_mem_slash t (hfacts t ht).2.2)]
        exact List.map_id _
      rw [hmap, sortB_idem]

/-! ## C7 — comment-to-name capture in `parse_config` -/

/-- C7, counterexample: a comment separated from the next `[Peer]` header
by an intervening non-comment, non-blank line (here `PublicKey = K`,
outside any section) is still attached as the peer's `_name` — the
pending name is only cleared by a blank line immediately after a comment,
an `[Interface]` header, or a later comment, not by other lines.  A blank
line that does not immediately follow the comment does not clear it
either (second conjunct). -/
theorem c7_comment_capture_counterexample :
    (parseLines ["# bob", "PublicKey = K", "[Peer]", "AllowedIPs = 1.2.3.4/32"]).peers =
        [[("_name", "bob"), ("AllowedIPs", "1.2.3.4/32")]] ∧
      (parseLines ["# bob", "Foo = 1", "", "[Peer]", "PublicKey = K"]).peers =
        [[("_name", "bob"), ("PublicKey", "K")]] := by
  exact ⟨rfl, rfl⟩

/-- The comment text captured from a raw comment line. -/
def commentTextOf (line : String) : String :=
  pyStrip (String.mk ((pyStrip line).data.drop 1))

/-- C7, amended: the pending-name discipline of `parse_config`.  A
comment line seen while the current section is not `[Interface]` (and
with nonempty text) sets the pending display name; the pending name is
attached as `_name` to the peer opened by the next `[Peer]` header; it is
cleared by a blank line immediately following a comment line and by an
`[Interface]` header, and a comment inside the `[Interface]` section is
ignored; but an intervening key-value (or other non-blank, non-comment,
non-header) line does not clear it. -/
theorem pstep_pending_survives (s : PState) (mid : String)
    (h1 : pyStrip mid ≠ "") (h2 : pyStartsWith (pyStrip mid) '#' = false)
    (h3 : pyStrip mid ≠ "[Interface]") (h4 : pyStrip mid ≠ "[Peer]") :
    (pstep s mid).pending = s.pending := by
  simp only [pstep, if_neg h1, h2, Bool.false_eq_true, if_false, if_neg h3, if_neg h4]
  rcases s with ⟨sect, i, p, c, pend, lc⟩
  by_cases h5 : (pyStrip mid).data.contains '=' = true
  · simp only [if_pos h5]
    cases sect with
    | none => rfl
    | some sct => cases sct <;> rfl
  · simp only [if_neg h5]

theorem c7_pending_name_discipline (pre : List String) (cmt : String)
    (hne : pyStrip cmt ≠ "") (hhash : pyStartsWith (pyStrip cmt) '#' = true)
    (htext : commentTextOf cmt ≠ "")
    (hsect : ((pre.foldl pstep initPState).sect) ≠ some Sect.iface) :
    -- (a) the comment sets the pending name
    (pstep (pre.foldl pstep initPState) cmt =
      { pre.foldl pstep initPState with
          pending := some (commentTextOf cmt), lastComment := true }) ∧
    -- (b) the next [Peer] header attaches it to the fresh peer record
    ((pre ++ [cmt, "[Peer]"]).foldl pstep initPState).cur =
      [("_name", commentTextOf cmt)] ∧
    -- (c) a blank line immediately after the comment clears it
    ((pre ++ [cmt, ""]).foldl pstep initPState).pending = none ∧
    -- (d) an [Interface] header clears it
    ((pre ++ [cmt, "[Interface]"]).foldl pstep initPState).pending = none ∧
    -- (e) an intervening key-value line does not clear it
    (∀ mid : String, pyStrip mid ≠ "" → pyStartsWith (pyStrip mid) '#' = false →
      pyStrip mid ≠ "[Interface]" → pyStrip mid ≠ "[Peer]" →
      ((pre ++ [cmt, mid]).foldl pstep initPState).pending =
        some (commentTextOf cmt)) ∧
    -- (f) a comment while inside the [Interface] section is ignored
    (∀ s : PState, s.sect = some Sect.iface → pstep s cmt = s) := by
  have hstep : pstep (pre.foldl pstep initPState) cmt =
      { pre.foldl pstep initPState with
          pending := some (commentTextOf cmt), lastComment := true } := by
    simp only [pstep, if_neg hne, hhash, if_true]
    exact if_pos ⟨hsect, htext⟩
  refine ⟨hstep, ?_, ?_, ?_, ?_, ?_⟩
  · rw [show pre ++ [cmt, "[Peer]"] = (pre ++ [cmt]) ++ ["[Peer]"] by simp,
      List.foldl_append, List.foldl_append, List.foldl_cons, List.foldl_nil,
      List.foldl_cons, List.foldl_nil, hstep]
    rfl
  · rw [show pre ++ [cmt, ""] = (pre ++ [cmt]) ++ [""] by simp,
      List.foldl_append, List.foldl_append, List.foldl_cons, List.foldl_nil,
      List.foldl_cons, List.foldl_nil, hstep]
    rfl
  · rw [show pre ++ [cmt, "[Interface]"] = (pre ++ [cmt]) ++ ["[Interface]"] by simp,
      List.foldl_append, List.foldl_append, List.foldl_cons, List.foldl_nil,
      List.foldl_cons, List.foldl_nil, hstep]
    rfl
  · intro mid h1 h2 h3 h4
    rw [show pre ++ [cmt, mid] = (pre ++ [cmt]) ++ [mid] by simp,
      List.foldl_append, List.foldl_append, List.foldl_cons, List.foldl_nil,
      List.foldl_cons, List.foldl_nil, hstep,
      pstep_pending_survives _ mid h1 h2 h3 h4]
  · intro s hs
    simp only [pstep, if_neg hne, hhash, if_true]
    rw [if_neg]
    intro hcontra
    exact hcontra.1 hs

theorem c7_pending_name_discipline_witness :
    pyStrip "# bob" ≠ "" ∧
      ((["PublicKey = K0"] ++ ["# bob", "[Peer]"]).foldl pstep initPState).cur =
        [("_name", "bob")] := by
  refine ⟨by decide, ?_⟩
  exact (c7_pending_name_discipline ["PublicKey = K0"] "# bob" (by decide)
    (by decide) (by decide) (by decide)).2.1

/-! ## C6 — diff name borrowing -/

def c6Dir : FS :=
  [("wg0.conf", ["[Interface]", "Address = 10.0.0.1/24"]),
   ("a.conf", ["[Peer]", "PublicKey = KX", "AllowedIPs = 10.0.0.9/32"]),
   ("b.conf", ["[Peer]", "PublicKey = KP", "AllowedIPs = 10.0.0.7/32"])]

def c6Canonical : List String :=
  ["[Interface]", "Address = 10.0.0.1/24", "[Peer]", "PublicKey = KP",
   "AllowedIPs = 10.0.0.9"]

/-- C6, counterexample: the canonical peer has PublicKey `KP`, exactly
matching folder peer `b` — but the borrowing loop walks the folder peers
in filename order and stops at the first peer matching any rule, so peer
`a` (which matches only by normalized AllowedIPs, a lower-priority rule)
lends its name, and the available PublicKey match `b` never wins. -/
theorem c6_borrow_priority_counterexample :
    getConfigDiff "wg0" c6Dir (some c6Canonical) =
        Except.ok
          ([{ name := "a", publicKey := "KP", allowedIps := "10.0.0.9",
              endpoint := none, keepalive := none }],
           [{ name := "a", publicKey := "KX", allowedIps := "10.0.0.9/32",
              endpoint := none, keepalive := none },
            { name := "b", publicKey := "KP", allowedIps := "10.0.0.7/32",
              endpoint := none, keepalive := none }]) ∧
      ("a" : String) ≠ "b" := by
  exact ⟨rfl, by decide⟩

theorem find?_append_of_none {α : Type} (p : α → Bool) (pre l : List α)
    (h : ∀ q ∈ pre, p q = false) : (pre ++ l).find? p = l.find? p := by
  induction pre with
  | nil => rfl
  | cons q qs ih =>
    rw [List.cons_append, List.find?_cons_of_neg _ (by
      simp [h q (List.mem_cons_self q qs)]), ih]
    intro r hr
    exact h r (List.mem_cons_of_mem q hr)

/-- C6, amended: in `diff(interfaceName)`, a canonical-side peer's
display name is resolved by scanning the folder-side peers in their list
order (sorted filenames) and borrowing the name of the *first* peer
matching any one of the three rules (PublicKey equality, default-name
equality, normalized AllowedIPs equality); with no match the default
name stays.  The scan order, not the rule priority, decides: a peer
matching only a lower-priority rule that appears earlier wins over a
later PublicKey match (see the counterexample). -/
theorem c6_first_match_borrowing :
    (∀ (fps : List DiffPeer) (dn pk ips : String),
        (∀ fp ∈ fps, diffMatch dn pk ips fp = false) →
        borrowName fps dn pk ips = dn) ∧
      (∀ (pre suf : List DiffPeer) (fp : DiffPeer) (dn pk ips : String),
        diffMatch dn pk ips fp = true →
        (∀ q ∈ pre, diffMatch dn pk ips q = false) →
        borrowName (pre ++ fp :: suf) dn pk ips = fp.name) ∧
      (∀ (iface : String) (dir : FS) (ctext : List String),
        fsRead dir (iface ++ ".conf") ≠ none →
        getConfigDiff iface dir (some ctext) =
          Except.ok
            ((parseLines ctext).peers.enum.map
              (diffCurrentPeer (folderPeersOf iface dir)),
             folderPeersOf iface dir)) := by
  refine ⟨?_, ?_, ?_⟩
  · intro fps dn pk ips h
    rw [borrowName, List.find?_eq_none.mpr (fun q hq => by simp [h q hq])]
  · intro pre suf fp dn pk ips hfp hpre
    rw [borrowName, find?_append_of_none _ pre _ hpre,
      List.find?_cons_of_pos _ hfp]
  · intro iface dir ctext hfrag
    rw [getConfigDiff, if_neg hfrag]
    show Except.ok
        ((if (parseLines ctext).peers ≠ [] then
            (parseLines ctext).peers.enum.map (diffCurrentPeer (folderPeersOf iface dir))
          else []),
         folderPeersOf iface dir) = _
    by_cases hp : (parseLines ctext).peers = []
    · rw [if_neg (fun h => h hp), hp]
      rfl
    · rw [if_pos hp]

theorem c6_first_match_borrowing_witness :
    diffMatch "peer1" "KP" "10.0.0.9"
        { name := "a", publicKey := "KX", allowedIps := "10.0.0.9/32",
          endpoint := none, keepalive := none } = true ∧
      borrowName
        ([] ++ { name := "a", publicKey := "KX", allowedIps := "10.0.0.9/32",
                 endpoint := none, keepalive := none } ::
          [{ name := "b", publicKey := "KP", allowedIps := "10.0.0.7/32",
             endpoint := none, keepalive := none }]) "peer1" "KP" "10.0.0.9" = "a" :=
  ⟨by decide,
    c6_first_match_borrowing.2.1 []
      [{ name := "b", publicKey := "KP", allowedIps := "10.0.0.7/32",
         endpoint := none, keepalive := none }]
      { name := "a", publicKey := "KX", allowedIps := "10.0.0.9/32",
        endpoint := none, keepalive := none } "peer1" "KP" "10.0.0.9"
      (by decide) (fun q hq => absurd hq (List.not_mem_nil q))⟩

/-! ## C3 — reset name resolution priority -/

theorem mem_map_fst_fsWrite_self (fs : FS) (n : String) (c : List String) :
    n ∈ (fsWrite fs n c).map Prod.fst := by
  rw [fsWrite]
  by_cases h : fs.any (fun f => f.1 = n) = true
  · rw [if_pos h]
    rcases List.any_eq_true.mp h with ⟨kv, hkv, heq⟩
    refine List.mem_map.mpr ⟨(n, c), ?_, rfl⟩
    refine List.mem_map.mpr ⟨kv, hkv, ?_⟩
    rw [if_pos (by simpa using heq)]
  · rw [if_neg h]
    simp

theorem mem_map_fst_fsWrite_mono (fs : FS) (n m : String) (c : List String)
    (h : m ∈ fs.map Prod.fst) : m ∈ (fsWrite fs n c).map Prod.fst := by
  rw [fsWrite]
  by_cases hany : fs.any (fun f => f.1 = n) = true
  · rw [if_pos hany]
    rcases List.mem_map.mp h with ⟨kv, hkv, rfl⟩
    by_cases hk : kv.1 = n
    · refine List.mem_map.mpr ⟨(n, c), List.mem_map.mpr ⟨kv, hkv, by rw [if_pos (by simpa using hk)]⟩, hk.symm ▸ rfl⟩
    · exact List.mem_map.mpr ⟨kv, List.mem_map.mpr ⟨kv, hkv, by rw [if_neg (by simpa using hk)]⟩, rfl⟩
  · rw [if_neg hany]
    rw [List.map_append]
    exact List.mem_append.mpr (Or.inl h)

/-- Fold steps of `reset_config` never drop an existing filename. -/
theorem resetFold_preserves (bk bi : Dict) (l : List (Nat × Dict)) (d : FS)
    (m : String) (h : m ∈ d.map Prod.fst) :
    m ∈ (l.foldl (fun d ip =>
      fsWrite d (resolvePeerName bk bi ip.1 ip.2 ++ ".conf")
        (writeLines { interface := [], peers := [stripName ip.2] }
          (some (resolvePeerName bk bi ip.1 ip.2)))) d).map Prod.fst := by
  induction l generalizing d with
  | nil => exact h
  | cons ip rest ih =>
    rw [List.foldl_cons]
    exact ih _ (mem_map_fst_fsWrite_mono _ _ _ _ h)

/-- Names written by the `reset_config` fold survive to the final folder. -/
theorem resetFold_mem_name (bk bi : Dict) (l : List (Nat × Dict)) (d : FS)
    (idx : Nat) (p : Dict) (hmem : (idx, p) ∈ l) :
    (resolvePeerName bk bi idx p ++ ".conf") ∈
      (l.foldl (fun d ip =>
        fsWrite d (resolvePeerName bk bi ip.1 ip.2 ++ ".conf")
          (writeLines { interface := [], peers := [stripName ip.2] }
            (some (resolvePeerName bk bi ip.1 ip.2)))) d).map Prod.fst := by
  induction l generalizing d with
  | nil => exact absurd hmem (List.not_mem_nil _)
  | cons ip rest ih =>
    rw [List.foldl_cons]
    rcases List.mem_cons.mp hmem with heq | hmem2
    · subst heq
      exact resetFold_preserves bk bi rest _ _ (mem_map_fst_fsWrite_self d _ _)
    · exact ih _ hmem2

/-- C3: the fragment-name resolution of `reset_config` follows the
priority: (1) the embedded `_name`, (2) the PublicKey index over the
pre-reset folder, (3) the normalized-AllowedIPs index, (4) the generated
`peer{idx+1}` (an empty looked-up name is falsy and falls through); every
canonical peer's resolved name appears as `{name}.conf` in the
regenerated folder; and the peer alice (PublicKey `KAL`) survives sync
followed by reset with its fragment still named `alice.conf`, recovered
by PublicKey correlation although the multi-peer canonical file carries
no name metadata. -/
theorem c3_reset_name_priority (bk bi : Dict) (idx : Nat) (p : Dict) :
    (dictGetD p "_name" ≠ "" → resolvePeerName bk bi idx p = dictGetD p "_name") ∧
      (dictGetD p "_name" = "" → dictGetD p "PublicKey" ≠ "" →
        ∀ nm, dictGet bk (dictGetD p "PublicKey") = some nm → nm ≠ "" →
        resolvePeerName bk bi idx p = nm) ∧
      (dictGetD p "_name" = "" →
        (dictGetD p "PublicKey" = "" ∨
          dictGet bk (dictGetD p "PublicKey") = none ∨
          dictGet bk (dictGetD p "PublicKey") = some "") →
        dictGetD p "AllowedIPs" ≠ "" →
        normalizeAllowedIPs (dictGetD p "AllowedIPs") ≠ "" →
        ∀ nm, dictGet bi (normalizeAllowedIPs (dictGetD p "AllowedIPs")) = some nm →
        nm ≠ "" → resolvePeerName bk bi idx p = nm) ∧
      (dictGetD p "_name" = "" →
        (dictGetD p "PublicKey" = "" ∨
          dictGet bk (dictGetD p "PublicKey") = none ∨
          dictGet bk (dictGetD p "PublicKey") = some "") →
        (dictGetD p "AllowedIPs" = "" ∨
          normalizeAllowedIPs (dictGetD p "AllowedIPs") = "" ∨
          dictGet bi (normalizeAllowedIPs (dictGetD p "AllowedIPs")) = none ∨
          dictGet bi (normalizeAllowedIPs (dictGetD p "AllowedIPs")) = some "") →
        resolvePeerName bk bi idx p = "peer" ++ toString (idx + 1)) ∧
      (∀ (iface : String) (ctext : List String) (dir : FS) (f' : FS),
        resetConfig iface (some ctext) dir = Except.ok f' →
        ∀ j q, (parseLines ctext).peers[j]? = some q →
        (resolvePeerName (resetIndex iface dir).1 (resetIndex iface dir).2 j q
          ++ ".conf") ∈ f'.map Prod.fst) ∧
      (syncConfig "wg0"
          [("wg0.conf", ["[Interface]", "Address = 10.0.0.1/24", "PrivateKey = P"]),
           ("alice.conf", ["[Peer]", "PublicKey = KAL", "AllowedIPs = 10.0.0.5/32"]),
           ("bob.conf", ["[Peer]", "PublicKey = KB", "AllowedIPs = 10.0.0.6/32"])] =
        Except.ok
          ["[Interface]", "Address = 10.0.0.1/24", "PrivateKey = P", "[Peer]",
           "PublicKey = KAL", "AllowedIPs = 10.0.0.5/32", "[Peer]",
           "PublicKey = KB", "AllowedIPs = 10.0.0.6/32"] ∧
        (parseLines
          ["[Interface]", "Address = 10.0.0.1/24", "PrivateKey = P", "[Peer]",
           "PublicKey = KAL", "AllowedIPs = 10.0.0.5/32", "[Peer]",
           "PublicKey = KB", "AllowedIPs = 10.0.0.6/32"]).peers.map
            (fun q => dictGet q "_name") = [none, none] ∧
        resetConfig "wg0"
          (some ["[Interface]", "Address = 10.0.0.1/24", "PrivateKey = P", "[Peer]",
                 "PublicKey = KAL", "AllowedIPs = 10.0.0.5/32", "[Peer]",
                 "PublicKey = KB", "AllowedIPs = 10.0.0.6/32"])
          [("wg0.conf", ["[Interface]", "Address = 10.0.0.1/24", "PrivateKey = P"]),
           ("alice.conf", ["[Peer]", "PublicKey = KAL", "AllowedIPs = 10.0.0.5/32"]),
           ("bob.conf", ["[Peer]", "PublicKey = KB", "AllowedIPs = 10.0.0.6/32"])] =
        Except.ok
          [("wg0.conf", ["[Interface]", "Address = 10.0.0.1/24", "PrivateKey = P"]),
           ("alice.conf",
            ["", "# alice", "[Peer]", "PublicKey = KAL", "AllowedIPs = 10.0.0.5/32"]),
           ("bob.conf",
            ["", "# bob", "[Peer]", "PublicKey = KB", "AllowedIPs = 10.0.0.6/32"])]) := by
  refine ⟨?_, ?_, ?_, ?_, ?_, rfl, rfl, rfl⟩
  · intro h
    simp [resolvePeerName, h]
  · intro h0 hpk nm hlook hnm
    simp [resolvePeerName, h0, hpk, hlook, hnm]
  · intro h0 hpk hips hnorm nm hlook hnm
    rcases hpk with hpk | hpk | hpk <;>
      simp [resolvePeerName, h0, hpk, hips, hnorm, hlook, hnm]
  · intro h0 hpk hips
    rcases hpk with hpk | hpk | hpk <;>
      rcases hips with hips | hips | hips | hips <;>
      simp [resolvePeerName, h0, hpk, hips]
  · intro iface ctext dir f' hreset j q hq
    have hok : (Except.ok ((parseLines ctext).peers.enum.foldl (fun d ip =>
        fsWrite d (resolvePeerName (resetIndex iface dir).1 (resetIndex iface dir).2
            ip.1 ip.2 ++ ".conf")
          (writeLines { interface := [], peers := [stripName ip.2] }
            (some (resolvePeerName (resetIndex iface dir).1 (resetIndex iface dir).2
              ip.1 ip.2))))
        (fsWrite [] (iface ++ ".conf")
          (writeLines { interface := (parseLines ctext).interface, peers := [] } none)))
        : Except String FS) = Except.ok f' := by
      rw [← hreset]
      rfl
    have hf' := Except.ok.inj hok
    rw [← hf']
    exact resetFold_mem_name _ _ _ _ j q (List.mk_mem_enum_iff_getElem?.mpr hq)

theorem c3_reset_name_priority_witness :
    dictGetD [("PublicKey", "KAL"), ("AllowedIPs", "10.0.0.5/32")] "_name" = "" ∧
      dictGetD [("PublicKey", "KAL"), ("AllowedIPs", "10.0.0.5/32")] "PublicKey" ≠ "" ∧
      resolvePeerName [("KAL", "alice")] [] 0
        [("PublicKey", "KAL"), ("AllowedIPs", "10.0.0.5/32")] = "alice" :=
  ⟨rfl, by decide,
    (c3_reset_name_priority [("KAL", "alice")] [] 0
      [("PublicKey", "KAL"), ("AllowedIPs", "10.0.0.5/32")]).2.1
      rfl (by decide) "alice" rfl (by decide)⟩

/-! ## C4 — automatic address allocation -/

set_option maxRecDepth 8192 in
/-- Rendering any octet value and parsing it back round-trips, and the
rendering is all digits. -/
theorem octet_roundtrip : ∀ n < 256,
    parseOctet (toString n) = some n ∧ (toString n).data.all isDigitChar = true := by
  decide

theorem digit_not_special (c : Char) (h : isDigitChar c = true) :
    isPySpace c = false ∧ c ≠ '.' ∧ c ≠ '/' ∧ c ≠ ',' ∧ c ≠ ':' := by
  refine ⟨?_, ?_, ?_, ?_, ?_⟩
  · by_cases hs : isPySpace c = true
    · have h6 : ((((c = ' ' ∨ c = '\t') ∨ c = '\n') ∨ c = '\r') ∨ c = '\x0b') ∨
          c = '\x0c' := by
        simpa [isPySpace] using hs
      rcases h6 with ((((rfl | rfl) | rfl) | rfl) | rfl) | rfl <;>
        exact absurd h (by decide)
    · simpa using hs
  all_goals
    intro heq
    rw [heq] at h
    exact absurd h (by decide)

theorem stripL_eq_self_of_ends (l : List Char)
    (hh : ∀ x, l.head? = some x → isPySpace x = false)
    (hl : ∀ x, l.getLast? = some x → isPySpace x = false) :
    stripL l = l := by
  have h1 : l.dropWhile isPySpace = l := by
    cases l with
    | nil => rfl
    | cons c cs =>
      rw [List.dropWhile_cons_of_neg]
      simp [hh c rfl]
  rw [stripL, h1]
  have h2 : l.reverse.dropWhile isPySpace = l.reverse := by
    cases hrev : l.reverse with
    | nil => rfl
    | cons c cs =>
      rw [List.dropWhile_cons_of_neg]
      have : l.getLast? = some c := by
        rw [← List.head?_reverse, hrev]
        rfl
      simp [hl c this]
  rw [h2, List.reverse_reverse]

theorem splitCharGo_word (c : Char) (w : List Char) (hw : ∀ x ∈ w, x ≠ c) :
    ∀ acc l, splitCharGo c acc (w ++ l) = splitCharGo c (w.reverse ++ acc) l := by
  induction w with
  | nil => intro acc l; simp
  | cons x w' ih =>
    intro acc l
    rw [List.cons_append, splitCharGo,
      if_neg (hw x (List.mem_cons_self x w')),
      ih (fun y hy => hw y (List.mem_cons_of_mem x hy)) (x :: acc) l]
    congr 1
    rw [List.reverse_cons, List.append_assoc]
    rfl

theorem splitCharGo_all (c : Char) (w : List Char) (hw : ∀ x ∈ w, x ≠ c) :
    splitCharGo c [] w = [w] := by
  rw [show w = w ++ ([] : List Char) from (List.append_nil _).symm,
    splitCharGo_word c w hw [] [], List.append_nil, splitCharGo,
    List.reverse_reverse]
  simp

theorem splitCharGo_break (c : Char) (w : List Char) (hw : ∀ x ∈ w, x ≠ c)
    (rest : List Char) :
    splitCharGo c [] (w ++ c :: rest) = w :: splitCharGo c [] rest := by
  rw [splitCharGo_word c w hw [] (c :: rest), List.append_nil, splitCharGo,
    if_pos rfl, List.reverse_reverse]

theorem parseOctet_ne_nil (s : String) (v : Nat) (h : parseOctet s = some v) :
    s.data ≠ [] ∧ s.data.all isDigitChar = true ∧ v ≤ 255 := by
  rw [parseOctet] at h
  by_cases hc : s.data ≠ [] ∧ s.data.all isDigitChar = true ∧ s.data.length ≤ 3 ∧
      (s = "0" ∨ s.data.head? ≠ some '0') ∧ digitsToNat s.data ≤ 255
  · rcases hc with ⟨hc1, hc2, _, _, hc5⟩
    rw [if_pos ⟨hc1, hc2, by assumption, by assumption, hc5⟩] at h
    exact ⟨hc1, hc2, (Option.some.inj h) ▸ hc5⟩
  · rw [if_neg hc] at h
    cases h

theorem parseOctets_cons_eq (s : String) (ss : List String) (v : Nat) (vs : List Nat)
    (h1 : parseOctet s = some v) (h2 : parseOctets ss = some vs) :
    parseOctets (s :: ss) = some (v :: vs) := by
  rw [parseOctets, h1, h2]

/-- `showV4` and `parseIPv4Addr` round-trip on any address value. -/
theorem parseIPv4Addr_showV4 (a : Nat) (ha : a < 4294967296) :
    parseIPv4Addr (showV4 a) = some a ∧
      (∀ x ∈ (showV4 a).data, isDigitChar x = true ∨ x = '.') ∧
      (showV4 a).data ≠ [] := by
  have hb1 : a / 16777216 % 256 < 256 := Nat.mod_lt _ (by norm_num)
  have hb2 : a / 65536 % 256 < 256 := Nat.mod_lt _ (by norm_num)
  have hb3 : a / 256 % 256 < 256 := Nat.mod_lt _ (by norm_num)
  have hb4 : a % 256 < 256 := Nat.mod_lt _ (by norm_num)
  have ho1 := octet_roundtrip _ hb1
  have ho2 := octet_roundtrip _ hb2
  have ho3 := octet_roundtrip _ hb3
  have ho4 := octet_roundtrip _ hb4
  have hdig : ∀ m : Nat, (toString m).data.all isDigitChar = true →
      ∀ x ∈ (toString m).data, x ≠ '.' := by
    intro m hm x hx
    exact (digit_not_special x (List.all_eq_true.mp hm x hx)).2.1
  have hdata : (showV4 a).data =
      (toString (a / 16777216 % 256)).data ++ '.' ::
        ((toString (a / 65536 % 256)).data ++ '.' ::
          ((toString (a / 256 % 256)).data ++ '.' :: (toString (a % 256)).data)) := by
    simp [showV4, String.data_append]
  have hsplit : splitChar '.' (showV4 a) =
      [toString (a / 16777216 % 256), toString (a / 65536 % 256),
       toString (a / 256 % 256), toString (a % 256)] := by
    rw [splitChar, hdata]
    rw [splitCharGo_break '.' _ (hdig _ ho1.2),
      splitCharGo_break '.' _ (hdig _ ho2.2),
      splitCharGo_break '.' _ (hdig _ ho3.2),
      splitCharGo_all '.' _ (hdig _ ho4.2)]
    rfl
  refine ⟨?_, ?_, ?_⟩
  · rw [parseIPv4Addr, hsplit,
      parseOctets_cons_eq _ _ _ _ ho1.1 (parseOctets_cons_eq _ _ _ _ ho2.1
        (parseOctets_cons_eq _ _ _ _ ho3.1 (parseOctets_cons_eq _ _ _ _ ho4.1
          (show parseOctets ([] : List String) = some [] from rfl))))]
    show some (((a / 16777216 % 256 * 256 + a / 65536 % 256) * 256 + a / 256 % 256) * 256
        + a % 256) = some a
    congr 1
    omega
  · intro x hx
    rw [hdata] at hx
    rcases List.mem_append.mp hx with hx | hx
    · exact Or.inl (List.all_eq_true.mp ho1.2 x hx)
    rcases List.mem_cons.mp hx with rfl | hx
    · exact Or.inr rfl
    rcases List.mem_append.mp hx with hx | hx
    · exact Or.inl (List.all_eq_true.mp ho2.2 x hx)
    rcases List.mem_cons.mp hx with rfl | hx
    · exact Or.inr rfl
    rcases List.mem_append.mp hx with hx | hx
    · exact Or.inl (List.all_eq_true.mp ho3.2 x hx)
    rcases List.mem_cons.mp hx with rfl | hx
    · exact Or.inr rfl
    · exact Or.inl (List.all_eq_true.mp ho4.2 x hx)
  · rw [hdata]
    rcases hne : (toString (a / 16777216 % 256)).data with _ | _
    · exact absurd hne (parseOctet_ne_nil _ _ ho1.1).1
    · simp

theorem stripL_eq_self_of_nonspace (l : List Char)
    (h : ∀ x ∈ l, isPySpace x = false) : stripL l = l :=
  stripL_eq_self_of_ends l
    (fun x hx => h x (List.mem_of_mem_head? hx))
    (fun x hx => h x (List.mem_of_mem_getLast? hx))

/-- The characters of an allocated `host/32` string are digits, dots, a
slash, `3` and `2`; none is a separator, comma or whitespace. -/
theorem allocated_string_facts (h : Nat) (hlt : h < 4294967296) :
    parseIPv4Interface (showV4 h ++ "/32") = some (h, 32) ∧
      validateIpAddressMulti (showV4 h ++ "/32") = Except.ok () ∧
      normalizeCsv (showV4 h ++ "/32") = showV4 h ++ "/32" ∧
      (showV4 h ++ "/32") ≠ "" := by
  have hrt := parseIPv4Addr_showV4 h hlt
  have hdata : (showV4 h ++ "/32").data = (showV4 h).data ++ ['/', '3', '2'] := by
    rw [String.data_append]
  have hchars : ∀ x ∈ (showV4 h ++ "/32").data,
      isDigitChar x = true ∨ x = '.' ∨ x = '/' := by
    intro x hx
    rw [hdata] at hx
    rcases List.mem_append.mp hx with hx | hx
    · rcases hrt.2.1 x hx with hd | hd
      · exact Or.inl hd
      · exact Or.inr (Or.inl hd)
    · rcases List.mem_cons.mp hx with rfl | hx
      · exact Or.inr (Or.inr rfl)
      · rcases List.mem_cons.mp hx with rfl | hx
        · exact Or.inl (by decide)
        · rcases List.mem_cons.mp hx with rfl | hx
          · exact Or.inl (by decide)
          · exact absurd hx (List.not_mem_nil x)
  have hnospace : ∀ x ∈ (showV4 h ++ "/32").data, isPySpace x = false := by
    intro x hx
    rcases hchars x hx with hd | rfl | rfl
    · exact (digit_not_special x hd).1
    · decide
    · decide
  have hnocomma : ∀ x ∈ (showV4 h ++ "/32").data, x ≠ ',' := by
    intro x hx
    rcases hchars x hx with hd | rfl | rfl
    · exact (digit_not_special x hd).2.2.2.1
    · decide
    · decide
  have hstrip : pyStrip (showV4 h ++ "/32") = showV4 h ++ "/32" := by
    rw [pyStrip, stripL_eq_self_of_nonspace _ hnospace]
  have hne : (showV4 h ++ "/32") ≠ "" := by
    intro heq
    have hd := congrArg String.data heq
    rw [hdata] at hd
    have hmem : ('/' : Char) ∈ ("" : String).data := by
      rw [← hd]
      exact List.mem_append.mpr (Or.inr (by decide))
    exact absurd hmem (by decide)
  have hparse : parseIPv4Interface (showV4 h ++ "/32") = some (h, 32) := by
    have hnoslash : ∀ x ∈ (showV4 h).data, x ≠ '/' := by
      intro x hx
      rcases hrt.2.1 x hx with hd | rfl
      · exact (digit_not_special x hd).2.2.1
      · decide
    have hsplit : splitChar '/' (showV4 h ++ "/32") = [showV4 h, "32"] := by
      rw [splitChar, hdata,
        show ((['/', '3', '2'] : List Char) = '/' :: ['3', '2']) from rfl,
        splitCharGo_break '/' _ hnoslash,
        splitCharGo_all '/' ['3', '2'] (by decide)]
      rfl
    rw [parseIPv4Interface, hsplit]
    show (match parseIPv4Addr (showV4 h), parsePrefixLen "32" with
          | some ip, some pl => some (ip, pl)
          | _, _ => none) = some (h, 32)
    rw [hrt.1]
    rfl
  have hsplitComma : splitChar ',' (showV4 h ++ "/32") = [showV4 h ++ "/32"] := by
    rw [splitChar, splitCharGo_all ',' _ (fun x hx => hnocomma x hx)]
    show [String.mk (showV4 h ++ "/32").data] = _
    rfl
  refine ⟨hparse, ?_, ?_, hne⟩
  · rw [validateIpAddressMulti, if_neg hne, if_pos]
    rw [hsplitComma]
    simp [hstrip, hparse]
  · rw [normalizeCsv, hsplitComma]
    simp only [List.map_cons, List.map_nil, hstrip]
    rw [List.filter_cons_of_pos (by simpa using hne)]
    rfl

/-- Specification of the ascending host scan:  a returned address is the
numerically smallest one in the scanned range outside the used set, and
`none` means the whole range is used. -/
theorem scanFree_spec (used : List Nat) (fuel : Nat) : ∀ start : Nat,
    (∀ h, scanFree start fuel used = some h →
      start ≤ h ∧ h < start + fuel ∧ h ∉ used ∧
        ∀ u, start ≤ u → u < h → u ∈ used) ∧
    (scanFree start fuel used = none →
      ∀ u, start ≤ u → u < start + fuel → u ∈ used) := by
  induction fuel with
  | zero =>
    intro start
    constructor
    · intro h hh
      exact Option.noConfusion hh
    · intro _ u hu1 hu2
      omega
  | succ f ih =>
    intro start
    constructor
    · intro h hh
      rw [scanFree] at hh
      by_cases hs : start ∈ used
      · rw [if_pos hs] at hh
        obtain ⟨ha, hb, hc, hd⟩ := (ih (start + 1)).1 h hh
        refine ⟨by omega, by omega, hc, ?_⟩
        intro u hu1 hu2
        by_cases hu : u = start
        · exact hu ▸ hs
        · exact hd u (by omega) hu2
      · rw [if_neg hs] at hh
        cases hh
        exact ⟨Nat.le_refl _, by omega, hs, fun u hu1 hu2 => by omega⟩
    · intro hh u hu1 hu2
      rw [scanFree] at hh
      by_cases hs : start ∈ used
      · rw [if_pos hs] at hh
        by_cases hu : u = start
        · exact hu ▸ hs
        · exact (ih (start + 1)).2 hh u (by omega) (by omega)
      · rw [if_neg hs] at hh
        cases hh

/-- The scanned range stays within the network's address block. -/
theorem hosts_le (t : V4Net) (hp : t.plen ≤ 32) :
    hostsStart t + hostsCount t ≤ t.netaddr + 2 ^ (32 - t.plen) := by
  rw [hostsStart, hostsCount]
  by_cases h30 : t.plen ≤ 30
  · rw [if_pos h30, if_pos h30]
    have h4 : (4 : Nat) ≤ 2 ^ (32 - t.plen) := by
      calc (4 : Nat) = 2 ^ 2 := rfl
      _ ≤ 2 ^ (32 - t.plen) := Nat.pow_le_pow_right (by norm_num) (by omega)
    omega
  · rw [if_neg h30, if_neg h30]
    by_cases h31 : t.plen = 31
    · rw [if_pos h31, h31]
      norm_num
    · rw [if_neg h31]
      have h32 : t.plen = 32 := by omega
      rw [h32]
      norm_num

/-- The peer record `add_peer` writes. -/
def allocPeerRec (pub allowed ep : String) (ka : Option String) : Dict :=
  [("PublicKey", pub), ("AllowedIPs", allowed), ("Endpoint", ep),
   ("PersistentKeepalive", ka.getD "")]

/-- The folder after `add_peer` writes the new fragment. -/
def allocWrittenFS (dir : FS) (name pub allowed ep : String) (ka : Option String) : FS :=
  fsWrite dir (name ++ ".conf")
    (writeLines { interface := [], peers := [allocPeerRec pub allowed ep ka] } none)

/-- The response record `add_peer` returns. -/
def allocResult (name pub : String) (priv : Option String) (allowed ep : String)
    (ka warn : Option String) : PeerAddResult :=
  { name := name, publicKey := pub, privateKey := priv, allowedIps := allowed,
    endpoint := ep, keepalive := ka, warnings := warn }

/-- The interface folder of the allocation example: network
`10.50.0.0/16`, interface address `10.50.0.1/16`, no peers. -/
def c4Dir : FS :=
  [("wg0.conf", ["[Interface]", "Address = 10.50.0.1/16", "PrivateKey = P"])]

/-- The same folder after the first allocation created peer `a`. -/
def c4Dir2 : FS :=
  [("wg0.conf", ["[Interface]", "Address = 10.50.0.1/16", "PrivateKey = P"]),
   ("a.conf", ["[Peer]", "PublicKey = K1", "AllowedIPs = 10.50.10.1/32"])]

/-- C4: auto-allocation of `add_peer`.  With the target subnet resolved
(`allocTarget`), the operation (1) rejects when the target is not
contained in the interface network, (2) rejects with "No available IPs in
subnet" when the ascending scan finds none, and (3) otherwise assigns the
numerically smallest host address of the target subnet outside the used
set (the interface's own address plus every peer's parsed addresses) as a
single `/32`.  Concretely, with interface address `10.50.0.1/16` and no
peers, allocation in `"10.50.10"` yields `10.50.10.1/32`, a second
request yields `10.50.10.2/32`, and `"10.50"` yields `10.50.0.2/32`. -/
theorem c4_auto_allocation
    (iface name ep : String) (dir : FS) (gen : String × String × Option String)
    (pkArg ka aArg : Option String) (frag : List String) (target : V4Net)
    (ifIntf : Nat × Nat)
    (h2 : fsRead dir (name ++ ".conf") = none)
    (h3 : fsRead dir (iface ++ ".conf") = some frag)
    (h4 : dictGetD (parseLines frag).interface "Address" ≠ "")
    (h5 : parseIPv4Interface (dictGetD (parseLines frag).interface "Address") =
      some ifIntf)
    (h6 : allocTarget (v4Network ifIntf.1 ifIntf.2) aArg = some target)
    (h7 : target.plen ≠ 33)
    (hwf : target.plen ≤ 32 ∧ target.netaddr + 2 ^ (32 - target.plen) ≤ 4294967296)
    (hep : validateEndpoint ep = Except.ok ()) :
    (subnetOfB target (v4Network ifIntf.1 ifIntf.2) = false →
      addPeerCore iface dir true gen name aArg ep pkArg ka =
        Except.error "Subnet is not a subset of interface network") ∧
    (subnetOfB target (v4Network ifIntf.1 ifIntf.2) = true →
      scanFree (hostsStart target) (hostsCount target) (usedIps ifIntf.1 iface dir) =
        none →
      addPeerCore iface dir true gen name aArg ep pkArg ka =
        Except.error "No available IPs in subnet") ∧
    (∀ h, subnetOfB target (v4Network ifIntf.1 ifIntf.2) = true →
      scanFree (hostsStart target) (hostsCount target) (usedIps ifIntf.1 iface dir) =
        some h →
      (∃ res fs2, addPeerCore iface dir true gen name aArg ep pkArg ka =
          Except.ok (res, fs2) ∧ res.allowedIps = showV4 h ++ "/32") ∧
        h ∉ usedIps ifIntf.1 iface dir ∧
        hostsStart target ≤ h ∧
        (∀ u, hostsStart target ≤ u → u < h → u ∈ usedIps ifIntf.1 iface dir)) ∧
    (addPeerCore "wg0" c4Dir true ("priv", "pub", none) "a" (some "10.50.10") ""
        (some "K1") none).map (fun r => r.1.allowedIps) =
      Except.ok "10.50.10.1/32" ∧
    (addPeerCore "wg0" c4Dir2 true ("priv", "pub", none) "b" (some "10.50.10") ""
        (some "K2") none).map (fun r => r.1.allowedIps) =
      Except.ok "10.50.10.2/32" ∧
    (addPeerCore "wg0" c4Dir2 true ("priv", "pub", none) "b" (some "10.50") ""
        (some "K2") none).map (fun r => r.1.allowedIps) =
      Except.ok "10.50.0.2/32" := by
  refine ⟨?_, ?_, ?_, rfl, rfl, rfl⟩
  · intro hsub
    simp [addPeerCore, h2, h3, h4, h5, h6, h7, hsub]
  · intro hsub hscan
    simp [addPeerCore, h2, h3, h4, h5, h6, h7, hsub, hscan]
  · intro h hsub hscan
    have hspec := (scanFree_spec (usedIps ifIntf.1 iface dir) (hostsCount target)
      (hostsStart target)).1 h hscan
    have hlt : h < 4294967296 := by
      have hb := hosts_le target hwf.1
      omega
    have hfacts := allocated_string_facts h hlt
    refine ⟨?_, hspec.2.2.1, hspec.1, hspec.2.2.2⟩
    cases pkArg with
    | none =>
      refine ⟨allocResult name gen.2.1 (some gen.1) (showV4 h ++ "/32") ep ka gen.2.2,
        allocWrittenFS dir name gen.2.1 (showV4 h ++ "/32") ep ka, ?_, rfl⟩
      simp [addPeerCore, allocResult, allocWrittenFS, allocPeerRec, h2, h3, h4, h5,
        h6, h7, hsub, hscan, hfacts.2.2.2, hfacts.2.2.1, hfacts.2.1, hep]
    | some pk =>
      by_cases hpk : pk = ""
      · refine ⟨allocResult name gen.2.1 (some gen.1) (showV4 h ++ "/32") ep ka gen.2.2,
          allocWrittenFS dir name gen.2.1 (showV4 h ++ "/32") ep ka, ?_, rfl⟩
        simp [addPeerCore, allocResult, allocWrittenFS, allocPeerRec, h2, h3, h4, h5,
          h6, h7, hsub, hscan, hfacts.2.2.2, hfacts.2.2.1, hfacts.2.1, hep, hpk]
      · refine ⟨allocResult name pk none (showV4 h ++ "/32") ep ka none,
          allocWrittenFS dir name pk (showV4 h ++ "/32") ep ka, ?_, rfl⟩
        simp [addPeerCore, allocResult, allocWrittenFS, allocPeerRec, h2, h3, h4, h5,
          h6, h7, hsub, hscan, hfacts.2.2.2, hfacts.2.2.1, hfacts.2.1, hep, hpk]

theorem c4_auto_allocation_witness :
    fsRead c4Dir ("a" ++ ".conf") = none ∧
      (∃ res fs2,
        addPeerCore "wg0" c4Dir true ("priv", "pub", none) "a" (some "10.50.10") ""
            (some "K1") none = Except.ok (res, fs2) ∧
          res.allowedIps = showV4 171051521 ++ "/32") := by
  refine ⟨rfl, ?_⟩
  exact ((c4_auto_allocation "wg0" "a" "" c4Dir ("priv", "pub", none) (some "K1")
    none (some "10.50.10")
    ["[Interface]", "Address = 10.50.0.1/16", "PrivateKey = P"]
    { netaddr := 171051520, plen := 24 } (171048961, 16)
    rfl rfl (by decide) (by decide) (by decide) (by decide)
    (by constructor <;> decide) rfl).2.2.1 171051521 (by decide) (by decide)).1

/-! ## C1 — round-trip stability

Machinery: facts about `strip`, cleanliness of `parse_config` output, and
a parse/write round trip for clean records. -/

/-- Drop trailing whitespace only (the right half of `strip`). -/
def stripR (l : List Char) : List Char :=
  (l.reverse.dropWhile isPySpace).reverse

theorem stripL_eq_stripR_dropWhile (l : List Char) :
    stripL l = stripR (l.dropWhile isPySpace) := rfl

theorem stripR_decomp (l : List Char) :
    ∃ u, l = stripR l ++ u ∧ ∀ c ∈ u, isPySpace c = true := by
  refine ⟨(l.reverse.takeWhile isPySpace).reverse, ?_, ?_⟩
  · have h := congrArg List.reverse
      (List.takeWhile_append_dropWhile isPySpace l.reverse)
    rw [List.reverse_append, List.reverse_reverse] at h
    exact h.symm
  · intro c hc
    rw [List.mem_reverse] at hc
    exact List.mem_takeWhile_imp hc

theorem stripR_head? (l : List Char) (c : Char)
    (hc : (stripR l).head? = some c) : l.head? = some c := by
  obtain ⟨u, hu, -⟩ := stripR_decomp l
  cases h : stripR l with
  | nil => rw [h] at hc; simp at hc
  | cons d ds =>
    rw [h] at hc
    rw [hu, h]
    simpa using hc

theorem dropWhile_head_false {α : Type} (p : α → Bool) (l : List α)
    (c : α) (cs : List α) (h : l.dropWhile p = c :: cs) : p c = false := by
  induction l with
  | nil => cases h
  | cons a as ih =>
    rw [List.dropWhile_cons] at h
    by_cases hp : p a = true
    · rw [if_pos hp] at h; exact ih h
    · rw [if_neg hp] at h
      injection h with h1 _
      subst h1
      cases hpa : p a with
      | false => rfl
      | true => exact absurd hpa hp

theorem stripR_getLast_nonspace (l : List Char) (c : Char)
    (hc : (stripR l).getLast? = some c) : isPySpace c = false := by
  rw [stripR, List.getLast?_reverse] at hc
  cases h : l.reverse.dropWhile isPySpace with
  | nil => rw [h] at hc; cases hc
  | cons d ds =>
    rw [h] at hc
    simp only [List.head?_cons, Option.some.injEq] at hc
    subst hc
    exact dropWhile_head_false _ _ _ _ h

theorem stripR_eq_self (l : List Char)
    (h : ∀ x, l.getLast? = some x → isPySpace x = false) : stripR l = l := by
  rw [stripR]
  have h2 : l.reverse.dropWhile isPySpace = l.reverse := by
    cases hrev : l.reverse with
    | nil => rfl
    | cons c cs =>
      rw [List.dropWhile_cons_of_neg]
      have hlast : l.getLast? = some c := by
        rw [← List.head?_reverse, hrev]; rfl
      simp [h c hlast]
  rw [h2, List.reverse_reverse]

theorem stripL_head_nonspace (l : List Char) (c : Char)
    (h : (stripL l).head? = some c) : isPySpace c = false := by
  rw [stripL_eq_stripR_dropWhile] at h
  have hd := stripR_head? _ _ h
  cases hdw : l.dropWhile isPySpace with
  | nil => rw [hdw] at hd; cases hd
  | cons e es =>
    rw [hdw] at hd
    simp only [List.head?_cons, Option.some.injEq] at hd
    subst hd
    exact dropWhile_head_false _ _ _ _ hdw

theorem stripL_getLast_nonspace (l : List Char) (c : Char)
    (h : (stripL l).getLast? = some c) : isPySpace c = false :=
  stripR_getLast_nonspace (l.dropWhile isPySpace) c
    (by rw [← stripL_eq_stripR_dropWhile]; exact h)

theorem stripL_idem (l : List Char) : stripL (stripL l) = stripL l :=
  stripL_eq_self_of_ends (stripL l)
    (fun x hx => stripL_head_nonspace l x hx)
    (fun x hx => stripL_getLast_nonspace l x hx)

theorem pyStrip_idem (s : String) : pyStrip (pyStrip s) = pyStrip s := by
  simp [pyStrip, stripL_idem]

theorem mem_of_mem_stripL (l : List Char) (c : Char) (h : c ∈ stripL l) :
    c ∈ l := by
  rw [stripL, List.mem_reverse] at h
  have h2 := (List.dropWhile_suffix isPySpace).subset h
  rw [List.mem_reverse] at h2
  exact (List.dropWhile_suffix isPySpace).subset h2

theorem stripL_cons_space (c : Char) (l : List Char) (hc : isPySpace c = true) :
    stripL (c :: l) = stripL l := by
  rw [stripL, stripL, List.dropWhile_cons_of_pos hc]

theorem stripL_cons_nonspace (c : Char) (l : List Char)
    (hc : isPySpace c = false) : stripL (c :: l) = stripR (c :: l) := by
  rw [stripL_eq_stripR_dropWhile, List.dropWhile_cons_of_neg (by simp [hc])]

theorem takeWhile_append_of_all {α : Type} (p : α → Bool) (l₁ l₂ : List α)
    (h : ∀ x ∈ l₁, p x = true) :
    (l₁ ++ l₂).takeWhile p = l₁ ++ l₂.takeWhile p := by
  induction l₁ with
  | nil => simp
  | cons a as ih =>
    rw [List.cons_append, List.takeWhile_cons_of_pos (h a (List.mem_cons_self a as)),
      ih (fun x hx => h x (List.mem_cons_of_mem a hx)), List.cons_append]

theorem dropWhile_append_of_all {α : Type} (p : α → Bool) (l₁ l₂ : List α)
    (h : ∀ x ∈ l₁, p x = true) :
    (l₁ ++ l₂).dropWhile p = l₂.dropWhile p := by
  induction l₁ with
  | nil => simp
  | cons a as ih =>
    rw [List.cons_append, List.dropWhile_cons_of_pos (h a (List.mem_cons_self a as)),
      ih (fun x hx => h x (List.mem_cons_of_mem a hx))]

theorem contains_false_of_not_mem (l : List Char) (c : Char) (h : c ∉ l) :
    l.contains c = false := by
  cases hc : l.contains c
  · rfl
  · exact absurd (List.elem_iff.mp hc) h

theorem mem_of_contains_true (l : List Char) (c : Char)
    (h : l.contains c = true) : c ∈ l :=
  List.elem_iff.mp h

/-- A key/value pair as `parse_config` produces them: both sides stripped,
the key free of `=` and not starting with `#`. -/
def CleanKV (kv : String × String) : Prop :=
  pyStrip kv.1 = kv.1 ∧ kv.1.data.contains '=' = false ∧
    kv.1.data.head? ≠ some '#' ∧ pyStrip kv.2 = kv.2

/-- A record as `parse_config` produces them: unique keys, clean pairs. -/
def CleanRec (r : Dict) : Prop :=
  (r.map Prod.fst).Nodup ∧ ∀ kv ∈ r, CleanKV kv

theorem keyPart_strip_fixed (line : String) :
    pyStrip (keyPart line) = keyPart line := by
  rw [keyPart, pyStrip_idem]

theorem valPart_strip_fixed (line : String) :
    pyStrip (valPart line) = valPart line := by
  rw [valPart, pyStrip_idem]

theorem keyPart_no_eq (line : String) :
    (keyPart line).data.contains '=' = false := by
  apply contains_false_of_not_mem
  intro hmem
  have h1 : '=' ∈ line.data.takeWhile (fun c => c ≠ '=') :=
    mem_of_mem_stripL _ _ hmem
  have h2 := List.mem_takeWhile_imp h1
  simp at h2

theorem keyPart_no_hash (line : String) (hline : pyStrip line = line)
    (hhash : pyStartsWith line '#' = false) :
    (keyPart line).data.head? ≠ some '#' := by
  intro h
  have h' : (stripL (line.data.takeWhile (fun c => c ≠ '='))).head? = some '#' := h
  rw [stripL_eq_stripR_dropWhile] at h'
  have hd := stripR_head? _ _ h'
  cases hl : line.data with
  | nil =>
    rw [hl] at hd
    simp at hd
  | cons d rest =>
    have hdnsp : isPySpace d = false := by
      apply stripL_head_nonspace line.data d
      have heq : stripL line.data = line.data := congrArg String.data hline
      rw [heq, hl]; rfl
    have hdne : d ≠ '#' := by
      intro hde
      have htrue : pyStartsWith line '#' = true := by
        simp [pyStartsWith, hl, hde]
      rw [htrue] at hhash
      cases hhash
    by_cases hdeq : d = '='
    · rw [hl, List.takeWhile_cons_of_neg (by simp [hdeq])] at hd
      simp at hd
    · rw [hl, List.takeWhile_cons_of_pos (by simp [hdeq]),
        List.dropWhile_cons_of_neg (by simp [hdnsp])] at hd
      simp only [List.head?_cons, Option.some.injEq] at hd
      exact hdne hd

theorem dictSet_clean (d : Dict) (k v : String) (hd : CleanRec d)
    (hkv : CleanKV (k, v)) : CleanRec (dictSet d k v) := by
  obtain ⟨hnd, hall⟩ := hd
  rw [dictSet]
  by_cases h : d.any (fun kv => kv.1 = k)
  · rw [if_pos h]
    constructor
    · have heq : (d.map (fun kv => if kv.1 = k then (k, v) else kv)).map Prod.fst
          = d.map Prod.fst := by
        rw [List.map_map]
        apply List.map_congr_left
        intro a _
        by_cases hak : a.1 = k
        · simp [hak]
        · simp [hak]
      rw [heq]; exact hnd
    · intro kv hkv'
      rcases List.mem_map.mp hkv' with ⟨a, ha, hae⟩
      by_cases hak : a.1 = k
      · rw [if_pos hak] at hae
        rw [← hae]; exact hkv
      · rw [if_neg hak] at hae
        rw [← hae]; exact hall a ha
  · rw [if_neg h]
    have hfresh : ∀ x ∈ d, ¬ x.1 = k := by
      intro x hx hxk
      apply h
      rw [List.any_eq_true]
      exact ⟨x, hx, by simp [hxk]⟩
    constructor
    · rw [List.map_append, List.nodup_append]
      refine ⟨hnd, by simp, ?_⟩
      intro x hx hx2
      simp only [List.map_cons, List.map_nil, List.mem_singleton] at hx2
      subst hx2
      rcases List.mem_map.mp hx with ⟨a, ha, hae⟩
      exact hfresh a ha hae
    · intro kv hkv'
      rcases List.mem_append.mp hkv' with hmem | hmem
      · exact hall kv hmem
      · simp only [List.mem_singleton] at hmem
        rw [hmem]; exact hkv

/-- The loop invariant of `parse_config` guaranteeing clean output. -/
def CleanState (s : PState) : Prop :=
  CleanRec s.ifaceRec ∧ CleanRec s.cur ∧ (∀ p ∈ s.peers, CleanRec p) ∧
    (∀ n, s.pending = some n → pyStrip n = n)

theorem cleanState_init : CleanState initPState := by
  refine ⟨⟨by simp [initPState], ?_⟩, ⟨by simp [initPState], ?_⟩, ?_, ?_⟩
  · intro kv hkv; simp [initPState] at hkv
  · intro kv hkv; simp [initPState] at hkv
  · intro p hp'; simp [initPState] at hp'
  · intro n hn; simp [initPState] at hn

theorem cleanState_step (s : PState) (raw : String) (h : CleanState s) :
    CleanState (pstep s raw) := by
  obtain ⟨hi, hc, hp, hpend⟩ := h
  simp only [pstep]
  by_cases h1 : pyStrip raw = ""
  · rw [if_pos h1]
    refine ⟨hi, hc, hp, ?_⟩
    intro n hn
    simp only at hn
    by_cases h2 : s.lastComment && s.pending.isSome
    · rw [if_pos h2] at hn; cases hn
    · rw [if_neg h2] at hn; exact hpend n hn
  · rw [if_neg h1]
    by_cases h2 : pyStartsWith (pyStrip raw) '#' = true
    · rw [if_pos h2]
      by_cases h3 : s.sect ≠ some Sect.iface ∧
          pyStrip (String.mk ((pyStrip raw).data.drop 1)) ≠ ""
      · rw [if_pos h3]
        refine ⟨hi, hc, hp, ?_⟩
        intro n hn
        simp only [Option.some.injEq] at hn
        rw [← hn, pyStrip_idem]
      · rw [if_neg h3]
        exact ⟨hi, hc, hp, hpend⟩
    · rw [if_neg h2]
      by_cases h4 : pyStrip raw = "[Interface]"
      · rw [if_pos h4]
        refine ⟨hi, hc, hp, ?_⟩
        intro n hn
        cases hn
      · rw [if_neg h4]
        by_cases h5 : pyStrip raw = "[Peer]"
        · rw [if_pos h5]
          refine ⟨hi, ?_, ?_, ?_⟩
          · simp only
            cases hpd : s.pending with
            | none => exact ⟨by simp, by simp⟩
            | some n =>
              refine ⟨by simp, ?_⟩
              intro kv hkv
              simp only [List.mem_singleton] at hkv
              rw [hkv]
              refine ⟨?_, ?_, ?_, hpend n hpd⟩
              · show pyStrip "_name" = "_name"
                decide
              · show ("_name" : String).data.contains '=' = false
                decide
              · show ("_name" : String).data.head? ≠ some '#'
                decide
          · intro p hp'
            simp only at hp'
            by_cases hcur : s.cur = []
            · rw [if_pos hcur] at hp'
              exact hp p hp'
            · rw [if_neg hcur] at hp'
              rcases List.mem_append.mp hp' with hmem | hmem
              · exact hp p hmem
              · simp only [List.mem_singleton] at hmem
                rw [hmem]; exact hc
          · intro n hn
            cases hn
        · rw [if_neg h5]
          have hkv : CleanKV (keyPart (pyStrip raw), valPart (pyStrip raw)) := by
            refine ⟨keyPart_strip_fixed _, keyPart_no_eq _, ?_, valPart_strip_fixed _⟩
            exact keyPart_no_hash (pyStrip raw) (pyStrip_idem raw)
              (by cases hb : pyStartsWith (pyStrip raw) '#'
                  · rfl
                  · exact absurd hb h2)
          by_cases h6 : (pyStrip raw).data.contains '=' = true
          · rw [if_pos h6]
            cases hsect : s.sect with
            | none => exact ⟨hi, hc, hp, hpend⟩
            | some sct =>
              cases sct with
              | iface =>
                exact ⟨dictSet_clean _ _ _ hi hkv, hc, hp, hpend⟩
              | peer =>
                exact ⟨hi, dictSet_clean _ _ _ hc hkv, hp, hpend⟩
          · rw [if_neg h6]
            exact ⟨hi, hc, hp, hpend⟩

theorem foldl_pstep_clean (ls : List String) :
    ∀ s : PState, CleanState s → CleanState (ls.foldl pstep s) := by
  induction ls with
  | nil => intro s hs; exact hs
  | cons a as ih =>
    intro s hs
    rw [List.foldl_cons]
    exact ih _ (cleanState_step s a hs)

/-- `parse_config` output is clean: every record has unique, stripped,
`=`-free, non-`#`-leading keys and stripped values. -/
theorem parse_clean (ls : List String) :
    CleanRec (parseLines ls).interface ∧
      ∀ p ∈ (parseLines ls).peers, CleanRec p := by
  have h := foldl_pstep_clean ls initPState cleanState_init
  obtain ⟨hi, hc, hp, -⟩ := h
  simp only [parseLines]
  refine ⟨hi, ?_⟩
  intro p hp'
  rcases List.mem_append.mp hp' with hmem | hmem
  · exact hp p hmem
  · by_cases hcur : (ls.foldl pstep initPState).cur = []
    · rw [if_pos hcur] at hmem; cases hmem
    · rw [if_neg hcur] at hmem
      simp only [List.mem_singleton] at hmem
      rw [hmem]; exact hc

theorem strip_fixed_head (v : String) (hv : pyStrip v = v) :
    ∀ x, v.data.head? = some x → isPySpace x = false := by
  intro x hx
  have heq : stripL v.data = v.data := congrArg String.data hv
  exact stripL_head_nonspace v.data x (by rw [heq]; exact hx)

theorem strip_fixed_last (v : String) (hv : pyStrip v = v) :
    ∀ x, v.data.getLast? = some x → isPySpace x = false := by
  intro x hx
  have heq : stripL v.data = v.data := congrArg String.data hv
  exact stripL_getLast_nonspace v.data x (by rw [heq]; exact hx)

theorem data_ne_nil (s : String) (h : s ≠ "") : s.data ≠ [] := by
  intro hd
  exact h (String.ext hd)

theorem stripL_of_head_nonspace (l : List Char) (c : Char)
    (hc : l.head? = some c) (hnsp : isPySpace c = false) :
    stripL l = stripR l := by
  cases l with
  | nil => cases hc
  | cons d ds =>
    simp only [List.head?_cons, Option.some.injEq] at hc
    subst hc
    exact stripL_cons_nonspace d ds hnsp

theorem getLast?_append_of_ne_nil {α : Type} (l₁ l₂ : List α) (h : l₂ ≠ []) :
    (l₁ ++ l₂).getLast? = l₂.getLast? := by
  rw [← List.head?_reverse, ← List.head?_reverse, List.reverse_append]
  cases hrev : l₂.reverse with
  | nil =>
    exact absurd (by simpa using congrArg List.reverse hrev) h
  | cons c cs => simp [hrev]

theorem stripR_append_space (m : List Char)
    (hlast : ∀ x, m.getLast? = some x → isPySpace x = false) :
    stripR (m ++ [' ']) = m := by
  rw [stripR, List.reverse_append]
  show ((' ' :: m.reverse).dropWhile isPySpace).reverse = m
  rw [List.dropWhile_cons_of_pos (by decide)]
  cases hrev : m.reverse with
  | nil => simpa using congrArg List.reverse hrev
  | cons e es =>
    rw [List.dropWhile_cons_of_neg]
    · rw [← hrev, List.reverse_reverse]
    · have hle : m.getLast? = some e := by
        rw [← List.head?_reverse, hrev]; rfl
      simp [hlast e hle]

theorem not_mem_of_contains_false (l : List Char) (c : Char)
    (h : l.contains c = false) : c ∉ l := by
  intro hmem
  have ht : l.contains c = true := List.elem_iff.mpr hmem
  rw [ht] at h
  cases h

/-- Stripping the line `write_config` emits for a clean key/value pair:
the leading/trailing blanks around the ` = ` separator collapse exactly
when a side is empty. -/
theorem data_kvLine_strip (k v : String) (hk : pyStrip k = k)
    (hv : pyStrip v = v) :
    (pyStrip (kvLine k v)).data =
      (if k = "" then [] else k.data ++ [' ']) ++
        '=' :: (if v = "" then [] else ' ' :: v.data) := by
  have hdata : (pyStrip (kvLine k v)).data
      = stripL (k.data ++ (' ' :: '=' :: ' ' :: v.data)) := by
    show stripL (kvLine k v).data = _
    rw [kvLine_data]
  rw [hdata]
  by_cases hk0 : k = ""
  · subst hk0
    simp only [if_pos rfl]
    by_cases hv0 : v = ""
    · subst hv0
      decide
    · simp only [if_neg hv0]
      show stripL (' ' :: '=' :: ' ' :: v.data) = [] ++ '=' :: ' ' :: v.data
      rw [stripL_cons_space ' ' _ (by decide),
        stripL_of_head_nonspace ('=' :: ' ' :: v.data) '=' rfl (by decide),
        stripR_eq_self]
      · rfl
      · intro x hx
        have hx2 : (['=', ' '] ++ v.data).getLast? = some x := hx
        rw [getLast?_append_of_ne_nil _ _ (data_ne_nil v hv0)] at hx2
        exact strip_fixed_last v hv x hx2
  · simp only [if_neg hk0]
    obtain ⟨c, cs, hcc⟩ : ∃ c cs, k.data = c :: cs := by
      cases hcd : k.data with
      | nil => exact absurd hcd (data_ne_nil k hk0)
      | cons c cs => exact ⟨c, cs, rfl⟩
    have hhead : (k.data ++ (' ' :: '=' :: ' ' :: v.data)).head? = some c := by
      rw [hcc]; rfl
    have hcnsp : isPySpace c = false :=
      strip_fixed_head k hk c (by rw [hcc]; rfl)
    rw [stripL_of_head_nonspace _ c hhead hcnsp]
    by_cases hv0 : v = ""
    · subst hv0
      simp only [if_pos rfl]
      show stripR (k.data ++ [' ', '=', ' ']) = (k.data ++ [' ']) ++ '=' :: []
      have hsplit : k.data ++ [' ', '=', ' '] = (k.data ++ [' ', '=']) ++ [' '] := by
        simp
      rw [hsplit, stripR_append_space]
      · simp
      · intro x hx
        rw [getLast?_append_of_ne_nil _ _ (by simp)] at hx
        simp only [List.getLast?_cons_cons] at hx
        simp at hx
        rw [← hx]
        decide
    · simp only [if_neg hv0]
      rw [stripR_eq_self]
      · simp
      · intro x hx
        have hx2 : ((k.data ++ [' ', '=', ' ']) ++ v.data).getLast? = some x := by
          simpa using hx
        rw [getLast?_append_of_ne_nil _ _ (data_ne_nil v hv0)] at hx2
        exact strip_fixed_last v hv x hx2

theorem keyPart_kvLine (k v : String) (hkv : CleanKV (k, v)) :
    keyPart (pyStrip (kvLine k v)) = k := by
  obtain ⟨hk, hkeq, hkhash, hv⟩ := hkv
  rw [keyPart, data_kvLine_strip k v hk hv]
  by_cases hk0 : k = ""
  · rw [if_pos hk0, List.nil_append, List.takeWhile_cons_of_neg (by simp), hk0]
    decide
  · simp only [if_neg hk0]
    rw [takeWhile_append_of_all _ (k.data ++ [' ']) _ ?hall]
    case hall =>
      intro x hx
      rcases List.mem_append.mp hx with hmem | hmem
      · have hne : x ≠ '=' := by
          intro hxe
          exact not_mem_of_contains_false k.data '=' hkeq (hxe ▸ hmem)
        simp [hne]
      · simp only [List.mem_singleton] at hmem
        subst hmem
        decide
    rw [List.takeWhile_cons_of_neg (by simp), List.append_nil]
    apply String.ext
    show stripL (k.data ++ [' ']) = k.data
    obtain ⟨c, cs, hcc⟩ : ∃ c cs, k.data = c :: cs := by
      cases hcd : k.data with
      | nil => exact absurd hcd (data_ne_nil k hk0)
      | cons c cs => exact ⟨c, cs, rfl⟩
    rw [stripL_of_head_nonspace _ c (by rw [hcc]; rfl)
        (strip_fixed_head k hk c (by rw [hcc]; rfl)),
      stripR_append_space _ (strip_fixed_last k hk)]

theorem valPart_kvLine (k v : String) (hkv : CleanKV (k, v)) :
    valPart (pyStrip (kvLine k v)) = v := by
  obtain ⟨hk, hkeq, hkhash, hv⟩ := hkv
  rw [valPart, data_kvLine_strip k v hk hv]
  have hdrop : ((if k = "" then [] else k.data ++ [' ']) ++
      '=' :: (if v = "" then [] else ' ' :: v.data)).dropWhile
        (fun c => c ≠ '=') = '=' :: (if v = "" then [] else ' ' :: v.data) := by
    rw [dropWhile_append_of_all _ _ _ ?hall]
    case hall =>
      intro x hx
      by_cases hk0 : k = ""
      · rw [if_pos hk0] at hx; cases hx
      · rw [if_neg hk0] at hx
        rcases List.mem_append.mp hx with hmem | hmem
        · have hne : x ≠ '=' := by
            intro hxe
            exact not_mem_of_contains_false k.data '=' hkeq (hxe ▸ hmem)
          simp [hne]
        · simp only [List.mem_singleton] at hmem
          subst hmem
          decide
    rw [List.dropWhile_cons_of_neg (by simp)]
  rw [hdrop]
  by_cases hv0 : v = ""
  · subst hv0
    simp only [if_pos rfl]
    decide
  · simp only [if_neg hv0, List.drop_succ_cons, List.drop_zero]
    apply String.ext
    show stripL (' ' :: v.data) = v.data
    rw [stripL_cons_space ' ' _ (by decide)]
    exact congrArg String.data hv

/-- The stripped written key/value line: non-empty, not a comment, not a
section header, and containing `=`. -/
theorem kvLine_line_facts (k v : String) (hkv : CleanKV (k, v)) :
    pyStrip (kvLine k v) ≠ "" ∧
      pyStartsWith (pyStrip (kvLine k v)) '#' = false ∧
      pyStrip (kvLine k v) ≠ "[Interface]" ∧
      pyStrip (kvLine k v) ≠ "[Peer]" ∧
      (pyStrip (kvLine k v)).data.contains '=' = true := by
  obtain ⟨hk, hkeq, hkhash, hv⟩ := hkv
  have hd := data_kvLine_strip k v hk hv
  have hmem : '=' ∈ (pyStrip (kvLine k v)).data := by
    rw [hd]
    exact List.mem_append.mpr (Or.inr (List.mem_cons_self _ _))
  refine ⟨?_, ?_, ?_, ?_, List.elem_iff.mpr hmem⟩
  · intro h0
    rw [h0] at hmem
    cases hmem
  · cases hb : pyStartsWith (pyStrip (kvLine k v)) '#'
    · rfl
    · exfalso
      rw [pyStartsWith, hd] at hb
      by_cases hk0 : k = ""
      · rw [if_pos hk0] at hb
        simp at hb
      · rw [if_neg hk0] at hb
        obtain ⟨c, cs, hcc⟩ : ∃ c cs, k.data = c :: cs := by
          cases hcd : k.data with
          | nil => exact absurd hcd (data_ne_nil k hk0)
          | cons c cs => exact ⟨c, cs, rfl⟩
        rw [hcc] at hb
        simp only [List.cons_append, List.head?_cons, decide_eq_true_eq,
          Option.some.injEq] at hb
        exact hkhash (by rw [hcc, hb]; rfl)
  · intro h0
    rw [h0] at hmem
    revert hmem
    decide
  · intro h0
    rw [h0] at hmem
    revert hmem
    decide

/-- `pstep` on a stripped non-blank, non-comment, non-header line holding
`=`: the key/value branch. -/
theorem pstep_eq_kv_branch (s : PState) (raw : String)
    (h1 : pyStrip raw ≠ "")
    (h2 : pyStartsWith (pyStrip raw) '#' = false)
    (h3 : pyStrip raw ≠ "[Interface]")
    (h4 : pyStrip raw ≠ "[Peer]")
    (h5 : (pyStrip raw).data.contains '=' = true) :
    pstep s raw =
      match s.sect with
      | some Sect.iface =>
        { s with ifaceRec := dictSet s.ifaceRec (keyPart (pyStrip raw))
                   (valPart (pyStrip raw)),
                 lastComment := false }
      | some Sect.peer =>
        { s with cur := dictSet s.cur (keyPart (pyStrip raw))
                   (valPart (pyStrip raw)),
                 lastComment := false }
      | none => { s with lastComment := false } := by
  have hB : ¬ (pyStartsWith (pyStrip raw) '#' = true) := by
    rw [h2]; exact Bool.false_ne_true
  simp only [pstep, if_neg h1, if_neg hB, if_neg h3, if_neg h4, if_pos h5]

/-- `pstep` on the exact line `write_config` wrote for a clean pair. -/
theorem pstep_kvLine (s : PState) (k v : String) (hkv : CleanKV (k, v)) :
    pstep s (kvLine k v) =
      match s.sect with
      | some Sect.iface =>
        { s with ifaceRec := dictSet s.ifaceRec k v, lastComment := false }
      | some Sect.peer =>
        { s with cur := dictSet s.cur k v, lastComment := false }
      | none => { s with lastComment := false } := by
  obtain ⟨hne, hhash, hni, hnp, hcont⟩ := kvLine_line_facts k v hkv
  rw [pstep_eq_kv_branch s (kvLine k v) hne hhash hni hnp hcont,
    keyPart_kvLine k v hkv, valPart_kvLine k v hkv]

/-- `pstep` on a blank line. -/
theorem pstep_blank (s : PState) :
    pstep s "" =
      { s with pending := if s.lastComment && s.pending.isSome then none
                          else s.pending,
               lastComment := false } := rfl

/-- `pstep` on the `[Interface]` header. -/
theorem pstep_ifaceHeader (s : PState) :
    pstep s "[Interface]" =
      { s with sect := some Sect.iface, pending := none,
               lastComment := false } := rfl

/-- `pstep` on the `[Peer]` header. -/
theorem pstep_peerHeader (s : PState) :
    pstep s "[Peer]" =
      { s with peers := if s.cur = [] then s.peers else s.peers ++ [s.cur],
               cur := match s.pending with
                      | some n => [("_name", n)]
                      | none => [],
               pending := none,
               sect := some Sect.peer,
               lastComment := false } := rfl

/-- `pstep` on a `# name` comment line outside `[Interface]` either leaves
the state unchanged or records a pending name. -/
theorem pstep_hash_comment (s : PState) (nm : String) :
    pstep s ("# " ++ nm) = s ∨
      ∃ x, pstep s ("# " ++ nm) =
        { s with pending := some x, lastComment := true } := by
  have hdata : ("# " ++ nm).data = '#' :: ' ' :: nm.data := by
    rw [String.data_append]; rfl
  have hstrip : (pyStrip ("# " ++ nm)).data = stripR ('#' :: ' ' :: nm.data) := by
    show stripL ("# " ++ nm).data = _
    rw [hdata, stripL_cons_nonspace _ _ (by decide)]
  obtain ⟨c, cs, hcc⟩ : ∃ c cs, stripR ('#' :: ' ' :: nm.data) = c :: cs := by
    cases hsr : stripR ('#' :: ' ' :: nm.data) with
    | nil =>
      exfalso
      obtain ⟨u, hu, hsp⟩ := stripR_decomp ('#' :: ' ' :: nm.data)
      rw [hsr, List.nil_append] at hu
      have : isPySpace '#' = true := hsp '#' (by rw [← hu]; exact List.mem_cons_self _ _)
      cases this
    | cons c cs => exact ⟨c, cs, rfl⟩
  have hhead : '#' = c := by
    have h0 := stripR_head? ('#' :: ' ' :: nm.data) c (by rw [hcc]; rfl)
    simpa using h0
  have h1 : pyStrip ("# " ++ nm) ≠ "" := by
    intro h0
    have : (pyStrip ("# " ++ nm)).data = [] := by rw [h0]
    rw [hstrip, hcc] at this
    cases this
  have h2 : pyStartsWith (pyStrip ("# " ++ nm)) '#' = true := by
    rw [pyStartsWith, hstrip, hcc, ← hhead]
    simp
  simp only [pstep, if_neg h1, if_pos h2]
  by_cases h3 : s.sect ≠ some Sect.iface ∧
      pyStrip (String.mk ((pyStrip ("# " ++ nm)).data.drop 1)) ≠ ""
  · rw [if_pos h3]
    exact Or.inr ⟨_, rfl⟩
  · rw [if_neg h3]
    exact Or.inl rfl

/-- The key/value lines written for a record. -/
def kvLines (r : Dict) : List String := r.map (fun kv => kvLine kv.1 kv.2)

/-- The final flush of `parse_config`: the current peer if non-empty. -/
def flushCur (c : Dict) : List Dict := if c = [] then [] else [c]

theorem flushCur_ite (P : List Dict) (c : Dict) :
    (if c = [] then P else P ++ [c]) = P ++ flushCur c := by
  by_cases h : c = [] <;> simp [flushCur, h]

theorem dictSet_fresh (d : Dict) (k v : String)
    (h : d.any (fun kv => kv.1 = k) = false) :
    dictSet d k v = d ++ [(k, v)] := by
  rw [dictSet, if_neg]
  rw [h]
  exact Bool.false_ne_true

theorem run_kvs_peer (r : Dict) : ∀ s : PState,
    (∀ kv ∈ r, CleanKV kv) →
    s.sect = some Sect.peer → s.lastComment = false →
    (∀ kv ∈ r, s.cur.any (fun e => e.1 = kv.1) = false) →
    (r.map Prod.fst).Nodup →
    (kvLines r).foldl pstep s = { s with cur := s.cur ++ r } := by
  induction r with
  | nil =>
    intro s _ _ _ _ _
    show s = { s with cur := s.cur ++ [] }
    rw [List.append_nil]
  | cons kv rest ih =>
    intro s hclean hsect hlc hfresh hnd
    have hstep0 := pstep_kvLine s kv.1 kv.2 (hclean kv (List.mem_cons_self _ _))
    rw [hsect] at hstep0
    rw [dictSet_fresh _ _ _ (hfresh kv (List.mem_cons_self _ _))] at hstep0
    show (kvLine kv.1 kv.2 :: kvLines rest).foldl pstep s = _
    rw [List.foldl_cons, hstep0,
      ih _ (fun e he => hclean e (List.mem_cons_of_mem kv he)) rfl rfl
        (fun e he => by
          show (s.cur ++ [(kv.1, kv.2)]).any (fun x => x.1 = e.1) = false
          rw [List.any_append]
          have h1 : s.cur.any (fun x => x.1 = e.1) = false :=
            hfresh e (List.mem_cons_of_mem kv he)
          have h2 : kv.1 ≠ e.1 := by
            intro hke
            exact (List.nodup_cons.mp hnd).1
              (hke ▸ List.mem_map_of_mem Prod.fst he)
          rw [h1]
          simp [h2])
        (List.nodup_cons.mp hnd).2]
    rw [hsect, hlc, List.append_assoc, List.singleton_append]

theorem run_kvs_iface (r : Dict) : ∀ s : PState,
    (∀ kv ∈ r, CleanKV kv) →
    s.sect = some Sect.iface → s.lastComment = false →
    (∀ kv ∈ r, s.ifaceRec.any (fun e => e.1 = kv.1) = false) →
    (r.map Prod.fst).Nodup →
    (kvLines r).foldl pstep s = { s with ifaceRec := s.ifaceRec ++ r } := by
  induction r with
  | nil =>
    intro s _ _ _ _ _
    show s = { s with ifaceRec := s.ifaceRec ++ [] }
    rw [List.append_nil]
  | cons kv rest ih =>
    intro s hclean hsect hlc hfresh hnd
    have hstep0 := pstep_kvLine s kv.1 kv.2 (hclean kv (List.mem_cons_self _ _))
    rw [hsect] at hstep0
    rw [dictSet_fresh _ _ _ (hfresh kv (List.mem_cons_self _ _))] at hstep0
    show (kvLine kv.1 kv.2 :: kvLines rest).foldl pstep s = _
    rw [List.foldl_cons, hstep0,
      ih _ (fun e he => hclean e (List.mem_cons_of_mem kv he)) rfl rfl
        (fun e he => by
          show (s.ifaceRec ++ [(kv.1, kv.2)]).any (fun x => x.1 = e.1) = false
          rw [List.any_append]
          have h1 : s.ifaceRec.any (fun x => x.1 = e.1) = false :=
            hfresh e (List.mem_cons_of_mem kv he)
          have h2 : kv.1 ≠ e.1 := by
            intro hke
            exact (List.nodup_cons.mp hnd).1
              (hke ▸ List.mem_map_of_mem Prod.fst he)
          rw [h1]
          simp [h2])
        (List.nodup_cons.mp hnd).2]
    rw [hsect, hlc, List.append_assoc, List.singleton_append]

theorem run_iblock (I : Dict) (hI : CleanRec I) :
    ("[Interface]" :: kvLines I).foldl pstep initPState =
      { sect := some Sect.iface, ifaceRec := I, peers := [], cur := [],
        pending := none, lastComment := false } := by
  rw [List.foldl_cons, pstep_ifaceHeader]
  rw [run_kvs_iface I ({ initPState with sect := some Sect.iface, pending := none, lastComment := false }) hI.2 rfl rfl (fun kv _ => rfl) hI.1]
  rfl

/-- Feeding the `[Peer]` blocks of clean, truthy, non-empty peer records
through the parser appends exactly those records. -/
theorem run_blocks (ps : List Dict) : ∀ s : PState,
    (∀ p ∈ ps, (∀ kv ∈ p, CleanKV kv ∧ kv.2 ≠ "") ∧
      (p.map Prod.fst).Nodup ∧ p ≠ []) →
    s.pending = none →
    ∃ s' : PState, (ps.flatMap peerBlock).foldl pstep s = s' ∧
      s'.ifaceRec = s.ifaceRec ∧ s'.pending = none ∧
      s'.peers ++ flushCur s'.cur = (s.peers ++ flushCur s.cur) ++ ps := by
  induction ps with
  | nil =>
    intro s _ hpend
    exact ⟨s, rfl, rfl, hpend, (List.append_nil _).symm⟩
  | cons p rest ih =>
    intro s hps hpend
    have hp := hps p (List.mem_cons_self _ _)
    have hpb : peerBlock p = "[Peer]" :: kvLines p := by
      rw [peerBlock,
        List.filter_eq_self.mpr (fun kv hkv => by simp [(hp.1 kv hkv).2])]
      rfl
    have hflat : (p :: rest).flatMap peerBlock
        = peerBlock p ++ rest.flatMap peerBlock := List.flatMap_cons ..
    rw [hflat, List.foldl_append, hpb, List.foldl_cons, pstep_peerHeader, hpend]
    rw [flushCur_ite]
    set s2 : PState :=
      { s with peers := s.peers ++ flushCur s.cur, cur := [],
               pending := none, sect := some Sect.peer,
               lastComment := false } with hs2
    rw [run_kvs_peer p s2 (fun kv hkv => (hp.1 kv hkv).1) rfl rfl
      (fun kv _ => rfl) hp.2.1]
    obtain ⟨s', hfold, hif, hpend', hflush⟩ :=
      ih { s2 with cur := [] ++ p } (fun q hq => hps q (List.mem_cons_of_mem p hq)) rfl
    refine ⟨s', hfold, hif, hpend', ?_⟩
    rw [hflush]
    show (s.peers ++ flushCur s.cur) ++ flushCur ([] ++ p) ++ rest = _
    have hfp : flushCur ([] ++ p) = [p] := by
      rw [List.nil_append, flushCur, if_neg hp.2.2]
    rw [hfp, List.append_assoc, List.singleton_append]

theorem writeLines_none_eq (I : Dict) (ps : List Dict) :
    writeLines { interface := I, peers := ps } none =
      (if I = [] then [] else "[Interface]" :: kvLines I) ++
        ps.flatMap peerBlock := by
  cases ps with
  | nil => rfl
  | cons p rest => rfl

/-- Parsing back a canonical file written from a clean configuration with
no peer-name comment recovers the configuration exactly. -/
theorem parse_write_none (I : Dict) (ps : List Dict)
    (hI : CleanRec I)
    (hps : ∀ p ∈ ps, (∀ kv ∈ p, CleanKV kv ∧ kv.2 ≠ "") ∧
      (p.map Prod.fst).Nodup ∧ p ≠ []) :
    parseLines (writeLines { interface := I, peers := ps } none) =
      { interface := I, peers := ps } := by
  rw [writeLines_none_eq]
  by_cases hI0 : I = []
  · rw [if_pos hI0, List.nil_append]
    obtain ⟨s', hs', hif, _, hflush⟩ := run_blocks ps initPState hps rfl
    simp only [parseLines]
    rw [hs']
    have hif2 : s'.ifaceRec = I := by rw [hif, hI0]; rfl
    have hpeers : s'.peers ++ (if s'.cur = [] then [] else [s'.cur]) = ps := by
      have h2 : s'.peers ++ flushCur s'.cur = ps := by
        rw [hflush]; rfl
      exact h2
    rw [hif2, hpeers]
  · rw [if_neg hI0]
    simp only [parseLines, List.foldl_append]
    rw [run_iblock I hI]
    obtain ⟨s', hs', hif, _, hflush⟩ := run_blocks ps
      { sect := some Sect.iface, ifaceRec := I, peers := [], cur := [],
        pending := none, lastComment := false } hps rfl
    rw [hs']
    have hif2 : s'.ifaceRec = I := hif
    have hpeers : s'.peers ++ (if s'.cur = [] then [] else [s'.cur]) = ps := by
      have h2 : s'.peers ++ flushCur s'.cur = ps := by
        rw [hflush]; rfl
      exact h2
    rw [hif2, hpeers]

/-- Running one written `[Peer]` block from a state with an empty current
record: the block's peer lands in `cur`, prefixed by a `_name` entry when
a pending comment name was present. -/
theorem run_one_block (p : Dict)
    (hclean : ∀ kv ∈ p, CleanKV kv ∧ kv.2 ≠ "")
    (hnd : (p.map Prod.fst).Nodup)
    (hnoname : ∀ kv ∈ p, kv.1 ≠ "_name") :
    ∀ s₀ : PState, s₀.cur = [] →
    ∃ c0 : Dict, (∀ kv ∈ c0, kv.1 = "_name") ∧
      (peerBlock p).foldl pstep s₀ =
        { s₀ with peers := s₀.peers, cur := c0 ++ p, pending := none,
                  sect := some Sect.peer, lastComment := false } := by
  have hpb : peerBlock p = "[Peer]" :: kvLines p := by
    rw [peerBlock,
      List.filter_eq_self.mpr (fun kv hkv => by simp [(hclean kv hkv).2])]
    rfl
  intro s₀ hcu
  cases hpend : s₀.pending with
  | none =>
    have h1 : pstep s₀ "[Peer]" =
        { s₀ with peers := s₀.peers, cur := ([] : Dict), pending := none,
                  sect := some Sect.peer, lastComment := false } := by
      rw [pstep_peerHeader, hcu, hpend]
      rfl
    have h2 := run_kvs_peer p
      { s₀ with peers := s₀.peers, cur := ([] : Dict), pending := none,
                sect := some Sect.peer, lastComment := false }
      (fun kv hkv => (hclean kv hkv).1) rfl rfl (fun kv _ => rfl) hnd
    refine ⟨[], fun kv hkv => absurd hkv (List.not_mem_nil kv), ?_⟩
    rw [hpb, List.foldl_cons, h1, h2]
  | some x =>
    have h1 : pstep s₀ "[Peer]" =
        { s₀ with peers := s₀.peers, cur := [("_name", x)], pending := none,
                  sect := some Sect.peer, lastComment := false } := by
      rw [pstep_peerHeader, hcu, hpend]
      rfl
    have h2 := run_kvs_peer p
      { s₀ with peers := s₀.peers, cur := [("_name", x)], pending := none,
                sect := some Sect.peer, lastComment := false }
      (fun kv hkv => (hclean kv hkv).1) rfl rfl
      (fun kv hkv => by
        show Bool.or (decide (("_name", x).1 = kv.1)) false = false
        have hne2 : ("_name", x).1 ≠ kv.1 := fun h => hnoname kv hkv h.symm
        simp [hne2])
      hnd
    refine ⟨[("_name", x)], ?_, ?_⟩
    · intro kv hkv
      simp only [List.mem_singleton] at hkv
      rw [hkv]
    · rw [hpb, List.foldl_cons, h1, h2]

/-- Parsing back a single-peer fragment written with a peer-name comment
gives the peer back, possibly with a leading `_name` entry from the
comment. -/
theorem parse_write_single (p : Dict) (nm : String)
    (hclean : ∀ kv ∈ p, CleanKV kv ∧ kv.2 ≠ "")
    (hnd : (p.map Prod.fst).Nodup) (hne : p ≠ [])
    (hnoname : ∀ kv ∈ p, kv.1 ≠ "_name") :
    ∃ c0 : Dict, (∀ kv ∈ c0, kv.1 = "_name") ∧
      parseLines (writeLines { interface := [], peers := [p] } (some nm)) =
        { interface := [], peers := [c0 ++ p] } := by
  have hlines : writeLines { interface := [], peers := [p] } (some nm)
      = nameComment (some nm) ++ (peerBlock p ++ []) := by
    show [] ++ ((nameComment (some nm) ++ peerBlock p) ++ [])
        = nameComment (some nm) ++ (peerBlock p ++ [])
    rw [List.nil_append, List.append_assoc]
  obtain ⟨s₀, hfold0, hif0, hpe0, hcu0⟩ :
      ∃ s₀, (nameComment (some nm)).foldl pstep initPState = s₀ ∧
        s₀.ifaceRec = [] ∧ s₀.peers = [] ∧ s₀.cur = [] := by
    rw [nameComment_some]
    by_cases h0 : nm = ""
    · rw [if_pos h0]
      exact ⟨initPState, rfl, rfl, rfl, rfl⟩
    · rw [if_neg h0]
      have hblank : pstep initPState "" = initPState := rfl
      rcases pstep_hash_comment initPState nm with hcm | ⟨x, hcm⟩
      · exact ⟨initPState,
          by rw [List.foldl_cons, List.foldl_cons, List.foldl_nil, hblank, hcm],
          rfl, rfl, rfl⟩
      · exact ⟨{ initPState with pending := some x, lastComment := true },
          by rw [List.foldl_cons, List.foldl_cons, List.foldl_nil, hblank, hcm],
          rfl, rfl, rfl⟩
  obtain ⟨c0, hc0, hrun⟩ := run_one_block p hclean hnd hnoname s₀ hcu0
  refine ⟨c0, hc0, ?_⟩
  rw [hlines]
  simp only [parseLines, List.foldl_append, List.foldl_nil]
  rw [hfold0, hrun]
  have hne2 : c0 ++ p ≠ [] := fun h => hne (List.append_eq_nil.mp h).2
  simp only [hif0, hpe0, if_neg hne2, List.nil_append]

theorem assoc_find_none {β : Type} (l : List (String × β)) (k : String)
    (h : ∀ e ∈ l, e.1 ≠ k) : l.find? (fun x => x.1 = k) = none :=
  List.find?_eq_none.mpr (fun e he => by simp [h e he])

theorem assoc_find_of_mem {β : Type} (l : List (String × β)) (e : String × β)
    (he : e ∈ l) (hnd : (l.map Prod.fst).Nodup) :
    l.find? (fun x => x.1 = e.1) = some e := by
  induction l with
  | nil => cases he
  | cons x xs ih =>
    rw [List.map_cons] at hnd
    rcases List.mem_cons.mp he with h1 | h1
    · rw [h1]
      exact List.find?_cons_of_pos _ (by simp)
    · have hne : x.1 ≠ e.1 := by
        intro hxe
        exact (List.nodup_cons.mp hnd).1
          (hxe ▸ List.mem_map_of_mem Prod.fst h1)
      rw [List.find?_cons_of_neg _ (by simp [hne])]
      exact ih h1 (List.nodup_cons.mp hnd).2

theorem dictGet_of_mem_nodup (d : Dict) (kv : String × String)
    (h : kv ∈ d) (hnd : (d.map Prod.fst).Nodup) :
    dictGet d kv.1 = some kv.2 := by
  rw [dictGet, assoc_find_of_mem d kv h hnd]
  rfl

theorem dictGet_no_key (d : Dict) (k : String)
    (h : ∀ e ∈ d, e.1 ≠ k) : dictGet d k = none := by
  rw [dictGet, assoc_find_none d k h]
  rfl

theorem dictGet_cons_pos (e : String × String) (d : Dict) (k : String)
    (h : e.1 = k) : dictGet (e :: d) k = some e.2 := by
  rw [dictGet, List.find?_cons_of_pos _ (by simp [h])]
  rfl

theorem dictGet_cons_neg (e : String × String) (d : Dict) (k : String)
    (h : e.1 ≠ k) : dictGet (e :: d) k = dictGet d k := by
  rw [dictGet, List.find?_cons_of_neg _ (by simp [h]), dictGet]

/-- Looking a key up after filtering a unique-keyed dict: the surviving
value, if the kept entry passes the filter. -/
theorem dictGet_filter (pr : String × String → Bool) :
    ∀ (d : Dict) (k : String), (d.map Prod.fst).Nodup →
    dictGet (d.filter pr) k =
      (dictGet d k).bind (fun v => if pr (k, v) then some v else none) := by
  intro d
  induction d with
  | nil => intro k _; rfl
  | cons e d ih =>
    intro k hnd
    rw [List.map_cons] at hnd
    by_cases hk : e.1 = k
    · rw [dictGet_cons_pos e d k hk]
      by_cases hpr : pr e = true
      · rw [List.filter_cons_of_pos hpr, dictGet_cons_pos e _ k hk]
        have hpe : pr (k, e.2) = true := by rw [← hk]; exact hpr
        simp [hpe]
      · have hprf : pr e = false := by
          cases hb : pr e
          · rfl
          · exact absurd hb hpr
        rw [List.filter_cons_of_neg hpr]
        have hknotin : ∀ x ∈ d.filter pr, x.1 ≠ k := by
          intro x hx hxk
          have hxd := List.mem_of_mem_filter hx
          apply (List.nodup_cons.mp hnd).1
          rw [hk, ← hxk]
          exact List.mem_map_of_mem Prod.fst hxd
        rw [dictGet_no_key _ _ hknotin]
        have hpe : pr (k, e.2) = false := by rw [← hk]; exact hprf
        simp [hpe]
    · rw [dictGet_cons_neg e d k hk, ← ih k (List.nodup_cons.mp hnd).2]
      by_cases hpr : pr e = true
      · rw [List.filter_cons_of_pos hpr, dictGet_cons_neg e _ k hk]
      · rw [List.filter_cons_of_neg hpr]

theorem nodup_map_unique {α β : Type} (f : α → β) (l : List α)
    (hnd : (l.map f).Nodup) (a b : α) (ha : a ∈ l) (hb : b ∈ l)
    (hf : f a = f b) : a = b := by
  induction l with
  | nil => cases ha
  | cons x xs ih =>
    rw [List.map_cons] at hnd
    rcases List.mem_cons.mp ha with h1 | h1 <;>
      rcases List.mem_cons.mp hb with h2 | h2
    · rw [h1, h2]
    · exfalso
      apply (List.nodup_cons.mp hnd).1
      rw [h1] at hf
      exact hf ▸ List.mem_map_of_mem f h2
    · exfalso
      apply (List.nodup_cons.mp hnd).1
      rw [h2] at hf
      exact hf ▸ List.mem_map_of_mem f h1
    · exact ih (List.nodup_cons.mp hnd).2 h1 h2

theorem fsWrite_fresh (d : FS) (n : String) (c : List String)
    (h : d.any (fun f => f.1 = n) = false) :
    fsWrite d n c = d ++ [(n, c)] := by
  rw [fsWrite, if_neg]
  rw [h]
  exact Bool.false_ne_true

/-- Writing a list of files with fresh, pairwise distinct names appends
them in order. -/
theorem fsWrite_fold_fresh {α : Type} (name : α → String)
    (content : α → List String) :
    ∀ (l : List α) (d : FS),
    (∀ a ∈ l, d.any (fun f => f.1 = name a) = false) →
    (l.map name).Nodup →
    l.foldl (fun d a => fsWrite d (name a) (content a)) d =
      d ++ l.map (fun a => (name a, content a)) := by
  intro l
  induction l with
  | nil =>
    intro d _ _
    rw [List.foldl_nil, List.map_nil, List.append_nil]
  | cons a l ih =>
    intro d hfresh hnd
    rw [List.map_cons] at hnd
    rw [List.foldl_cons, fsWrite_fresh d _ _ (hfresh a (List.mem_cons_self _ _)),
      ih (d ++ [(name a, content a)]) ?fr (List.nodup_cons.mp hnd).2,
      List.map_cons, List.append_assoc, List.singleton_append]
    case fr =>
      intro b hb
      rw [List.any_append, hfresh b (List.mem_cons_of_mem a hb)]
      have hne : name a ≠ name b := by
        intro h
        exact (List.nodup_cons.mp hnd).1 (h ▸ List.mem_map_of_mem name hb)
      simp [hne]

theorem fsRead_eq_some_of_mem (f : FS) (e : String × List String)
    (he : e ∈ f) (hnd : (f.map Prod.fst).Nodup) : fsRead f e.1 = some e.2 := by
  rw [fsRead, assoc_find_of_mem f e he hnd]
  rfl

/-- `fsRead` is stable under permutation of a folder with distinct
filenames. -/
theorem fsRead_perm (f g : FS) (h : f.Perm g)
    (hnd : (f.map Prod.fst).Nodup) (n : String) : fsRead f n = fsRead g n := by
  have hndg : (g.map Prod.fst).Nodup := ((h.map Prod.fst).nodup_iff).mp hnd
  by_cases hex : ∃ e ∈ f, e.1 = n
  · obtain ⟨e, he, hen⟩ := hex
    rw [← hen, fsRead_eq_some_of_mem f e he hnd,
      fsRead_eq_some_of_mem g e (h.mem_iff.mp he) hndg]
  · have h1 : fsRead f n = none := by
      rw [fsRead, assoc_find_none f n (fun e he hne => hex ⟨e, he, hne⟩)]
      rfl
    have h2 : fsRead g n = none := by
      rw [fsRead, assoc_find_none g n
        (fun e he hne => hex ⟨e, h.mem_iff.mpr he, hne⟩)]
      rfl
    rw [h1, h2]

theorem perm_flatMap {α β : Type} (l₁ l₂ : List α) (f : α → List β)
    (h : l₁.Perm l₂) : (l₁.flatMap f).Perm (l₂.flatMap f) := by
  rw [List.flatMap_def, List.flatMap_def]
  exact (h.map f).flatten

theorem snd_mem_of_mem_enum {α : Type} {l : List α} {i : Nat} {a : α}
    (h : (i, a) ∈ l.enum) : a ∈ l := by
  have h2 := List.mem_map_of_mem Prod.snd h
  rwa [List.enum_map_snd] at h2

/-- The peer fragments of a folder tagged with their source filename, in
enumeration order (the peers `sync_config` assembles, with provenance). -/
def contribFiles (iface : String) (dir : FS) : List (String × Dict) :=
  dir.flatMap (fun nc =>
    if keepFile iface nc.1 then
      (parseLines nc.2).peers.map (fun q => (nc.1, stripName q))
    else [])

theorem contribFiles_snd (iface : String) (dir : FS) :
    (contribFiles iface dir).map Prod.snd =
      dir.flatMap (fun nc =>
        if keepFile iface nc.1 then (parseLines nc.2).peers.map stripName
        else []) := by
  induction dir with
  | nil => rfl
  | cons nc rest ih =>
    have hcf : contribFiles iface (nc :: rest) =
        (if keepFile iface nc.1 then
          (parseLines nc.2).peers.map (fun q => (nc.1, stripName q))
        else []) ++ contribFiles iface rest := rfl
    rw [hcf, List.map_append, ih, List.flatMap_cons]
    congr 1
    by_cases hk : keepFile iface nc.1 = true
    · rw [if_pos hk, if_pos hk, List.map_map]
      rfl
    · rw [if_neg hk, if_neg hk]
      rfl

/-- The `PublicKey -> fragment basename` pairs one folder entry
contributes to `reset_config`'s correlation index. -/
def keyPairsOf (iface : String) (nc : String × List String) : Dict :=
  if keepFile iface nc.1 then
    match (parseLines nc.2).peers with
    | [] => []
    | p :: _ =>
      if dictGetD p "PublicKey" ≠ "" then
        [(dictGetD p "PublicKey", pyDropRight nc.1 5)]
      else []
  else []

/-- One step of `reset_config`'s index-building fold. -/
def resetStep (iface : String) (m : Dict × Dict) (nc : String × List String) :
    Dict × Dict :=
  if keepFile iface nc.1 then
    match (parseLines nc.2).peers with
    | [] => m
    | p :: _ =>
      let nm := pyDropRight nc.1 5
      let pk := dictGetD p "PublicKey"
      let ips := dictGetD p "AllowedIPs"
      let m1 := if pk ≠ "" then dictSet m.1 pk nm else m.1
      let m2 := if ips ≠ "" then
                  (let nrm := normalizeAllowedIPs ips
                   if nrm ≠ "" then dictSet m.2 nrm nm else m.2)
                else m.2
      (m1, m2)
  else m

/-- The `PublicKey` component of `resetStep`. -/
def resetKeyStep (iface : String) (m1 : Dict) (nc : String × List String) :
    Dict :=
  if keepFile iface nc.1 then
    match (parseLines nc.2).peers with
    | [] => m1
    | p :: _ =>
      if dictGetD p "PublicKey" ≠ "" then
        dictSet m1 (dictGetD p "PublicKey") (pyDropRight nc.1 5)
      else m1
  else m1

theorem resetIndex_eq_foldl (iface : String) (dir : FS) :
    resetIndex iface dir = dir.foldl (resetStep iface) ([], []) := rfl

theorem resetStep_fst (iface : String) (m : Dict × Dict)
    (nc : String × List String) :
    (resetStep iface m nc).1 = resetKeyStep iface m.1 nc := by
  rw [resetStep, resetKeyStep]
  by_cases hk : keepFile iface nc.1 = true
  · rw [if_pos hk, if_pos hk]
    cases hp : (parseLines nc.2).peers with
    | nil => rfl
    | cons p r => rfl
  · rw [if_neg hk, if_neg hk]

theorem resetFoldl_fst (iface : String) : ∀ (dir : FS) (m : Dict × Dict),
    (dir.foldl (resetStep iface) m).1 =
      dir.foldl (resetKeyStep iface) m.1 := by
  intro dir
  induction dir with
  | nil => intro m; rfl
  | cons nc rest ih =>
    intro m
    rw [List.foldl_cons, List.foldl_cons, ih, resetStep_fst]

theorem keystep_foldl_flat (iface : String) : ∀ (dir : FS) (m1 : Dict),
    dir.foldl (resetKeyStep iface) m1 =
      (dir.flatMap (keyPairsOf iface)).foldl
        (fun d kv => dictSet d kv.1 kv.2) m1 := by
  intro dir
  induction dir with
  | nil => intro m1; rfl
  | cons nc rest ih =>
    intro m1
    rw [List.foldl_cons, List.flatMap_cons, List.foldl_append, ih]
    congr 1
    rw [resetKeyStep, keyPairsOf]
    by_cases hk : keepFile iface nc.1 = true
    · rw [if_pos hk, if_pos hk]
      cases hp : (parseLines nc.2).peers with
      | nil => rfl
      | cons p r =>
        show (if dictGetD p "PublicKey" ≠ "" then dictSet m1 (dictGetD p "PublicKey") (pyDropRight nc.1 5) else m1) = (if dictGetD p "PublicKey" ≠ "" then [(dictGetD p "PublicKey", pyDropRight nc.1 5)] else []).foldl (fun d kv => dictSet d kv.1 kv.2) m1
        by_cases hpk : dictGetD p "PublicKey" ≠ ""
        · rw [if_pos hpk, if_pos hpk]
          rfl
        · rw [if_neg hpk, if_neg hpk]
          rfl
    · rw [if_neg hk, if_neg hk]
      rfl

theorem foldl_dictSet_fresh : ∀ (pairs : Dict) (d : Dict),
    (∀ kv ∈ pairs, d.any (fun e => e.1 = kv.1) = false) →
    ((pairs.map Prod.fst).Nodup) →
    pairs.foldl (fun d kv => dictSet d kv.1 kv.2) d = d ++ pairs := by
  intro pairs
  induction pairs with
  | nil =>
    intro d _ _
    rw [List.foldl_nil, List.append_nil]
  | cons kv rest ih =>
    intro d hfresh hnd
    rw [List.map_cons] at hnd
    rw [List.foldl_cons, dictSet_fresh d _ _ (hfresh kv (List.mem_cons_self _ _)),
      ih (d ++ [(kv.1, kv.2)]) ?fr (List.nodup_cons.mp hnd).2,
      List.append_assoc, List.singleton_append]
    case fr =>
      intro e he
      rw [List.any_append, hfresh e (List.mem_cons_of_mem kv he)]
      have hne : kv.1 ≠ e.1 := by
        intro h
        exact (List.nodup_cons.mp hnd).1 (h ▸ List.mem_map_of_mem Prod.fst he)
      simp [hne]

/-- With globally distinct public keys, the `PublicKey` index of
`reset_config` is exactly the folder's key/basename pairs in order. -/
theorem resetIndex_byKey (iface : String) (dir : FS)
    (hnd : ((dir.flatMap (keyPairsOf iface)).map Prod.fst).Nodup) :
    (resetIndex iface dir).1 = dir.flatMap (keyPairsOf iface) := by
  rw [resetIndex_eq_foldl, resetFoldl_fst, keystep_foldl_flat,
    foldl_dictSet_fresh _ [] (fun kv _ => rfl) hnd, List.nil_append]

theorem mem_contribFiles (iface : String) (f : FS) (e : String × Dict)
    (he : e ∈ contribFiles iface f) :
    ∃ nc ∈ f, keepFile iface nc.1 = true ∧
      ∃ q ∈ (parseLines nc.2).peers, e = (nc.1, stripName q) := by
  rw [contribFiles, List.mem_flatMap] at he
  obtain ⟨nc, hnc, hin⟩ := he
  by_cases hk : keepFile iface nc.1 = true
  · rw [if_pos hk] at hin
    obtain ⟨q, hq, he2⟩ := List.mem_map.mp hin
    exact ⟨nc, hnc, hk, q, hq, he2.symm⟩
  · rw [if_neg hk] at hin
    cases hin

theorem dictGet_stripName_other (p : Dict) (k : String) (hk : k ≠ "_name") :
    dictGet (stripName p) k = dictGet p k := by
  induction p with
  | nil => rfl
  | cons e rest ih =>
    by_cases he : e.1 = "_name"
    · have h1 : stripName (e :: rest) = stripName rest := by
        rw [stripName, stripName, List.filter_cons_of_neg (by simp [he])]
      rw [h1, ih, dictGet_cons_neg e rest k (by rw [he]; exact fun h => hk h.symm)]
    · have h1 : stripName (e :: rest) = e :: stripName rest := by
        rw [stripName, stripName, List.filter_cons_of_pos (by simp [he])]
      by_cases hek : e.1 = k
      · rw [h1, dictGet_cons_pos e _ k hek, dictGet_cons_pos e _ k hek]
      · rw [h1, dictGet_cons_neg e _ k hek, dictGet_cons_neg e _ k hek, ih]

theorem dictGet_mem (d : Dict) (k v : String) (h : dictGet d k = some v) :
    ∃ e ∈ d, e.1 = k ∧ e.2 = v := by
  rw [dictGet] at h
  cases hf : d.find? (fun kv => kv.1 = k) with
  | none => rw [hf] at h; cases h
  | some e =>
    rw [hf] at h
    refine ⟨e, List.mem_of_find?_eq_some hf, ?_, ?_⟩
    · simpa using List.find?_some hf
    · simpa using h

theorem keyPairs_eq_contrib_map (iface : String) : ∀ (dir : FS),
    (∀ nc ∈ dir, keepFile iface nc.1 = true →
      (parseLines nc.2).peers.length ≤ 1) →
    (∀ nc ∈ dir, keepFile iface nc.1 = true →
      ∀ q ∈ (parseLines nc.2).peers, dictGetD q "PublicKey" ≠ "") →
    dir.flatMap (keyPairsOf iface) =
      (contribFiles iface dir).map
        (fun e => (dictGetD e.2 "PublicKey", pyDropRight e.1 5)) := by
  intro dir
  induction dir with
  | nil => intro _ _; rfl
  | cons nc rest ih =>
    intro hone hpk
    have hcf : contribFiles iface (nc :: rest) =
        (if keepFile iface nc.1 then
          (parseLines nc.2).peers.map (fun q => (nc.1, stripName q))
        else []) ++ contribFiles iface rest := rfl
    rw [List.flatMap_cons, hcf, List.map_append,
      ih (fun x hx => hone x (List.mem_cons_of_mem nc hx))
        (fun x hx => hpk x (List.mem_cons_of_mem nc hx))]
    congr 1
    rw [keyPairsOf]
    by_cases hk : keepFile iface nc.1 = true
    · rw [if_pos hk, if_pos hk]
      cases hp : (parseLines nc.2).peers with
      | nil => rfl
      | cons p r =>
        have hr : r = [] := by
          have hlen := hone nc (List.mem_cons_self _ _) hk
          rw [hp, List.length_cons] at hlen
          exact List.length_eq_zero.mp (Nat.le_zero.mp (Nat.succ_le_succ_iff.mp hlen))
        subst hr
        have hpk2 : dictGetD p "PublicKey" ≠ "" :=
          hpk nc (List.mem_cons_self _ _) hk p
            (by rw [hp]; exact List.mem_cons_self _ _)
        have hsp : dictGetD (stripName p) "PublicKey" = dictGetD p "PublicKey" := by
          rw [dictGetD, dictGetD, dictGet_stripName_other p "PublicKey" (by decide)]
        show (if dictGetD p "PublicKey" ≠ "" then [(dictGetD p "PublicKey", pyDropRight nc.1 5)] else []) = ([p].map (fun q => (nc.1, stripName q))).map (fun e => (dictGetD e.2 "PublicKey", pyDropRight e.1 5))
        rw [if_pos hpk2]
        show _ = [(dictGetD (stripName p) "PublicKey", pyDropRight nc.1 5)]
        rw [hsp]
    · rw [if_neg hk, if_neg hk]
      rfl

theorem contribFiles_fst_sublist (iface : String) : ∀ (dir : FS),
    (∀ nc ∈ dir, keepFile iface nc.1 = true →
      (parseLines nc.2).peers.length ≤ 1) →
    ((contribFiles iface dir).map Prod.fst).Sublist (dir.map Prod.fst) := by
  intro dir
  induction dir with
  | nil => intro _; exact List.Sublist.refl _
  | cons nc rest ih =>
    intro hone
    have hcf : contribFiles iface (nc :: rest) =
        (if keepFile iface nc.1 then
          (parseLines nc.2).peers.map (fun q => (nc.1, stripName q))
        else []) ++ contribFiles iface rest := rfl
    rw [hcf, List.map_append, List.map_cons]
    by_cases hk : keepFile iface nc.1 = true
    · cases hp : (parseLines nc.2).peers with
      | nil =>
        simp only [if_pos hk, hp, List.map_nil, List.nil_append]
        exact (ih (fun x hx => hone x (List.mem_cons_of_mem nc hx))).cons _
      | cons p r =>
        have hr : r = [] := by
          have hlen := hone nc (List.mem_cons_self _ _) hk
          rw [hp, List.length_cons] at hlen
          exact List.length_eq_zero.mp (Nat.le_zero.mp (Nat.succ_le_succ_iff.mp hlen))
        subst hr
        simp only [if_pos hk, hp, List.map_cons, List.map_nil]
        show (nc.1 :: (contribFiles iface rest).map Prod.fst).Sublist
          (nc.1 :: rest.map Prod.fst)
        exact (ih (fun x hx => hone x (List.mem_cons_of_mem nc hx))).cons₂ _
    · simp only [if_neg hk, List.nil_append]
      exact (ih (fun x hx => hone x (List.mem_cons_of_mem nc hx))).cons _

theorem flatMap_singleton_eq_map {α β : Type} (l : List α) (h : α → β) :
    l.flatMap (fun a => [h a]) = l.map h := by
  induction l with
  | nil => rfl
  | cons a as ih =>
    rw [List.flatMap_cons, List.map_cons, ih]
    rfl

theorem filter_eq_nil_of_all {α : Type} (l : List α) (p : α → Bool)
    (h : ∀ x ∈ l, p x = false) : l.filter p = [] := by
  induction l with
  | nil => rfl
  | cons a as ih =>
    rw [List.filter_cons_of_neg, ih (fun x hx => h x (List.mem_cons_of_mem a hx))]
    rw [h a (List.mem_cons_self a as)]
    exact Bool.false_ne_true

theorem flatMap_congr_mem {α β : Type} (l : List α) (f g : α → List β)
    (h : ∀ a ∈ l, f a = g a) : l.flatMap f = l.flatMap g := by
  induction l with
  | nil => rfl
  | cons a as ih =>
    rw [List.flatMap_cons, List.flatMap_cons, h a (List.mem_cons_self a as),
      ih (fun x hx => h x (List.mem_cons_of_mem a hx))]

/-- A kept fragment filename is its basename plus `.conf`. -/
theorem keepFile_basename (iface n : String) (hk : keepFile iface n = true) :
    pyDropRight n 5 ++ ".conf" = n := by
  rw [keepFile, Bool.and_eq_true] at hk
  obtain ⟨hsuf, -⟩ := hk
  rw [pyEndsWith] at hsuf
  obtain ⟨w, hw⟩ := List.isSuffixOf_iff_suffix.mp hsuf
  apply String.ext
  rw [String.data_append]
  show n.data.take (n.data.length - 5) ++ (".conf" : String).data = n.data
  rw [← hw, List.length_append]
  have hlen : w.length + (".conf" : String).data.length - 5 = w.length := by
    show w.length + 5 - 5 = w.length
    omega
  rw [hlen, List.take_left]

theorem keepFile_ne (iface n : String) (hk : keepFile iface n = true) :
    n ≠ iface ++ ".conf" := by
  rw [keepFile, Bool.and_eq_true] at hk
  simpa using hk.2

theorem keepFile_self (iface : String) :
    keepFile iface (iface ++ ".conf") = false := by
  rw [keepFile]
  simp

/-- `resolvePeerName` on a record with no `_name`, a nonempty `PublicKey`
that the index maps to a nonempty name: the index wins. -/
theorem resolvePeerName_byKey (bk bi : Dict) (idx : Nat) (p : Dict)
    (nm : String)
    (h0 : dictGetD p "_name" = "")
    (hpkne : dictGetD p "PublicKey" ≠ "")
    (hlook : dictGet bk (dictGetD p "PublicKey") = some nm)
    (hnm : nm ≠ "") :
    resolvePeerName bk bi idx p = nm := by
  simp only [resolvePeerName]
  rw [h0, hlook]
  simp [hnm, hpkne]

/-- The canonical form of one assembled peer: stripping `_name` and falsy
values from a clean parsed record with a nonempty `PublicKey`. -/
theorem peer_record_facts (q : Dict) (hclean : CleanRec q)
    (hpkq : dictGetD q "PublicKey" ≠ "") :
    (∀ kv ∈ (stripName q).filter (fun kv => kv.2 ≠ ""), CleanKV kv ∧ kv.2 ≠ "") ∧
    (((stripName q).filter (fun kv => kv.2 ≠ "")).map Prod.fst).Nodup ∧
    (stripName q).filter (fun kv => kv.2 ≠ "") ≠ [] ∧
    (∀ kv ∈ (stripName q).filter (fun kv => kv.2 ≠ ""), kv.1 ≠ "_name") ∧
    dictGetD ((stripName q).filter (fun kv => kv.2 ≠ "")) "PublicKey"
      = dictGetD q "PublicKey" ∧
    dictGetD ((stripName q).filter (fun kv => kv.2 ≠ "")) "_name" = "" := by
  have hsubq : ((stripName q).filter (fun kv => kv.2 ≠ "")).Sublist q :=
    (List.filter_sublist _).trans (List.filter_sublist _)
  have hndsq : ((stripName q).map Prod.fst).Nodup :=
    List.Nodup.sublist ((List.filter_sublist _).map Prod.fst) hclean.1
  have hnoname : ∀ kv ∈ (stripName q).filter (fun kv => kv.2 ≠ ""), kv.1 ≠ "_name" := by
    intro kv hkv
    have h2 := (List.mem_filter.mp (List.mem_of_mem_filter hkv)).2
    simpa using h2
  obtain ⟨v, hgv, hvne⟩ : ∃ v, dictGet q "PublicKey" = some v ∧ v ≠ "" := by
    cases hg : dictGet q "PublicKey" with
    | none =>
      exfalso
      apply hpkq
      rw [dictGetD, hg]
      rfl
    | some v =>
      refine ⟨v, rfl, ?_⟩
      intro hv0
      apply hpkq
      rw [dictGetD, hg, hv0]
      rfl
  refine ⟨?_, ?_, ?_, hnoname, ?_, ?_⟩
  · intro kv hkv
    refine ⟨hclean.2 kv (hsubq.subset hkv), ?_⟩
    have h2 := (List.mem_filter.mp hkv).2
    simpa using h2
  · exact List.Nodup.sublist (hsubq.map Prod.fst) hclean.1
  · obtain ⟨e, heq, he1, he2⟩ := dictGet_mem q "PublicKey" v hgv
    have hesn : e ∈ stripName q := by
      rw [stripName, List.mem_filter]
      refine ⟨heq, ?_⟩
      simp [he1]
    have hep : e ∈ (stripName q).filter (fun kv => kv.2 ≠ "") := by
      rw [List.mem_filter]
      refine ⟨hesn, ?_⟩
      simp [he2, hvne]
    exact List.ne_nil_of_mem hep
  · rw [dictGetD, dictGetD, dictGet_filter _ (stripName q) _ hndsq,
      dictGet_stripName_other q "PublicKey" (by decide), hgv]
    simp [hvne]
  · rw [dictGetD, dictGet_no_key _ _ (fun e he hek => hnoname e he hek)]
    rfl

theorem enum_map_snd_comp {α β : Type} (l : List α) (F : α → β) :
    l.enum.map (fun ie => F ie.2) = l.map F := by
  have h : (fun ie : Nat × α => F ie.2) = F ∘ Prod.snd := rfl
  rw [h, ← List.map_map, List.enum_map_snd]

/-- The filename `reset_config` writes for the peer at an enum position of
the canonical list (before basename recovery). -/
def resetName (iface : String) (f : FS) (ie : Nat × (String × Dict)) : String :=
  resolvePeerName (resetIndex iface f).1 (resetIndex iface f).2 ie.1
    (ie.2.2.filter (fun kv => kv.2 ≠ "")) ++ ".conf"

/-- The fragment content `reset_config` writes for that peer. -/
def resetContent (iface : String) (f : FS) (ie : Nat × (String × Dict)) :
    List String :=
  writeLines { interface := [], peers := [stripName (ie.2.2.filter (fun kv => kv.2 ≠ ""))] } (some (resolvePeerName (resetIndex iface f).1 (resetIndex iface f).2 ie.1 (ie.2.2.filter (fun kv => kv.2 ≠ ""))))

/-- The peers `sync_config` assembles from a folder. -/
def syncPeers (iface : String) (dir : FS) : List Dict :=
  dir.flatMap (fun nc =>
    if keepFile iface nc.1 then (parseLines nc.2).peers.map stripName else [])

theorem syncPeers_eq (iface : String) (dir : FS) :
    syncPeers iface dir = dir.flatMap (fun nc =>
      if keepFile iface nc.1 then (parseLines nc.2).peers.map stripName
      else []) := rfl

theorem sync_ok (iface : String) (f : FS) (frag : List String)
    (hfrag : fsRead f (iface ++ ".conf") = some frag)
    (hfragpeers : (parseLines frag).peers = []) :
    syncConfig iface f = Except.ok (writeLines { interface := (parseLines frag).interface, peers := syncPeers iface f } none) := by
  have hassem : syncAssemble iface f (parseLines frag) = { interface := (parseLines frag).interface, peers := syncPeers iface f } := by
    show { interface := (parseLines frag).interface, peers := f.foldl (syncStep iface) (parseLines frag).peers } = ({ interface := (parseLines frag).interface, peers := syncPeers iface f } : WGConfig)
    rw [syncFold_eq, hfragpeers, List.nil_append, syncPeers_eq]
  rw [syncConfig, hfrag]
  show Except.ok (writeLines (syncAssemble iface f (parseLines frag)) none) = _
  rw [hassem]

theorem writeLines_map_filter (I : Dict) (ps : List Dict) (pn : Option String) :
    writeLines { interface := I, peers := ps.map (fun p => p.filter (fun kv => kv.2 ≠ "")) } pn = writeLines { interface := I, peers := ps } pn := by
  cases ps with
  | nil => rfl
  | cons p rest =>
    rw [List.map_cons, writeLines_consPeers, writeLines_consPeers,
      peerBlock_filter, flatMap_peerBlock_filter]

/-- Per peer-fragment facts used when `reset_config` regenerates the
folder: the fragment is still a kept file, the resolved name is its
basename, the basename plus `.conf` is the original filename, and its
record carries no `_name`. -/
theorem reset_member_facts (iface : String) (f : FS)
    (hone : ∀ nc ∈ f, keepFile iface nc.1 = true →
      (parseLines nc.2).peers.length ≤ 1)
    (hpk : ∀ nc ∈ f, keepFile iface nc.1 = true →
      ∀ q ∈ (parseLines nc.2).peers, dictGetD q "PublicKey" ≠ "")
    (hbase : ∀ nc ∈ f, keepFile iface nc.1 = true → pyDropRight nc.1 5 ≠ "")
    (hpknd : ((f.flatMap (keyPairsOf iface)).map Prod.fst).Nodup) :
    ∀ ie : Nat × (String × Dict), ie ∈ (contribFiles iface f).enum →
      keepFile iface ie.2.1 = true ∧
      resolvePeerName (resetIndex iface f).1 (resetIndex iface f).2 ie.1
        (ie.2.2.filter (fun kv => kv.2 ≠ "")) = pyDropRight ie.2.1 5 ∧
      pyDropRight ie.2.1 5 ++ ".conf" = ie.2.1 ∧
      stripName (ie.2.2.filter (fun kv => kv.2 ≠ ""))
        = ie.2.2.filter (fun kv => kv.2 ≠ "") := by
  intro ie hie
  have he : ie.2 ∈ contribFiles iface f :=
    snd_mem_of_mem_enum (l := contribFiles iface f) (i := ie.1) (a := ie.2) hie
  obtain ⟨nc, hnc, hk, q, hq, he2⟩ := mem_contribFiles iface f ie.2 he
  have he21 : ie.2.1 = nc.1 := by rw [he2]
  have he22 : ie.2.2 = stripName q := by rw [he2]
  have hcleanq := (parse_clean nc.2).2 q hq
  have hfacts := peer_record_facts q hcleanq (hpk nc hnc hk q hq)
  have hA : dictGetD (ie.2.2.filter (fun kv => kv.2 ≠ "")) "PublicKey"
      = dictGetD q "PublicKey" := by
    rw [he22]
    exact hfacts.2.2.2.2.1
  have hB : dictGetD ie.2.2 "PublicKey" = dictGetD q "PublicKey" := by
    rw [he22, dictGetD, dictGetD, dictGet_stripName_other q "PublicKey" (by decide)]
  have hmem3 : (fun e : String × Dict =>
      (dictGetD e.2 "PublicKey", pyDropRight e.1 5)) ie.2 ∈
      (contribFiles iface f).map (fun e =>
        (dictGetD e.2 "PublicKey", pyDropRight e.1 5)) :=
    List.mem_map_of_mem _ he
  have hnd3 : (((contribFiles iface f).map (fun e =>
      (dictGetD e.2 "PublicKey", pyDropRight e.1 5))).map Prod.fst).Nodup := by
    rw [← keyPairs_eq_contrib_map iface f hone hpk]
    exact hpknd
  have hC := dictGet_of_mem_nodup _ _ hmem3 hnd3
  have hlook : dictGet (resetIndex iface f).1
      (dictGetD (ie.2.2.filter (fun kv => kv.2 ≠ "")) "PublicKey")
      = some (pyDropRight ie.2.1 5) := by
    rw [hA, resetIndex_byKey iface f hpknd,
      keyPairs_eq_contrib_map iface f hone hpk, ← hB]
    exact hC
  have hkie : keepFile iface ie.2.1 = true := by rw [he21]; exact hk
  refine ⟨hkie, ?_, by rw [he21]; exact keepFile_basename iface nc.1 hk, ?_⟩
  · apply resolvePeerName_byKey _ _ _ _ _ ?h0 ?hpkne hlook ?hnm
    case h0 =>
      rw [he22]
      exact hfacts.2.2.2.2.2
    case hpkne =>
      rw [hA]
      exact hpk nc hnc hk q hq
    case hnm =>
      rw [he21]
      exact hbase nc hnc hk
  · rw [he22, stripName, List.filter_eq_self.mpr]
    intro kv hkv
    have := hfacts.2.2.2.1 kv hkv
    simp [this]

/-- The interface fragment `reset_config` writes. -/
def ifaceFragment (iface : String) (I : Dict) : String × List String :=
  (iface ++ ".conf", writeLines { interface := I, peers := [] } none)

/-- The peer fragment `reset_config` writes for one contribution, keyed by
the contribution's original filename (its resolved name recovers it). -/
def peerFragment (e : String × Dict) : String × List String :=
  (e.1, writeLines { interface := [], peers := [e.2.filter (fun kv => kv.2 ≠ "")] } (some (pyDropRight e.1 5)))

/-- `reset_config` on a canonical file whose peers are exactly the
folder's contributions: the regenerated folder is the interface fragment
followed by one fragment per contribution, keyed by the original
filename. -/
theorem reset_output (iface : String) (f : FS) (ctext : List String)
    (hone : ∀ nc ∈ f, keepFile iface nc.1 = true →
      (parseLines nc.2).peers.length ≤ 1)
    (hpk : ∀ nc ∈ f, keepFile iface nc.1 = true →
      ∀ q ∈ (parseLines nc.2).peers, dictGetD q "PublicKey" ≠ "")
    (hbase : ∀ nc ∈ f, keepFile iface nc.1 = true → pyDropRight nc.1 5 ≠ "")
    (hpknd : ((f.flatMap (keyPairsOf iface)).map Prod.fst).Nodup)
    (hnodup : (f.map Prod.fst).Nodup)
    (hpeers : (parseLines ctext).peers =
      (contribFiles iface f).map (fun e => e.2.filter (fun kv => kv.2 ≠ ""))) :
    resetConfig iface (some ctext) f = Except.ok (ifaceFragment iface (parseLines ctext).interface :: (contribFiles iface f).map peerFragment) := by
  have hmem2 := reset_member_facts iface f hone hpk hbase hpknd
  have hnameeq : ∀ ie ∈ (contribFiles iface f).enum,
      resetName iface f ie = ie.2.1 := by
    intro ie hie
    obtain ⟨-, hres, hb, -⟩ := hmem2 ie hie
    rw [resetName, hres, hb]
  have hnames : (contribFiles iface f).enum.map (resetName iface f)
      = (contribFiles iface f).map Prod.fst := by
    rw [List.map_congr_left hnameeq]
    exact enum_map_snd_comp _ Prod.fst
  have hcfnd : ((contribFiles iface f).map Prod.fst).Nodup :=
    List.Nodup.sublist (contribFiles_fst_sublist iface f hone) hnodup
  have hnodup2 : ((contribFiles iface f).enum.map (resetName iface f)).Nodup := by
    rw [hnames]
    exact hcfnd
  have hfresh : ∀ ie ∈ (contribFiles iface f).enum,
      (fsWrite [] (iface ++ ".conf")
        (writeLines { interface := (parseLines ctext).interface, peers := [] }
          none)).any (fun f0 => f0.1 = resetName iface f ie) = false := by
    intro ie hie
    show Bool.or (decide ((iface ++ ".conf") = resetName iface f ie)) false = false
    rw [hnameeq ie hie]
    obtain ⟨hk, -, -, -⟩ := hmem2 ie hie
    have hne := keepFile_ne iface ie.2.1 hk
    simp [Ne.symm hne]
  have hpairs : ∀ ie ∈ (contribFiles iface f).enum,
      (resetName iface f ie, resetContent iface f ie) = peerFragment ie.2 := by
    intro ie hie
    obtain ⟨-, hres, hb, hsn⟩ := hmem2 ie hie
    rw [resetName, resetContent, hsn, hres, hb, peerFragment]
  simp only [resetConfig]
  congr 1
  rw [hpeers, List.enum_map, List.foldl_map]
  show (contribFiles iface f).enum.foldl (fun d ie => fsWrite d (resetName iface f ie) (resetContent iface f ie)) (fsWrite [] (iface ++ ".conf") (writeLines { interface := (parseLines ctext).interface, peers := [] } none)) = _
  rw [fsWrite_fold_fresh (resetName iface f) (resetContent iface f)
    (contribFiles iface f).enum _ hfresh hnodup2,
    List.map_congr_left hpairs, enum_map_snd_comp _ peerFragment]
  rfl

/-- C1 (counterexample to the claim as stated): round-trip stability fails
for a folder whose peers lack correlation data.  With enumeration order
`[wg0.conf, x.conf, peer1.conf]`, the key-less `x.conf` peer falls back to
the generated name `peer1`, which collides with the `peer1.conf` peer's
resolved name; the second fragment overwrites the first, so the second
sync sees one peer where the first saw two. -/
def c1Dir : FS :=
  [("wg0.conf", ["[Interface]", "Address = 10.0.0.1/24"]),
   ("x.conf", ["[Peer]", "Endpoint = 1.2.3.4:51820"]),
   ("peer1.conf", ["[Peer]", "PublicKey = K", "AllowedIPs = 10.0.0.2/32"])]

theorem c1_roundtrip_counterexample :
    ∃ t₁ f' t₂, syncConfig "wg0" c1Dir = Except.ok t₁ ∧
      resetConfig "wg0" (some t₁) c1Dir = Except.ok f' ∧
      syncConfig "wg0" f' = Except.ok t₂ ∧
      (parseLines t₁).peers.length = 2 ∧
      (parseLines t₂).peers.length = 1 := by
  refine ⟨_, _, _, rfl, rfl, rfl, ?_, ?_⟩ <;> decide

/-- C1 (amended): sync, then reset, then sync round-trips modulo peer
order, under the hygiene the claim implicitly assumes: the interface
fragment holds no peers, filenames are distinct, every peer fragment
holds at most one peer, each with a nonempty `PublicKey`, public keys are
globally distinct, and no fragment is named bare `.conf`.  Then the first
sync and the reset succeed, and a second sync of the regenerated folder
(in any enumeration order) yields a canonical file with the same
interface section and a permutation of the first sync's peers. -/
theorem c1_roundtrip_modulo_order (iface : String) (f : FS)
    (frag : List String)
    (hfrag : fsRead f (iface ++ ".conf") = some frag)
    (hfragpeers : (parseLines frag).peers = [])
    (hnodup : (f.map Prod.fst).Nodup)
    (hone : ∀ nc ∈ f, keepFile iface nc.1 = true →
      (parseLines nc.2).peers.length ≤ 1)
    (hpk : ∀ nc ∈ f, keepFile iface nc.1 = true →
      ∀ q ∈ (parseLines nc.2).peers, dictGetD q "PublicKey" ≠ "")
    (hbase : ∀ nc ∈ f, keepFile iface nc.1 = true → pyDropRight nc.1 5 ≠ "")
    (hpknd : ((f.flatMap (keyPairsOf iface)).map Prod.fst).Nodup) :
    ∃ t₁ f', syncConfig iface f = Except.ok t₁ ∧
      resetConfig iface (some t₁) f = Except.ok f' ∧
      ∀ g : FS, f'.Perm g → ∃ t₂, syncConfig iface g = Except.ok t₂ ∧
        (parseLines t₂).interface = (parseLines t₁).interface ∧
        (parseLines t₂).peers.Perm (parseLines t₁).peers := by
  have hCFfacts : ∀ p ∈ (contribFiles iface f).map
      (fun e => e.2.filter (fun kv => kv.2 ≠ "")),
      (∀ kv ∈ p, CleanKV kv ∧ kv.2 ≠ "") ∧ (p.map Prod.fst).Nodup ∧ p ≠ [] := by
    intro p hp
    obtain ⟨e, he, hpe⟩ := List.mem_map.mp hp
    obtain ⟨nc, hnc, hk, q, hq, he2⟩ := mem_contribFiles iface f e he
    have hfacts := peer_record_facts q ((parse_clean nc.2).2 q hq)
      (hpk nc hnc hk q hq)
    have he22 : e.2 = stripName q := by rw [he2]
    rw [← hpe, he22]
    exact ⟨hfacts.1, hfacts.2.1, hfacts.2.2.1⟩
  have hsyncCF : syncPeers iface f = (contribFiles iface f).map Prod.snd := by
    rw [syncPeers_eq, ← contribFiles_snd]
  have hmapfilter : (contribFiles iface f).map
      (fun e => e.2.filter (fun kv => kv.2 ≠ "")) =
      ((contribFiles iface f).map Prod.snd).map
        (fun p => p.filter (fun kv => kv.2 ≠ "")) := by
    rw [List.map_map]
    rfl
  have hI0 : CleanRec (parseLines frag).interface := (parse_clean frag).1
  have hparse1 : parseLines (writeLines { interface := (parseLines frag).interface, peers := syncPeers iface f } none) = { interface := (parseLines frag).interface, peers := (contribFiles iface f).map (fun e => e.2.filter (fun kv => kv.2 ≠ "")) } := by
    rw [hsyncCF, ← writeLines_map_filter, ← hmapfilter]
    exact parse_write_none _ _ hI0 hCFfacts
  set T1 := writeLines { interface := (parseLines frag).interface, peers := syncPeers iface f } none with hT1
  have hreset := reset_output iface f T1 hone hpk hbase hpknd hnodup
    (by rw [hparse1])
  set F' := ifaceFragment iface (parseLines T1).interface ::
    (contribFiles iface f).map peerFragment with hF'
  refine ⟨T1, F', sync_ok iface f frag hfrag hfragpeers, hreset, ?_⟩
  intro g hg
  have hI0eq : (parseLines T1).interface = (parseLines frag).interface := by
    rw [hparse1]
  have hicontent : parseLines (writeLines { interface := (parseLines T1).interface, peers := [] } none) = { interface := (parseLines T1).interface, peers := [] } :=
    parse_write_none _ [] (by rw [hI0eq]; exact hI0)
      (fun p hp => absurd hp (List.not_mem_nil p))
  have hcfnd : ((contribFiles iface f).map Prod.fst).Nodup :=
    List.Nodup.sublist (contribFiles_fst_sublist iface f hone) hnodup
  have hpfnames : ((contribFiles iface f).map peerFragment).map Prod.fst
      = (contribFiles iface f).map Prod.fst := by
    rw [List.map_map]
    rfl
  have hndF' : (F'.map Prod.fst).Nodup := by
    rw [hF', List.map_cons, hpfnames]
    refine List.nodup_cons.mpr ⟨?_, hcfnd⟩
    intro hmem
    obtain ⟨e, he, hee⟩ := List.mem_map.mp hmem
    obtain ⟨nc, hnc, hk, q, hq, he2⟩ := mem_contribFiles iface f e he
    have he1 : e.1 = nc.1 := by rw [he2]
    exact keepFile_ne iface nc.1 hk (by rw [← he1]; exact hee)
  have hreadg : fsRead g (iface ++ ".conf") = some (writeLines { interface := (parseLines T1).interface, peers := [] } none) := by
    rw [← fsRead_perm F' g hg hndF' (iface ++ ".conf")]
    rw [hF', fsRead, List.find?_cons_of_pos _ (by simp [ifaceFragment])]
    rfl
  have hsync2 := sync_ok iface g _ hreadg (by rw [hicontent])
  have hsync2' : syncConfig iface g = Except.ok (writeLines { interface := (parseLines T1).interface, peers := syncPeers iface g } none) := by
    rw [hsync2, hicontent]
  have hf'flat : F'.flatMap (fun nc => if keepFile iface nc.1 then (parseLines nc.2).peers.map stripName else []) = (contribFiles iface f).map (fun e => e.2.filter (fun kv => kv.2 ≠ "")) := by
    rw [hF', List.flatMap_cons]
    have hhead : (if keepFile iface (ifaceFragment iface (parseLines T1).interface).1 then (parseLines (ifaceFragment iface (parseLines T1).interface).2).peers.map stripName else []) = [] := by
      show (if keepFile iface (iface ++ ".conf") = true then (parseLines (writeLines { interface := (parseLines T1).interface, peers := [] } none)).peers.map stripName else []) = []
      rw [keepFile_self]
      rfl
    rw [hhead, List.nil_append, List.flatMap_map]
    rw [flatMap_congr_mem _ _
      (fun e => [e.2.filter (fun kv => kv.2 ≠ "")]) ?hcmem]
    · exact flatMap_singleton_eq_map _ _
    case hcmem =>
      intro e he
      obtain ⟨nc, hnc, hk, q, hq, he2⟩ := mem_contribFiles iface f e he
      have he1 : e.1 = nc.1 := by rw [he2]
      have he22 : e.2 = stripName q := by rw [he2]
      have hke : keepFile iface e.1 = true := by rw [he1]; exact hk
      have hfacts := peer_record_facts q ((parse_clean nc.2).2 q hq)
        (hpk nc hnc hk q hq)
      obtain ⟨c0, hc0, hps⟩ := parse_write_single
        (e.2.filter (fun kv => kv.2 ≠ "")) (pyDropRight e.1 5)
        (by rw [he22]; exact hfacts.1)
        (by rw [he22]; exact hfacts.2.1)
        (by rw [he22]; exact hfacts.2.2.1)
        (by rw [he22]; exact hfacts.2.2.2.1)
      show (if keepFile iface e.1 = true then (parseLines (writeLines { interface := [], peers := [e.2.filter (fun kv => kv.2 ≠ "")] } (some (pyDropRight e.1 5)))).peers.map stripName else []) = [e.2.filter (fun kv => kv.2 ≠ "")]
      rw [if_pos hke, hps]
      show [stripName (c0 ++ e.2.filter (fun kv => kv.2 ≠ ""))] = [e.2.filter (fun kv => kv.2 ≠ "")]
      rw [stripName, List.filter_append,
        filter_eq_nil_of_all c0 _ (fun kv hkv => by simp [hc0 kv hkv]),
        List.nil_append,
        List.filter_eq_self.mpr (fun kv hkv => by
          simp [(by rw [he22] at hkv; exact hfacts.2.2.2.1 kv hkv : kv.1 ≠ "_name")])]
  have hpermpeers : (syncPeers iface g).Perm ((contribFiles iface f).map (fun e => e.2.filter (fun kv => kv.2 ≠ ""))) := by
    rw [← hf'flat, syncPeers_eq]
    exact (perm_flatMap F' g _ hg).symm
  have hGfacts : ∀ p ∈ syncPeers iface g,
      (∀ kv ∈ p, CleanKV kv ∧ kv.2 ≠ "") ∧ (p.map Prod.fst).Nodup ∧ p ≠ [] := by
    intro p hp
    exact hCFfacts p (hpermpeers.mem_iff.mp hp)
  have hparse2 : parseLines (writeLines { interface := (parseLines T1).interface, peers := syncPeers iface g } none) = { interface := (parseLines T1).interface, peers := syncPeers iface g } :=
    parse_write_none _ _ (by rw [hI0eq]; exact hI0) hGfacts
  refine ⟨_, hsync2', ?_, ?_⟩
  · rw [hparse2, hparse1]
  · rw [hparse2, hparse1]
    exact hpermpeers

/-- A hygienic folder for the amended round-trip: one interface fragment
and one keyed peer fragment. -/
def c1WDir : FS :=
  [("wg0.conf", ["[Interface]", "Address = 10.0.0.1/24"]),
   ("alice.conf", ["[Peer]", "PublicKey = K", "AllowedIPs = 10.0.0.2/32"])]

theorem c1_roundtrip_modulo_order_witness :
    ∃ t₁ f', syncConfig "wg0" c1WDir = Except.ok t₁ ∧
      resetConfig "wg0" (some t₁) c1WDir = Except.ok f' ∧
      ∀ g : FS, f'.Perm g → ∃ t₂, syncConfig "wg0" g = Except.ok t₂ ∧
        (parseLines t₂).interface = (parseLines t₁).interface ∧
        (parseLines t₂).peers.Perm (parseLines t₁).peers :=
  c1_roundtrip_modulo_order "wg0" c1WDir
    ["[Interface]", "Address = 10.0.0.1/24"]
    rfl rfl (by decide) (by decide) (by decide) (by decide) (by decide)

end WireGuardManager
